import Mathlib

/-!
Fontset handler (`src/src/fontset.c`).

A shallow embedding of the fontset handler: the character-keyed store of a
fontset (`fontset_ref`, `fontset_ref_via_base`, `fontset_set`), the table of
fontsets with its id allocation (`make_fontset`, `free_face_fontset`), the
resolution of a face for a character (`face_for_char`) and the Lisp entry
points that change fontsets (`Fnew_fontset`, `Fset_fontset_font`).

Lisp objects are values of `Lisp_Object`.  Char tables that are fontsets are
mutable objects that other objects point to (the fontset table, the parent
slot of a realized fontset), so they live in an explicit heap, addressed by
natural numbers; sub char tables are owned by exactly one slot and are kept
as values.  Vectors are lists, C `int`s are `Int`.  A read outside a vector or
of a slot of the wrong type is undefined in C; the embedding returns `none`
there.
-/

namespace Fontset

/-! ## Lisp objects -/

/-- Lisp objects, as far as fontsets hold them: `nil`, `t`, other symbols,
integers, strings (their bytes), conses, frames and sub char tables.  A sub
char table has a default value and 128 ordinary slots indexed by a position
code; the slots are given as a function of the index. -/
inductive Lisp_Object where
  | nil : Lisp_Object
  | t : Lisp_Object
  | symbol (name : List Char) : Lisp_Object
  | int (n : Int) : Lisp_Object
  | str (data : List Char) : Lisp_Object
  | cons (car cdr : Lisp_Object) : Lisp_Object
  | frame (f : Nat) : Lisp_Object
  | sub_char_table (defalt : Lisp_Object) (contents : Int → Lisp_Object) : Lisp_Object

instance : Inhabited Lisp_Object := ⟨Lisp_Object.nil⟩

/-- The macro `NILP`. -/
def NILP : Lisp_Object → Bool
  | .nil => true
  | _ => false

/-- The macro `CONSP`. -/
def CONSP : Lisp_Object → Bool
  | .cons _ _ => true
  | _ => false

/-- The macro `STRINGP`. -/
def STRINGP : Lisp_Object → Bool
  | .str _ => true
  | _ => false

/-- The macro `INTEGERP`. -/
def INTEGERP : Lisp_Object → Bool
  | .int _ => true
  | _ => false

/-- The macro `SUB_CHAR_TABLE_P`. -/
def SUB_CHAR_TABLE_P : Lisp_Object → Bool
  | .sub_char_table _ _ => true
  | _ => false

/-- Modelled from the spec: the allocator `make_sub_char_table` (alloc.c) is
not among the sources; a leaf is promoted into an interior node whose default
is the former leaf value and whose slots are all empty. -/
def make_sub_char_table (defalt : Lisp_Object) : Lisp_Object :=
  .sub_char_table defalt (fun _ => .nil)

/-- A char table that is a fontset (`struct Lisp_Char_Table` with three
extra slots).  `defalt` is the slot `FONTSET_ASCII`, `parent` the slot
`FONTSET_BASE` (the address of the parent fontset, `none` for nil),
`contents` the ordinary slots (256 for single byte characters, then one for
each charset at index charset + 128), and `id`, `name`, `frame` the extra
slots 0, 1 and 2. -/
structure Lisp_Char_Table where
  defalt : Lisp_Object
  parent : Option Nat
  contents : Int → Lisp_Object
  id : Lisp_Object
  name : Lisp_Object
  frame : Lisp_Object

/-- The macro `FONTSET_ASCII`. -/
def FONTSET_ASCII (fontset : Lisp_Char_Table) : Lisp_Object := fontset.defalt

/-- The macro `FONTSET_BASE`. -/
def FONTSET_BASE (fontset : Lisp_Char_Table) : Option Nat := fontset.parent

/-- The macro `FONTSET_NAME`. -/
def FONTSET_NAME (fontset : Lisp_Char_Table) : Lisp_Object := fontset.name

/-- The macro `FONTSET_ID`. -/
def FONTSET_ID (fontset : Lisp_Char_Table) : Lisp_Object := fontset.id

/-- The macro `FONTSET_FRAME`. -/
def FONTSET_FRAME (fontset : Lisp_Char_Table) : Lisp_Object := fontset.frame

/-- The macro `BASE_FONTSET_P`: the parent slot is nil. -/
def BASE_FONTSET_P (fontset : Lisp_Char_Table) : Bool := (FONTSET_BASE fontset).isNone

/-- Modelled from the spec: the constant `CHAR_TABLE_SINGLE_BYTE_SLOTS` of
lisp.h is not among the sources; the first 256 slots of a char table are
those of the single byte characters. -/
def CHAR_TABLE_SINGLE_BYTE_SLOTS : Int := 256

/-- Modelled from the spec: the constant `CHAR_TABLE_ORDINARY_SLOTS` of lisp.h
is not among the sources; the single byte slots are followed by the slots
indexed by charset, one for each of the 128 charset ids from 128 on (the
slot of a charset is at index charset + 128). -/
def CHAR_TABLE_ORDINARY_SLOTS : Int := 256 + 128

/-- Modelled from the spec: the function `Fmake_char_table` (alloc.c) is not
among the sources; `Fmake_char_table (Qfontset, Qnil)` is an empty store, a
char table all of whose slots are nil. -/
def Fmake_char_table : Lisp_Char_Table where
  defalt := .nil
  parent := none
  contents := fun _ => .nil
  id := .nil
  name := .nil
  frame := .nil

/-! ## Characters -/

/-- Modelled from the spec: the macro `SINGLE_BYTE_CHAR_P` is declared in
charset.h, which is not among the sources; the single byte characters are
those of 0 to 255. -/
def SINGLE_BYTE_CHAR_P (c : Int) : Bool := decide (0 ≤ c ∧ c < 256)

/-- Modelled from the spec: the macro `SPLIT_NON_ASCII_CHAR` is declared in
charset.h, which is not among the sources; a multibyte character decomposes
deterministically into a charset id and two position bytes.  The functions
below take the decomposition as an argument, and the theorems hold for every
decomposition; this one is the layout used for concrete evaluations: a
character has 19 bits in three fields of 5, 7 and 7 bits.  When the first field is not
zero the charset has two dimensions: its id is the first field plus 0x8F
(official charsets) or 0xE0 (private ones, from field value 16 on) and the
position codes are the other two fields.  Otherwise the charset has one
dimension: its id is the second field plus 0x70, the position code is the
third field and the second position code is -1. -/
def SPLIT_NON_ASCII_CHAR (c : Int) : Int × Int × Int :=
  let field1 := c / 16384 % 32
  let field2 := c / 128 % 128
  let field3 := c % 128
  if field1 ≠ 0 then
    (field1 + (if c < 16 * 16384 then 0x8F else 0xE0), field2, field3)
  else
    (field2 + 0x70, field3, -1)

/-! ## The store of a fontset -/

/-- The part of `fontset_ref` after the read of the charset slot: `elt` is the
content of that slot and `c1`, `c2` are the position codes. -/
def fontset_ref_slot (elt : Lisp_Object) (c1 c2 : Int) : Lisp_Object :=
  match elt with
  | .sub_char_table defalt contents =>
    if c1 < 32 then defalt
    else
      match contents c1 with
      | .nil => defalt
      | .sub_char_table defalt2 contents2 =>
        if c2 < 32 then defalt2
        else
          match contents2 c2 with
          | .nil => defalt2
          | elt => elt
      | elt => elt
  | elt => elt

/-- The function `fontset_ref`: the element of `fontset` at character `c`. -/
def fontset_ref (split_char : Int → Int × Int × Int) (fontset : Lisp_Char_Table) (c : Int) :
    Lisp_Object :=
  if SINGLE_BYTE_CHAR_P c then FONTSET_ASCII fontset
  else
    match split_char c with
    | (charset, c1, c2) => fontset_ref_slot (fontset.contents (charset + 128)) c1 c2

/-- The last statement of `fontset_set`: the new element becomes the default
of the sub char table found in the slot, or replaces the slot. -/
def fontset_set_store (newelt : Lisp_Object) : Lisp_Object → Lisp_Object
  | .sub_char_table _ contents => .sub_char_table newelt contents
  | _ => newelt

/-- The loop of `fontset_set` together with its last statement, as a function
on the content of the slot that `elt` points to: while the next position code
is positive the slot is made a sub char table (its former content becomes the
default) and the walk goes on in the slot of that code. -/
def fontset_set_walk (newelt : Lisp_Object) : List Int → Lisp_Object → Lisp_Object
  | [], elt => fontset_set_store newelt elt
  | code :: rest, elt =>
    if 0 < code then
      match (if SUB_CHAR_TABLE_P elt then elt else make_sub_char_table elt) with
      | .sub_char_table defalt contents =>
        .sub_char_table defalt
          (fun i => if i = code then fontset_set_walk newelt rest (contents code) else contents i)
      | other => other
    else fontset_set_store newelt elt

/-- The function `fontset_set`: store `newelt` into the element of `fontset`
at character `c`.  The position codes are followed by the anchor 0. -/
def fontset_set (split_char : Int → Int × Int × Int) (fontset : Lisp_Char_Table) (c : Int)
    (newelt : Lisp_Object) : Lisp_Char_Table :=
  if SINGLE_BYTE_CHAR_P c then { fontset with defalt := newelt }
  else
    match split_char c with
    | (charset, c1, c2) =>
      { fontset with
        contents := fun i =>
          if i = charset + 128 then
            fontset_set_walk newelt [c1, c2, 0] (fontset.contents (charset + 128))
          else fontset.contents i }

/-! ## The table of fontsets -/

/-- The global variables of fontset.c and the heap of fontsets.  `heap` maps
the address of a fontset to its present content and `heap_size` is the number
of fontsets allocated so far (the next fresh address).  `Vfontset_table` is
the vector of all fontsets (the address in an occupied slot, `none` for nil),
`Vdefault_fontset` the address of the default fontset.
`Vcached_fontset_data` is nil (`none`) or the cons of a pattern and its
regular expression.  `Vfontset_alias_alist` is a Lisp variable. -/
structure Globals where
  heap : Nat → Lisp_Char_Table
  heap_size : Nat
  Vfontset_table : List (Option Nat)
  next_fontset_id : Int
  Vdefault_fontset : Nat
  Vcached_fontset_data : Option (List Char × List Char)
  Vfontset_alias_alist : Lisp_Object

/-- The macro `AREF` on a vector: the read is outside the vector (`none`)
when the index is negative or not below the size. -/
def AREF {α : Type} (v : List α) (idx : Int) : Option α :=
  if idx < 0 then none else v[idx.toNat]?

/-- The macro `ASIZE`. -/
def ASIZE {α : Type} (v : List α) : Int := v.length

/-- The assignment `AREF (v, idx) = x`. -/
def ASET {α : Type} (v : List α) (idx : Int) (x : α) : List α :=
  if idx < 0 then v else v.set idx.toNat x

/-- The macro `FONTSET_FROM_ID`: the address in slot `id` of the table; `none`
when the read is outside the table or the slot is nil. -/
def FONTSET_FROM_ID (s : Globals) (id : Int) : Option Nat :=
  (AREF s.Vfontset_table id).join

/-- The assignment to the fontset at address `a`. -/
def heap_store (s : Globals) (a : Nat) (fontset : Lisp_Char_Table) : Globals :=
  { s with heap := fun b => if b = a then fontset else s.heap b }

/-- The state set up by `syms_of_fontset`: a table of 32 nil slots, the next
id 0, and the default fontset, an empty char table whose single byte slot is
`(0 . (nil . "iso8859-1"))`. -/
def syms_of_fontset : Globals where
  heap := fun a =>
    if a = 0 then
      { Fmake_char_table with
        defalt := .cons (.int 0) (.cons .nil (.str "iso8859-1".toList)) }
    else Fmake_char_table
  heap_size := 1
  Vfontset_table := List.replicate 32 none
  next_fontset_id := 0
  Vdefault_fontset := 0
  Vcached_fontset_data := none
  Vfontset_alias_alist := .nil

/-- The loop `while (!NILP (AREF (Vfontset_table, id))) id++` of
`make_fontset`, with fuel: `none` when a slot outside the table is read (or
the fuel is used up, which the table size plus one never is). -/
def make_fontset_scan (table : List (Option Nat)) : Nat → Int → Option Int
  | 0, _ => none
  | fuel + 1, id =>
    match AREF table id with
    | none => none
    | some none => some id
    | some (some _) => make_fontset_scan table fuel (id + 1)

/-- The function `make_fontset`: a new fontset with `name`, a base fontset
when `base` is nil and else a realized fontset whose parent is `base`.  The
result is the address of the new fontset and the new state; `none` when the
scan for a free slot leaves the table.  `Fcopy_sequence` (fns.c) is not
among the sources: the store of a base fontset is pre-seeded from the default
fontset, a copy of the char table and of its sub char tables, which is the
value of the default fontset. -/
def make_fontset (s : Globals) (frame name : Lisp_Object) (base : Option Nat) :
    Option (Nat × Globals) :=
  let size := ASIZE s.Vfontset_table
  match make_fontset_scan s.Vfontset_table (s.Vfontset_table.length + 1) s.next_fontset_id with
  | none => none
  | some id =>
    let table :=
      if id + 1 = size then s.Vfontset_table ++ List.replicate 8 none else s.Vfontset_table
    let fontset :=
      if base.isNone then s.heap s.Vdefault_fontset else Fmake_char_table
    let fontset := { fontset with id := .int id, name := name, frame := frame, parent := base }
    some (s.heap_size,
      { s with
        heap := fun b => if b = s.heap_size then fontset else s.heap b
        heap_size := s.heap_size + 1
        Vfontset_table := ASET table id (some s.heap_size)
        next_fontset_id := id + 1 })

/-- The function `fontset_id_valid_p`. -/
def fontset_id_valid_p (s : Globals) (id : Int) : Bool :=
  decide (0 ≤ id ∧ id < ASIZE s.Vfontset_table - 1)

/-- The function `free_face_fontset`, on the fontset id of the face. -/
def free_face_fontset (s : Globals) (id : Int) : Globals :=
  if fontset_id_valid_p s id then
    { s with
      Vfontset_table := ASET s.Vfontset_table id none
      next_fontset_id := if id < s.next_fontset_id then id else s.next_fontset_id }
  else s

/-- The function `make_fontset_for_ascii_face`: a realized fontset on frame
`f` from the base fontset with id `base_fontset_id`, or from the default
fontset when that id is negative.  The result is the id of the new fontset. -/
def make_fontset_for_ascii_face (s : Globals) (f : Nat) (base_fontset_id : Int) :
    Option (Int × Globals) :=
  let base_fontset : Option Nat :=
    if 0 ≤ base_fontset_id then
      match FONTSET_FROM_ID s base_fontset_id with
      | none => none
      | some a =>
        if !BASE_FONTSET_P (s.heap a) then FONTSET_BASE (s.heap a) else some a
    else some s.Vdefault_fontset
  match base_fontset with
  | none => none
  | some base =>
    match make_fontset s (.frame f) .nil (some base) with
    | none => none
    | some (a, s1) =>
      match FONTSET_ID (s1.heap a) with
      | .int id => some (id, s1)
      | _ => none

/-! ## Resolution through the base fontset -/

/-- The default of a sub char table, or the element itself: the expression
`SUB_CHAR_TABLE_P (elt) ? XCHAR_TABLE (elt)->defalt : elt`. -/
def defalt_or_elt : Lisp_Object → Lisp_Object
  | .sub_char_table defalt _ => defalt
  | elt => elt

/-- The part of `fontset_ref_via_base` after the read of the charset slot of
the realized fontset: `elt` is the content of that slot and `c1`, `c2` are
the position codes of the key. -/
def fontset_ref_via_base_slot (elt : Lisp_Object) (c1 c2 : Int) : Lisp_Object :=
  if c1 < 32 then defalt_or_elt elt
  else
    match elt with
    | .sub_char_table _ contents =>
      let elt := contents c1
      if c2 < 32 then defalt_or_elt elt
      else
        match elt with
        | .sub_char_table _ contents2 => contents2 c2
        | _ => .nil
    | _ => .nil

/-- The function `fontset_ref_via_base`, on the realized fontset `fontset`
and the character `c`.  The result is the element and the new value of `c`,
which the function overwrites with the key of the element of the base
fontset.  `none` when `fontset` has no base or the element of the base is not
a cons whose car is an integer. -/
def fontset_ref_via_base (split_char : Int → Int × Int × Int) (heap : Nat → Lisp_Char_Table)
    (fontset : Lisp_Char_Table) (c : Int) : Option (Lisp_Object × Int) :=
  if SINGLE_BYTE_CHAR_P c then some (FONTSET_ASCII fontset, c)
  else
    match FONTSET_BASE fontset with
    | none => none
    | some base =>
      match fontset_ref split_char (heap base) c with
      | .nil => some (.nil, c)
      | .cons (.int key) _ =>
        match split_char key with
        | (charset, c1, c2) =>
          some (fontset_ref_via_base_slot (fontset.contents (charset + 128)) c1 c2, key)
      | _ => none

/-- The result of `face_for_char`: the face id, the characters with which
the face realizer `lookup_face` was called, and the new state. -/
structure Face_For_Char where
  face_id : Int
  realizer_calls : List Int
  state : Globals

/-- The function `face_for_char` for a face whose fontset has id `id`.  The
realizer `lookup_face` (xfaces.c) is an argument, a function of the character
it is called with.  `none` when slot `id` holds no fontset, the lookup through
the base is undefined, or the recorded element is not an integer. -/
def face_for_char (split_char : Int → Int × Int × Int) (lookup_face : Int → Int) (s : Globals)
    (id : Int) (c : Int) : Option Face_For_Char :=
  match FONTSET_FROM_ID s id with
  | none => none
  | some a =>
    match fontset_ref_via_base split_char s.heap (s.heap a) c with
    | none => none
    | some (.nil, c) =>
      let face_id := lookup_face c
      some { face_id := face_id, realizer_calls := [c],
             state := heap_store s a (fontset_set split_char (s.heap a) c (.int face_id)) }
    | some (.int n, _) => some { face_id := n, realizer_calls := [], state := s }
    | some _ => none

/-- The function `clear_fontset_elements`: all elements for multibyte
characters become nil. -/
def clear_fontset_elements (fontset : Lisp_Char_Table) : Lisp_Char_Table :=
  { fontset with
    contents := fun i =>
      if CHAR_TABLE_SINGLE_BYTE_SLOTS ≤ i ∧ i < CHAR_TABLE_ORDINARY_SLOTS then .nil
      else fontset.contents i }

/-! ## Functions and macros of other files -/

/-- The functions and macros of other files that the Lisp entry points of
fontset.c call; these files are not among the sources, so the entry points
take them as an argument.  `SPLIT_NON_ASCII_CHAR`, `MAKE_CHAR` (charset.h),
`char_valid_p` and `get_charset_id` (charset.c), `Fdowncase` (casefiddle.c)
on the bytes of a string, `fast_c_string_match_ignore_case` (search.c) on a
regular expression and a C string, `Foptimize_char_table` (fns.c) and the
test `FRAME_LIVE_P` behind `CHECK_LIVE_FRAME` (frame.h). -/
structure Externals where
  SPLIT_NON_ASCII_CHAR : Int → Int × Int × Int
  MAKE_CHAR : Int → Int → Int → Int
  char_valid_p : Int → Int → Bool
  get_charset_id : Lisp_Object → Int
  Fdowncase : List Char → List Char
  fast_c_string_match_ignore_case : List Char → List Char → Int
  Foptimize_char_table : Lisp_Char_Table → Lisp_Char_Table
  FRAME_LIVE_P : Nat → Bool

/-- Modelled from the spec: the constant `CHARSET_ASCII` of charset.h is not
among the sources; the charset id of the ASCII characters is 0. -/
def CHARSET_ASCII : Int := 0

/-- The errors that the Lisp entry points signal: a wrong type of argument
(`CHECK_STRING`, `CHECK_LIST`, `CHECK_NUMBER`, `CHECK_LIVE_FRAME`),
`invalid_character`, and the calls of `error`, one for each message. -/
inductive Lisp_Error where
  | wrong_type_argument : Lisp_Error
  | invalid_character (c : Int) : Lisp_Error
  | fontset_matches_existing : Lisp_Error
  | fontlist_element : Lisp_Error
  | no_ascii_font : Lisp_Error
  | fontset_does_not_exist : Lisp_Error
  | range_not_non_generic : Lisp_Error
  | single_byte_character : Lisp_Error
  | invalid_registry : Lisp_Error
  deriving DecidableEq, Repr

/-- The outcome of a Lisp entry point: it returns a value, or signals an error
(the state is the one at the signal), or its behaviour is undefined in C. -/
inductive Outcome (α : Type) where
  | value (x : α) (s : Globals) : Outcome α
  | signal (err : Lisp_Error) (s : Globals) : Outcome α
  | undefined : Outcome α

/-! ## Strings -/

/-- The C string in the data of a Lisp string: the bytes before the first
NUL. -/
def c_string (data : List Char) : List Char :=
  data.takeWhile (fun ch => ch ≠ Char.ofNat 0)

/-- The loop of `font_family_registry` over the C string: `p` is the offset of
the next byte and `sep` the offsets recorded so far, each one just after a
hyphen; the loop ends at the end of the string or with 15 offsets. -/
def font_family_registry_loop : List Char → Nat → List Nat → List Nat × Nat
  | [], p, sep => (sep, p)
  | ch :: rest, p, sep =>
    if sep.length < 15 then
      if ch = '-' then font_family_registry_loop rest (p + 1) (sep ++ [p + 1])
      else font_family_registry_loop rest (p + 1) sep
    else (sep, p)

/-- The function `font_family_registry`: for a name with 14 hyphens the cons
of the bytes from `sep[0]` up to the hyphen before `sep[2]` and of the bytes
from `sep[12]` to the end; else the name itself. -/
def font_family_registry (fontname : Lisp_Object) : Lisp_Object :=
  match fontname with
  | .str data =>
    let cs := c_string data
    match font_family_registry_loop cs 0 [] with
    | (sep, p) =>
      if sep.length ≠ 14 then fontname
      else
        let family := (cs.drop (sep.getD 0 0)).take (sep.getD 2 0 - 1 - sep.getD 0 0)
        let registry := (cs.drop (sep.getD 12 0)).take (p - sep.getD 12 0)
        .cons (.str family) (.str registry)
  | _ => fontname

/-- The function `check_registry_encoding`. -/
def check_registry_encoding (registry : List Char) : Bool :=
  match c_string registry with
  | [] => false
  | ch :: rest => if ch = '-' then false else decide ((rest.filter (fun x => x = '-')).length < 2)

/-- The translation loop of `fontset_pattern_regexp` for one byte. -/
def fontset_pattern_regexp_byte (ch : Char) : List Char :=
  if ch = '*' then ['.', '*'] else if ch = '?' then ['.'] else [ch]

/-- The number of bytes that `fontset_pattern_regexp` writes to its scratch
buffer when it translates the pattern: the anchor `^`, the translated bytes
of the C string, the anchor `$` and the terminating NUL. -/
def fontset_pattern_regexp_written (pattern : List Char) : Nat :=
  1 + ((c_string pattern).map fontset_pattern_regexp_byte).flatten.length + 1 + 1

/-- The size of the scratch buffer of `fontset_pattern_regexp`,
`alloca (XSTRING (pattern)->size * 2)`. -/
def fontset_pattern_regexp_allocated (pattern : List Char) : Nat := pattern.length * 2

/-- The function `fontset_pattern_regexp`: nil when the C string of the
pattern has no wild card; else the regular expression in
`Vcached_fontset_data`, which is first replaced when it is nil or its pattern
differs from this one.  The bytes of the new expression are written to the
scratch buffer; `none` when they do not fit in it, where the behaviour is
undefined. -/
def fontset_pattern_regexp (s : Globals) (pattern : List Char) :
    Option (Lisp_Object × Globals) :=
  let p := c_string pattern
  if !p.contains '*' && !p.contains '?' then some (.nil, s)
  else
    let hit :=
      match s.Vcached_fontset_data with
      | some (name, _) => decide (c_string name = p)
      | none => false
    let s1 : Option Globals :=
      if hit then some s
      else if fontset_pattern_regexp_allocated pattern < fontset_pattern_regexp_written pattern
      then none
      else
        let regex := ['^'] ++ (p.map fontset_pattern_regexp_byte).flatten ++ ['$']
        some { s with Vcached_fontset_data := some (p, regex) }
    match s1 with
    | none => none
    | some s1 =>
      match s1.Vcached_fontset_data with
      | some (_, regex) => some (.str regex, s1)
      | none => some (.nil, s1)

/-- Modelled from the spec: the function `Frassoc` (fns.c) is not among the
sources; for a string key it yields the first element of the alias list that
is a cons whose cdr is a string with the bytes of the key, or nil. -/
def Frassoc (key : List Char) : Lisp_Object → Lisp_Object
  | .cons (.cons car (.str data)) rest =>
    if data = key then .cons car (.str data) else Frassoc key rest
  | .cons _ rest => Frassoc key rest
  | _ => .nil

/-! ## Looking a fontset up by name -/

/-- The loop of `fs_query_fontset` from slot `i` on: the first slot that holds
a base fontset whose name matches.  `none` when a base fontset has a name
that is not a string. -/
def fs_query_fontset_loop (ext : Externals) (heap : Nat → Lisp_Char_Table) (name : List Char)
    (regexpp : Bool) : List (Option Nat) → Int → Option Int
  | [], _ => some (-1)
  | none :: rest, i => fs_query_fontset_loop ext heap name regexpp rest (i + 1)
  | some a :: rest, i =>
    if !BASE_FONTSET_P (heap a) then fs_query_fontset_loop ext heap name regexpp rest (i + 1)
    else
      match FONTSET_NAME (heap a) with
      | .str this_name =>
        if (if regexpp then
              decide (0 ≤ ext.fast_c_string_match_ignore_case name (c_string this_name))
            else decide (c_string name = c_string this_name))
        then some i
        else fs_query_fontset_loop ext heap name regexpp rest (i + 1)
      | _ => none

/-- The function `fs_query_fontset`, on the bytes of the string `name`: the id
of the base fontset named `name`, or -1.  `none` when the translation of the
pattern or the loop is undefined. -/
def fs_query_fontset (ext : Externals) (s : Globals) (name : List Char) (regexpp : Bool) :
    Option (Int × Globals) :=
  let name := ext.Fdowncase name
  let step : Option (List Char × Bool × Globals) :=
    if !regexpp then
      match Frassoc name s.Vfontset_alias_alist with
      | .cons (.str aliased) _ => some (aliased, false, s)
      | _ =>
        match fontset_pattern_regexp s name with
        | none => none
        | some (.str regex, s1) => some (regex, true, s1)
        | some (_, s1) => some (name, false, s1)
    else some (name, true, s)
  match step with
  | none => none
  | some (name, regexpp, s1) =>
    match fs_query_fontset_loop ext s1.heap name regexpp s1.Vfontset_table 0 with
    | none => none
    | some id => some (id, s1)

/-- The function `Fquery_fontset` (the window system check passes): the name
of a fontset that matches `pattern`, or nil. -/
def Fquery_fontset (ext : Externals) (s : Globals) (pattern regexpp : Lisp_Object) :
    Outcome Lisp_Object :=
  match pattern with
  | .str data =>
    if data.length = 0 then .value .nil s
    else
      match fs_query_fontset ext s data (!NILP regexpp) with
      | none => .undefined
      | some (id, s1) =>
        if id < 0 then .value .nil s1
        else
          match FONTSET_FROM_ID s1 id with
          | none => .undefined
          | some a => .value (FONTSET_NAME (s1.heap a)) s1
  | _ => .signal .wrong_type_argument s

/-- The function `check_fontset_name`: the address of the fontset named
`name`, the default fontset for `t`. -/
def check_fontset_name (ext : Externals) (s : Globals) (name : Lisp_Object) : Outcome Nat :=
  match name with
  | .t => .value s.Vdefault_fontset s
  | .str data =>
    match fs_query_fontset ext s data false with
    | none => .undefined
    | some (id, s1) =>
      if id < 0 then .signal .fontset_does_not_exist s1
      else
        match FONTSET_FROM_ID s1 id with
        | none => .undefined
        | some a => .value a s1
  | _ => .signal .wrong_type_argument s

/-! ## The Lisp entry points that change fontsets -/

/-- The first loop of `Fnew_fontset` over the fontlist: the elements for the
charsets other than ASCII, each the character `MAKE_CHAR (charset, 0, 0)`
with the downcased font name, the last of the list first, and the ASCII font
name.  `none` when an element is not a cons of a charset and a string. -/
def Fnew_fontset_elements (ext : Externals) :
    Lisp_Object → List (Int × List Char) → Option (List Char) →
      Option (List (Int × List Char) × Option (List Char))
  | .cons (.cons charset_name (.str fontname)) tail, elements, ascii_font =>
    let charset := ext.get_charset_id charset_name
    if charset < 0 then none
    else
      let tem := ext.Fdowncase fontname
      if charset = CHARSET_ASCII then Fnew_fontset_elements ext tail elements (some tem)
      else
        Fnew_fontset_elements ext tail ((ext.MAKE_CHAR charset 0 0, tem) :: elements) ascii_font
  | .cons _ _, _, _ => none
  | _, elements, ascii_font => some (elements, ascii_font)

/-- The second loop of `Fnew_fontset`: each element is stored with its own
character as the key. -/
def Fnew_fontset_store (ext : Externals) (fontset : Lisp_Char_Table) :
    List (Int × List Char) → Lisp_Char_Table
  | [] => fontset
  | (c, fontname) :: rest =>
    Fnew_fontset_store ext
      (fontset_set ext.SPLIT_NON_ASCII_CHAR fontset c
        (.cons (.int c) (font_family_registry (.str fontname)))) rest

/-- The function `Fnew_fontset` (the window system check passes). -/
def Fnew_fontset (ext : Externals) (s : Globals) (name fontlist : Lisp_Object) :
    Outcome Lisp_Object :=
  match name with
  | .str data =>
    if !(NILP fontlist || CONSP fontlist) then .signal .wrong_type_argument s
    else
      let name := ext.Fdowncase data
      match Fquery_fontset ext s (.str name) .nil with
      | .undefined => .undefined
      | .signal err s1 => .signal err s1
      | .value tem s1 =>
        if !NILP tem then .signal .fontset_matches_existing s1
        else
          match Fnew_fontset_elements ext fontlist [] none with
          | none => .signal .fontlist_element s1
          | some (_, none) => .signal .no_ascii_font s1
          | some (elements, some ascii_font) =>
            match make_fontset s1 .nil (.str name) none with
            | none => .undefined
            | some (a, s2) =>
              let fontset := { s2.heap a with defalt := .cons (.int 0) (.str ascii_font) }
              .value .nil (heap_store s2 a (Fnew_fontset_store ext fontset elements))
  | _ => .signal .wrong_type_argument s

/-- The loop `for (; from <= to; from++) FONTSET_SET (fontset, from, elt)` of
`Fset_fontset_font`, with the number of characters left. -/
def Fset_fontset_font_loop (ext : Externals) (elt : Lisp_Object) :
    Nat → Int → Lisp_Char_Table → Lisp_Char_Table
  | 0, _, fontset => fontset
  | n + 1, c, fontset =>
    Fset_fontset_font_loop ext elt n (c + 1) (fontset_set ext.SPLIT_NON_ASCII_CHAR fontset c elt)

/-- The last loop of `Fset_fontset_font` over the slots of the table: each
realized fontset whose parent is `fontset` has its elements cleared.  The
call of `free_realized_multibyte_face` (xfaces.c) frees faces other than the
ASCII face and leaves the fontsets as they are. -/
def Fset_fontset_font_clear (fontset : Nat) :
    List (Option Nat) → (Nat → Lisp_Char_Table) → (Nat → Lisp_Char_Table)
  | [], heap => heap
  | none :: rest, heap => Fset_fontset_font_clear fontset rest heap
  | some realized :: rest, heap =>
    if !BASE_FONTSET_P (heap realized) && decide (FONTSET_BASE (heap realized) = some fontset) then
      Fset_fontset_font_clear fontset rest
        (fun b => if b = realized then clear_fontset_elements (heap realized) else heap b)
    else Fset_fontset_font_clear fontset rest heap

/-- The checks of `Fset_fontset_font` on the argument `ch`: the first and the
last character of the range, or the error. -/
def Fset_fontset_font_range (ext : Externals) (name ch : Lisp_Object) :
    Except Lisp_Error (Int × Int) :=
  let range : Except Lisp_Error (Int × Int) :=
    match ch with
    | .cons (.int from_) (.int to_) =>
      if !ext.char_valid_p from_ 0 || !ext.char_valid_p to_ 0 then .error .range_not_non_generic
      else if !NILP name && (SINGLE_BYTE_CHAR_P from_ || SINGLE_BYTE_CHAR_P to_) then
        .error .single_byte_character
      else .ok (from_, to_)
    | .cons _ _ => .error .wrong_type_argument
    | .int c => .ok (c, c)
    | _ => .error .wrong_type_argument
  match range with
  | .error err => .error err
  | .ok (from_, to_) =>
    if !ext.char_valid_p from_ 1 then .error (.invalid_character from_)
    else if SINGLE_BYTE_CHAR_P from_ then .error .single_byte_character
    else if from_ < to_ && !ext.char_valid_p to_ 1 then .error (.invalid_character to_)
    else if from_ < to_ && SINGLE_BYTE_CHAR_P to_ then .error .single_byte_character
    else .ok (from_, to_)

/-- The element that `Fset_fontset_font` stores: for the default fontset the
font name must be a registry and encoding (`none` when it is not) and the
element is `(from . (nil . fontname))`, for another fontset it is
`(from . font_family_registry (fontname))`. -/
def Fset_fontset_font_elt (s : Globals) (fontset : Nat) (from_ : Int) (fontname : List Char) :
    Option Lisp_Object :=
  if fontset = s.Vdefault_fontset then
    if !check_registry_encoding fontname then none
    else some (.cons (.int from_) (.cons .nil (.str fontname)))
  else some (.cons (.int from_) (font_family_registry (.str fontname)))

/-- The check of the argument `frame` of `Fset_fontset_font`: nil or a live
frame. -/
def Fset_fontset_font_frame (ext : Externals) : Lisp_Object → Bool
  | .nil => true
  | .frame f => ext.FRAME_LIVE_P f
  | _ => false

/-- The statements of `Fset_fontset_font` after the checks: the element is
stored for the characters of the range, the char table is optimized, and the
realized fontsets of `fontset` are cleared. -/
def Fset_fontset_font_store (ext : Externals) (s : Globals) (fontset : Nat) (from_ to_ : Int)
    (elt : Lisp_Object) : Globals :=
  let stored := Fset_fontset_font_loop ext elt (to_ - from_ + 1).toNat from_ (s.heap fontset)
  let s2 := heap_store s fontset (ext.Foptimize_char_table stored)
  { s2 with heap := Fset_fontset_font_clear fontset s2.Vfontset_table s2.heap }

/-- The function `Fset_fontset_font`. -/
def Fset_fontset_font (ext : Externals) (s : Globals) (name ch fontname frame : Lisp_Object) :
    Outcome Lisp_Object :=
  match check_fontset_name ext s name with
  | .undefined => .undefined
  | .signal err s1 => .signal err s1
  | .value fontset s1 =>
    match Fset_fontset_font_range ext name ch with
    | .error err => .signal err s1
    | .ok (from_, to_) =>
      match fontname with
      | .str data =>
        match Fset_fontset_font_elt s1 fontset from_ (ext.Fdowncase data) with
        | none => .signal .invalid_registry s1
        | some elt =>
          if !Fset_fontset_font_frame ext frame then .signal .wrong_type_argument s1
          else .value .nil (Fset_fontset_font_store ext s1 fontset from_ to_ elt)
      | _ => .signal .wrong_type_argument s1

/-- The function `Ffontset_font`: the font name pattern for the character `ch`
in the fontset `name`, the cdr of the element of the fontset. -/
def Ffontset_font (ext : Externals) (s : Globals) (name ch : Lisp_Object) :
    Outcome Lisp_Object :=
  match check_fontset_name ext s name with
  | .undefined => .undefined
  | .signal err s1 => .signal err s1
  | .value fontset s1 =>
    match ch with
    | .int c =>
      if !ext.char_valid_p c 1 then .signal (.invalid_character c) s1
      else
        match fontset_ref ext.SPLIT_NON_ASCII_CHAR (s1.heap fontset) c with
        | .cons _ cdr => .value cdr s1
        | elt => .value elt s1
    | _ => .signal .wrong_type_argument s1

/-! ## An instance of the functions of other files

The theorems below hold for every value of `Externals`.  The instance of this
section serves to evaluate the entry points at concrete arguments. -/

/-- Modelled from the spec: the matcher `fast_c_string_match_ignore_case` is
defined in search.c, which is not among the sources.  An item of a regular
expression: a byte or the dot, with or without a star after it. -/
structure Regex_Item where
  dot : Bool
  byte : Char
  star : Bool

/-- Modelled from the spec: the items of a regular expression without its
anchors. -/
def regex_items : List Char → List Regex_Item
  | [] => []
  | ch :: '*' :: rest => ⟨decide (ch = '.'), ch, true⟩ :: regex_items rest
  | ch :: rest => ⟨decide (ch = '.'), ch, false⟩ :: regex_items rest

/-- Modelled from the spec: the lower case of an ASCII letter. -/
def downcase_byte (ch : Char) : Char :=
  if 'A' ≤ ch ∧ ch ≤ 'Z' then Char.ofNat (ch.toNat + 32) else ch

/-- Modelled from the spec: an item matches a byte, letter case ignored; the
dot matches any single byte. -/
def regex_item_ok (item : Regex_Item) (ch : Char) : Bool :=
  item.dot || decide (downcase_byte item.byte = downcase_byte ch)

/-- Modelled from the spec: a starred item, any sequence of bytes that the
item matches, followed by the rest `k` of the expression. -/
def regex_star (ok : Char → Bool) (k : List Char → Bool) : List Char → Bool
  | [] => k []
  | ch :: s => k (ch :: s) || (ok ch && regex_star ok k s)

/-- Modelled from the spec: the items match a prefix of the string (the whole
string when the expression ends with the anchor). -/
def regex_here (anchored_end : Bool) : List Regex_Item → List Char → Bool
  | [], s => !anchored_end || s.isEmpty
  | item :: rest, s =>
    if item.star then regex_star (regex_item_ok item) (regex_here anchored_end rest) s
    else
      match s with
      | [] => false
      | ch :: s1 => regex_item_ok item ch && regex_here anchored_end rest s1

/-- Modelled from the spec: the first offset from `i` on at which the items
match, or -1. -/
def regex_search (anchored_end : Bool) (items : List Regex_Item) : List Char → Int → Int
  | [], i => if regex_here anchored_end items [] then i else -1
  | ch :: s, i =>
    if regex_here anchored_end items (ch :: s) then i
    else regex_search anchored_end items s (i + 1)

/-- Modelled from the spec: the matcher `fast_c_string_match_ignore_case` of
search.c, for regular expressions made of bytes, dots, stars and the anchors
of the start and of the end; matching is case-insensitive, the dot is any
single byte and a starred dot any sequence.  The result is the offset of the
first match, or -1. -/
def regex_match (regex : List Char) (str : List Char) : Int :=
  let anchored_start := regex.head? = some '^'
  let body := if anchored_start then regex.drop 1 else regex
  let anchored_end := body.getLast? = some '$'
  let body := if anchored_end then body.dropLast else body
  if anchored_start then (if regex_here anchored_end (regex_items body) str then 0 else -1)
  else regex_search anchored_end (regex_items body) str 0

/-- The instance: the decomposition `SPLIT_NON_ASCII_CHAR` above and the
composition that inverts it; a character is valid when it is below 2^19 and
is a single byte or has position codes of 32 or more (0 for the unspecified
codes of a generic character, when these are allowed); charsets are named by
the symbols `ascii`, `latin-iso8859-1` and `japanese-jisx0208`; ASCII letters
are downcased; the char table is left as it is by the optimization; every
frame is live. -/
def sample_externals : Externals where
  SPLIT_NON_ASCII_CHAR := SPLIT_NON_ASCII_CHAR
  MAKE_CHAR := fun charset c1 c2 =>
    if charset = CHARSET_ASCII then c1 % 128
    else if (0x90 ≤ charset ∧ charset < 0xA0) ∨ 0xF0 ≤ charset then
      (charset - (if charset < 0xF0 then 0x8F else 0xE0)) * 16384
        + (if c1 ≤ 0 then 0 else c1 % 128) * 128 + (if c2 ≤ 0 then 0 else c2 % 128)
    else (charset - 0x70) * 128 + (if c1 ≤ 0 then 0 else c1 % 128)
  char_valid_p := fun c genericp =>
    if c < 0 ∨ 524288 ≤ c then false
    else if SINGLE_BYTE_CHAR_P c then true
    else
      match SPLIT_NON_ASCII_CHAR c with
      | (_, c1, c2) =>
        let ok1 := decide (32 ≤ c1) || (decide (genericp ≠ 0) && decide (c1 = 0) && decide (c2 ≤ 0))
        let ok2 := decide (32 ≤ c2) || decide (c2 = -1) || (decide (genericp ≠ 0) && decide (c2 = 0))
        ok1 && ok2
  get_charset_id := fun x =>
    match x with
    | .symbol name =>
      if name = "ascii".toList then 0
      else if name = "latin-iso8859-1".toList then 0x81
      else if name = "japanese-jisx0208".toList then 0x92
      else -1
    | _ => -1
  Fdowncase := fun data => data.map downcase_byte
  fast_c_string_match_ignore_case := regex_match
  Foptimize_char_table := fun table => table
  FRAME_LIVE_P := fun _ => true

/-! ## Predicates of the specification -/

/-- The content `elt` of a slot of a charset sub char table is an element or
a sub char table whose slots hold elements. -/
def row_levels_ok (elt : Lisp_Object) : Prop :=
  ∀ defalt2 contents2, elt = .sub_char_table defalt2 contents2 →
    ∀ k, SUB_CHAR_TABLE_P (contents2 k) = false

/-- The content `elt` of a charset slot has no sub char table below the second
level. -/
def slot_levels_ok (elt : Lisp_Object) : Prop :=
  ∀ defalt contents, elt = .sub_char_table defalt contents → ∀ j, row_levels_ok (contents j)

/-- The store of a fontset has no sub char table below the second level: the
slots of a sub char table met in a sub char table of a charset slot hold
elements.  It holds of an empty char table and `fontset_set` keeps it. -/
def store_levels_ok (fontset : Lisp_Char_Table) : Prop :=
  ∀ i, slot_levels_ok (fontset.contents i)

/-- A character is fully specified: its first position code is 32 or more and
its second position code is 32 or more, or -1 for a charset of one
dimension, which has no second position. -/
def fully_specified (split_char : Int → Int × Int × Int) (c : Int) : Prop :=
  32 ≤ (split_char c).2.1 ∧ ((split_char c).2.2 = -1 ∨ 32 ≤ (split_char c).2.2)

/-- The position codes of a key are well formed: each is unspecified (0 or
negative) or 32 or more. -/
def key_codes_ok (split_char : Int → Int × Int × Int) (key : Int) : Prop :=
  ((split_char key).2.1 ≤ 0 ∨ 32 ≤ (split_char key).2.1) ∧
  ((split_char key).2.2 ≤ 0 ∨ 32 ≤ (split_char key).2.2)

/-- The charset of a character. -/
def char_charset (split_char : Int → Int × Int × Int) (c : Int) : Int := (split_char c).1

/-- The states of the table of fontsets that are reachable from the initial
state by calls of `make_fontset` and `free_face_fontset`. -/
inductive Registry_Reachable : Globals → Prop where
  | init : Registry_Reachable syms_of_fontset
  | make (s s1 : Globals) (frame name : Lisp_Object) (base : Option Nat) (a : Nat) :
      Registry_Reachable s → make_fontset s frame name base = some (a, s1) →
      Registry_Reachable s1
  | free (s : Globals) (id : Int) :
      Registry_Reachable s → Registry_Reachable (free_face_fontset s id)

/-- The invariant of the table of fontsets: the next id is a valid index other
than the last, the last slot is nil, and every slot below the next id is
occupied. -/
def registry_inv (s : Globals) : Prop :=
  0 ≤ s.next_fontset_id ∧ s.next_fontset_id ≤ ASIZE s.Vfontset_table - 1 ∧
  AREF s.Vfontset_table (ASIZE s.Vfontset_table - 1) = some none ∧
  ∀ j, 0 ≤ j → j < s.next_fontset_id → ∃ a, AREF s.Vfontset_table j = some (some a)

/-- The fontsets of `s1` are those of `s`: the heap of fontsets, the table of
fontsets, the next id and the default fontset are the same. -/
def same_fontsets (s s1 : Globals) : Prop :=
  s1.heap = s.heap ∧ s1.heap_size = s.heap_size ∧ s1.Vfontset_table = s.Vfontset_table ∧
  s1.next_fontset_id = s.next_fontset_id ∧ s1.Vdefault_fontset = s.Vdefault_fontset ∧
  s1.Vfontset_alias_alist = s.Vfontset_alias_alist

/-- A pattern has a wild card: it contains `*` or `?`. -/
def has_wildcard (p : List Char) : Prop := '*' ∈ p ∨ '?' ∈ p

/-- The translation of a pattern in the words of the specification: every `*`
is replaced by `.*`, every `?` by `.`, and every other character is copied
unchanged. -/
def wildcard_translation : List Char → List Char
  | [] => []
  | ch :: rest =>
    if ch = '*' then '.' :: '*' :: wildcard_translation rest
    else if ch = '?' then '.' :: wildcard_translation rest
    else ch :: wildcard_translation rest

/-- The regular expression of a pattern in the words of the specification:
`^`, the translation of the pattern, `$`. -/
def pattern_regex (p : List Char) : List Char := '^' :: (wildcard_translation p ++ ['$'])

instance has_wildcard_decidable (p : List Char) : Decidable (has_wildcard p) := by
  unfold has_wildcard
  infer_instance

/-- The cache of `fontset_pattern_regexp` is empty or holds a pattern with the
regular expression of its C string, as the function leaves it. -/
def cache_ok (s : Globals) : Prop :=
  match s.Vcached_fontset_data with
  | none => True
  | some (name, regex) => regex = pattern_regex (c_string name)

/-- The state after a sequence of calls of `fontset_pattern_regexp` with the
patterns of the list (`none` when a call is undefined). -/
def fontset_pattern_regexp_calls (s : Globals) : List (List Char) → Option Globals
  | [] => some s
  | p :: ps =>
    match fontset_pattern_regexp s p with
    | none => none
    | some (_, s1) => fontset_pattern_regexp_calls s1 ps

/-- A fontset name matches the key of a lookup: by a search of the regular
expression, letter case ignored, when the key is one, and by equality of the
C strings when it is not. -/
def name_matches (ext : Externals) (key : List Char) (regexpp : Bool) (this_name : List Char) :
    Bool :=
  if regexpp then decide (0 ≤ ext.fast_c_string_match_ignore_case key (c_string this_name))
  else decide (c_string key = c_string this_name)

/-- The key that a lookup by name uses, and whether it is a regular
expression: the downcased name as a regular expression when the caller says
so; else the real name of which the downcased name is an alias, when
`fontset-alias-alist` has one; else the regular expression of the downcased
name when it has a wild card; else the downcased name. -/
def lookup_key (ext : Externals) (s : Globals) (name : List Char) (regexpp : Bool) :
    List Char × Bool :=
  if regexpp then (ext.Fdowncase name, true)
  else
    match Frassoc (ext.Fdowncase name) s.Vfontset_alias_alist with
    | .cons (.str aliased) _ => (aliased, false)
    | _ =>
      if has_wildcard (c_string (ext.Fdowncase name)) then
        (pattern_regex (c_string (ext.Fdowncase name)), true)
      else (ext.Fdowncase name, false)

/-- Slot `i` of the table holds a base fontset whose name matches the key. -/
def base_entry_matches (ext : Externals) (s : Globals) (key : List Char) (regexpp : Bool)
    (i : Int) : Prop :=
  ∃ a this_name, FONTSET_FROM_ID s i = some a ∧ BASE_FONTSET_P (s.heap a) = true ∧
    FONTSET_NAME (s.heap a) = .str this_name ∧ name_matches ext key regexpp this_name = true

/-- Every base fontset in the table has a string as its name. -/
def names_ok (s : Globals) : Prop :=
  ∀ i a, FONTSET_FROM_ID s i = some a → BASE_FONTSET_P (s.heap a) = true →
    ∃ this_name, FONTSET_NAME (s.heap a) = .str this_name

/-- Modelled from the spec: `Foptimize_char_table` is defined in fns.c, which
is not among the sources; the optimization changes the representation of a
char table and keeps the name and the base of the fontset and the element
that `fontset_ref` returns for every character. -/
def optimize_keeps (ext : Externals) : Prop :=
  ∀ fontset : Lisp_Char_Table,
    FONTSET_NAME (ext.Foptimize_char_table fontset) = FONTSET_NAME fontset ∧
    FONTSET_BASE (ext.Foptimize_char_table fontset) = FONTSET_BASE fontset ∧
    ∀ c, fontset_ref ext.SPLIT_NON_ASCII_CHAR (ext.Foptimize_char_table fontset) c
      = fontset_ref ext.SPLIT_NON_ASCII_CHAR fontset c

/-- Two bytes are the same letter, letter case ignored. -/
def same_letter (a b : Char) : Bool := decide (downcase_byte a = downcase_byte b)

/-- The whole of a name matches a pattern as a glob, in the words of the
specification: `*` stands for any sequence of bytes, the empty one too, `?`
for exactly one byte, and another byte of the pattern for a byte that `same`
relates to it. -/
def glob_match (same : Char → Char → Bool) : List Char → List Char → Bool
  | [], n => n.isEmpty
  | ch :: p, n =>
    if ch = '*' then n.tails.any (glob_match same p)
    else
      match n with
      | [] => false
      | c :: n1 => (decide (ch = '?') || same ch c) && glob_match same p n1

/-- The bytes that are special in a regular expression. -/
def regex_metachar (ch : Char) : Prop :=
  ch ∈ ['.', '*', '+', '?', '[', ']', '^', '$', Char.ofNat 92]

instance regex_metachar_decidable (ch : Char) : Decidable (regex_metachar ch) := by
  unfold regex_metachar
  infer_instance

/-- The item of the regular expression for a byte of a pattern: a starred dot
for `*`, a dot for `?`, and the byte itself for another byte. -/
def pattern_item (ch : Char) : Regex_Item :=
  if ch = '*' then ⟨true, '.', true⟩ else if ch = '?' then ⟨true, '.', false⟩
  else ⟨false, ch, false⟩

/-- The offsets of the hyphens of a string, the first byte at the offset
`p`. -/
def hyphen_positions : List Char → Nat → List Nat
  | [], _ => []
  | ch :: rest, p =>
    if ch = '-' then p :: hyphen_positions rest (p + 1) else hyphen_positions rest (p + 1)

/-- The family of a font name in the words of the specification: the bytes
strictly between the first and the third hyphen. -/
def xlfd_family (cs : List Char) : List Char :=
  (cs.drop ((hyphen_positions cs 0).getD 0 0 + 1)).take
    ((hyphen_positions cs 0).getD 2 0 - (hyphen_positions cs 0).getD 0 0 - 1)

/-- The registry of a font name in the words of the specification: the bytes
after the thirteenth hyphen up to the end. -/
def xlfd_registry (cs : List Char) : List Char :=
  cs.drop ((hyphen_positions cs 0).getD 12 0 + 1)

/-- A font name of 14 hyphens with a NUL and the byte `x` after its last
field. -/
def xlfd_nul_x : List Char := "-f-y-w-s-a-t-p-q-x-y-s-w-r-e".toList ++ [Char.ofNat 0, 'x']

/-- A font of a base fontset: a font name, or a cons of a family, which is
nil in the default fontset, and a registry. -/
def font_spec_p : Lisp_Object → Bool
  | .str _ => true
  | .cons (.str _) (.str _) => true
  | .cons .nil (.str _) => true
  | _ => false

/-- An element of a base fontset: a cons of a key, the character for which
the element was stored, and a font. -/
def font_entry_p : Lisp_Object → Bool
  | .cons (.int _) spec => font_spec_p spec
  | _ => false

/-- An element of a realized fontset: a face id. -/
def face_id_p : Lisp_Object → Bool
  | .int _ => true
  | _ => false

/-- The content `elt` of a slot of a charset sub char table is nil or a value
of the kind `P`, or a sub char table whose default and slots are such. -/
def row_typed (P : Lisp_Object → Bool) : Lisp_Object → Prop
  | .sub_char_table defalt contents =>
    (NILP defalt || P defalt) = true ∧ ∀ k, (NILP (contents k) || P (contents k)) = true
  | elt => (NILP elt || P elt) = true

/-- The content `elt` of a charset slot is nil or a value of the kind `P`, or
a sub char table whose default is such and whose slots are rows of such
values. -/
def slot_typed (P : Lisp_Object → Bool) : Lisp_Object → Prop
  | .sub_char_table defalt contents =>
    (NILP defalt || P defalt) = true ∧ ∀ j, row_typed P (contents j)
  | elt => (NILP elt || P elt) = true

/-- Every position of the store of a fontset that is not nil holds a value of
the kind `P`. -/
def store_typed (P : Lisp_Object → Bool) (fontset : Lisp_Char_Table) : Prop :=
  ∀ i, slot_typed P (fontset.contents i)

/-- Modelled from the spec: `Foptimize_char_table` is defined in fns.c, which
is not among the sources; the optimization keeps the name and the base of
the fontset and puts no value into the store that is not in it: a store
whose values are of a kind has values of that kind afterwards. -/
def optimize_keeps_typed (ext : Externals) : Prop :=
  ∀ fontset : Lisp_Char_Table,
    FONTSET_NAME (ext.Foptimize_char_table fontset) = FONTSET_NAME fontset ∧
    FONTSET_BASE (ext.Foptimize_char_table fontset) = FONTSET_BASE fontset ∧
    ∀ P : Lisp_Object → Bool, (∀ defalt contents, P (.sub_char_table defalt contents) = false) →
      store_typed P fontset → store_typed P (ext.Foptimize_char_table fontset)

/-- The states that are reachable from the initial state by calls of
`Fnew_fontset`, `Fset_fontset_font`, `make_fontset_for_ascii_face`,
`face_for_char` and `free_face_fontset`, whether they return or signal an
error, and by assignments to the Lisp variable `fontset-alias-alist`. -/
inductive Fontset_Reachable (ext : Externals) : Globals → Prop where
  | init : Fontset_Reachable ext syms_of_fontset
  | new_fontset (s s1 : Globals) (name fontlist v : Lisp_Object) :
      Fontset_Reachable ext s → Fnew_fontset ext s name fontlist = .value v s1 →
      Fontset_Reachable ext s1
  | new_fontset_error (s s1 : Globals) (name fontlist : Lisp_Object) (err : Lisp_Error) :
      Fontset_Reachable ext s → Fnew_fontset ext s name fontlist = .signal err s1 →
      Fontset_Reachable ext s1
  | set_fontset_font (s s1 : Globals) (name ch fontname frame v : Lisp_Object) :
      Fontset_Reachable ext s → Fset_fontset_font ext s name ch fontname frame = .value v s1 →
      Fontset_Reachable ext s1
  | set_fontset_font_error (s s1 : Globals) (name ch fontname frame : Lisp_Object)
      (err : Lisp_Error) :
      Fontset_Reachable ext s → Fset_fontset_font ext s name ch fontname frame = .signal err s1 →
      Fontset_Reachable ext s1
  | ascii_face (s s1 : Globals) (f : Nat) (base_fontset_id id : Int) :
      Fontset_Reachable ext s → make_fontset_for_ascii_face s f base_fontset_id = some (id, s1) →
      Fontset_Reachable ext s1
  | face_for_char (s : Globals) (lookup_face : Int → Int) (id c : Int) (r : Face_For_Char) :
      Fontset_Reachable ext s →
      face_for_char ext.SPLIT_NON_ASCII_CHAR lookup_face s id c = some r →
      Fontset_Reachable ext r.state
  | free (s : Globals) (id : Int) :
      Fontset_Reachable ext s → Fontset_Reachable ext (free_face_fontset s id)
  | set_alias (s : Globals) (v : Lisp_Object) :
      Fontset_Reachable ext s → Fontset_Reachable ext { s with Vfontset_alias_alist := v }

/-- The invariant of the fontsets: the default fontset is allocated and has no
base; a fontset in the table is allocated and, when it has no base, has a
string as its name; the base of a fontset is allocated and has no base; the
store of a fontset without a base holds elements of base fontsets and the
store of a fontset with a base holds face ids. -/
def fontsets_inv (s : Globals) : Prop :=
  s.Vdefault_fontset < s.heap_size ∧
  BASE_FONTSET_P (s.heap s.Vdefault_fontset) = true ∧
  (∀ i a, FONTSET_FROM_ID s i = some a → a < s.heap_size ∧
    (BASE_FONTSET_P (s.heap a) = true → ∃ this_name, FONTSET_NAME (s.heap a) = .str this_name)) ∧
  (∀ a b, FONTSET_BASE (s.heap a) = some b →
    b < s.heap_size ∧ BASE_FONTSET_P (s.heap b) = true) ∧
  (∀ a, (BASE_FONTSET_P (s.heap a) = true → store_typed font_entry_p (s.heap a)) ∧
    (BASE_FONTSET_P (s.heap a) = false → store_typed face_id_p (s.heap a)))

/-- A name is matched by its own pattern: it has no wild card, or the matcher
finds the regular expression of the name in the name. -/
def matches_itself (ext : Externals) (name : List Char) : Prop :=
  has_wildcard (c_string name) →
    0 ≤ ext.fast_c_string_match_ignore_case (pattern_regex (c_string name)) (c_string name)

/-- The states that are reachable from the initial state by calls of
`Fnew_fontset`: calls that return, with a name that is not empty after
downcasing and is matched by its own pattern, and calls that signal an
error. -/
inductive New_Fontset_Reachable (ext : Externals) : Globals → Prop where
  | init : New_Fontset_Reachable ext syms_of_fontset
  | new_fontset (s s1 : Globals) (data : List Char) (fontlist v : Lisp_Object) :
      New_Fontset_Reachable ext s → (ext.Fdowncase data).length ≠ 0 →
      matches_itself ext (ext.Fdowncase data) →
      Fnew_fontset ext s (.str data) fontlist = .value v s1 →
      New_Fontset_Reachable ext s1
  | new_fontset_error (s s1 : Globals) (name fontlist : Lisp_Object) (err : Lisp_Error) :
      New_Fontset_Reachable ext s → Fnew_fontset ext s name fontlist = .signal err s1 →
      New_Fontset_Reachable ext s1

/-- No two slots of the table hold base fontsets whose names are the same C
string. -/
def names_distinct (s : Globals) : Prop :=
  ∀ i j a b n m, i ≠ j → FONTSET_FROM_ID s i = some a → FONTSET_FROM_ID s j = some b →
    BASE_FONTSET_P (s.heap a) = true → BASE_FONTSET_P (s.heap b) = true →
    FONTSET_NAME (s.heap a) = .str n → FONTSET_NAME (s.heap b) = .str m →
    c_string n ≠ c_string m

/-- The position that a key names in a store, as `fontset_ref_via_base` reads
it: the charset, then the first position code unless it is below 32, then the
second position code unless it is below 32. -/
def key_position (split_char : Int → Int × Int × Int) (key : Int) :
    Int × Option (Int × Option Int) :=
  match split_char key with
  | (charset, c1, c2) =>
    (charset, if c1 < 32 then none else some (c1, if c2 < 32 then none else some c2))

/-- The position bytes of a key are well formed in the words of the
specification: each is unspecified, as 0 or -1, or 32 or more, and no
specified byte follows an unspecified one. -/
def key_well_formed (split_char : Int → Int × Int × Int) (key : Int) : Prop :=
  ((split_char key).2.1 = 0 ∨ (split_char key).2.1 = -1 ∨ 32 ≤ (split_char key).2.1) ∧
  ((split_char key).2.2 = 0 ∨ (split_char key).2.2 = -1 ∨ 32 ≤ (split_char key).2.2) ∧
  ((split_char key).2.1 < 32 → (split_char key).2.2 < 32)

/-! ## Example states -/

/-- The empty store after the row (0x92, 48) has been given the element 7:
`fontset_set` at the character 55296 with the position codes 48 and 0. -/
def row_default_store : Lisp_Char_Table :=
  fontset_set SPLIT_NON_ASCII_CHAR Fmake_char_table 55296 (.int 7)

/-- The empty store after the generic character 49152 of charset 0x92 has
been set to `(49152 . "a")` and then the character 55329, with the position
codes 48 and 33, to `(55329 . "b")`. -/
def charset_and_char_store : Lisp_Char_Table :=
  fontset_set SPLIT_NON_ASCII_CHAR
    (fontset_set SPLIT_NON_ASCII_CHAR Fmake_char_table 49152 (.cons (.int 49152) (.str ['a'])))
    55329 (.cons (.int 55329) (.str ['b']))

/-- The state after `make_fontset` (the state itself when the call is
undefined). -/
def make_fontset_state (s : Globals) (frame name : Lisp_Object) (base : Option Nat) : Globals :=
  match make_fontset s frame name base with
  | some (_, s1) => s1
  | none => s

/-- The state after three realized fontsets of the default fontset have been
made on frame 0 in the initial state, with the ids 0, 1 and 2. -/
def three_fontsets : Globals :=
  make_fontset_state
    (make_fontset_state (make_fontset_state syms_of_fontset (.frame 0) .nil (some 0))
      (.frame 0) .nil (some 0))
    (.frame 0) .nil (some 0)

/-- The state after the fontset with id 1 of `three_fontsets` has been
released. -/
def three_fontsets_released_1 : Globals := free_face_fontset three_fontsets 1

/-- The state in which an outcome leaves the program (`s` when the behaviour
is undefined). -/
def outcome_state {α : Type} (o : Outcome α) (s : Globals) : Globals :=
  match o with
  | .value _ s1 => s1
  | .signal _ s1 => s1
  | .undefined => s

/-- The state after `make_fontset_for_ascii_face` (the state itself when the
call is undefined). -/
def ascii_face_state (s : Globals) (f : Nat) (base_fontset_id : Int) : Globals :=
  match make_fontset_for_ascii_face s f base_fontset_id with
  | some (_, s1) => s1
  | none => s

/-- The state after `face_for_char` (the state itself when the call is
undefined). -/
def face_for_char_state (split_char : Int → Int × Int × Int) (lookup_face : Int → Int)
    (s : Globals) (id : Int) (c : Int) : Globals :=
  match face_for_char split_char lookup_face s id c with
  | some r => r.state
  | none => s

/-- The initial state after `(set-fontset-font t 49152 "jisx0208")`: the
default fontset holds `(49152 . (nil . "jisx0208"))` for the generic
character of charset 0x92. -/
def default_with_charset : Globals :=
  outcome_state
    (Fset_fontset_font sample_externals syms_of_fontset .t (.int 49152)
      (.str "jisx0208".toList) .nil) syms_of_fontset

/-- The state `default_with_charset` after a realized fontset of the default
fontset has been made on frame 0; it has the id 0 and the address 1. -/
def realized_of_default : Globals := ascii_face_state default_with_charset 0 (-1)

/-- The state `realized_of_default` after `face_for_char` for the character
55329 of charset 0x92, with a realizer that returns the face id 5. -/
def realized_of_default_cached : Globals :=
  face_for_char_state SPLIT_NON_ASCII_CHAR (fun _ => 5) realized_of_default 0 55329

/-- The fontlist `((ascii . "fixed") (japanese-jisx0208 . "a"))`. -/
def sample_fontlist : Lisp_Object :=
  .cons (.cons (.symbol "ascii".toList) (.str "fixed".toList))
    (.cons (.cons (.symbol "japanese-jisx0208".toList) (.str "a".toList)) .nil)

/-- The initial state after `(new-fontset "f" sample_fontlist)`, which makes
the base fontset with id 0 and address 1, and
`(set-fontset-font "f" 55329 "b")`. -/
def base_with_charset_and_char : Globals :=
  outcome_state
    (Fset_fontset_font sample_externals
      (outcome_state (Fnew_fontset sample_externals syms_of_fontset (.str "f".toList)
        sample_fontlist) syms_of_fontset)
      (.str "f".toList) (.int 55329) (.str "b".toList) .nil) syms_of_fontset

/-- The state `base_with_charset_and_char` after a realized fontset of the
fontset "f" has been made on frame 0 (id 1, address 2) and `face_for_char` has
been called on it for the character 55457, of the row (0x92, 49), with a
realizer that returns the face id 5. -/
def realized_with_charset_face : Globals :=
  face_for_char_state SPLIT_NON_ASCII_CHAR (fun _ => 5)
    (ascii_face_state base_with_charset_and_char 0 0) 1 55457

/-- The initial state after a realized fontset of the default fontset has been
made on frame 0; it has the id 0 and the address 1. -/
def realized_of_empty_default : Globals := ascii_face_state syms_of_fontset 0 (-1)

/-- The initial state after `(new-fontset "f" ((ascii . "fixed")))`, which
makes the base fontset with id 0 and address 1, and then
`(set-fontset-font t 55329 "jisx0208")`, which changes the default fontset. -/
def base_then_default_changed : Globals :=
  outcome_state
    (Fset_fontset_font sample_externals
      (outcome_state (Fnew_fontset sample_externals syms_of_fontset (.str "f".toList)
        (.cons (.cons (.symbol "ascii".toList) (.str "fixed".toList)) .nil)) syms_of_fontset)
      .t (.int 55329) (.str "jisx0208".toList) .nil) syms_of_fontset

/-- The value that an outcome returns, if it returns one. -/
def outcome_value {α : Type} : Outcome α → Option α
  | .value x _ => some x
  | _ => none

/-- The error that an outcome signals, if it signals one. -/
def outcome_error {α : Type} : Outcome α → Option Lisp_Error
  | .signal err _ => some err
  | _ => none

/-- The fontlist `((ascii . "fixed"))`. -/
def ascii_fontlist : Lisp_Object :=
  .cons (.cons (.symbol "ascii".toList) (.str "fixed".toList)) .nil

/-- The initial state after `(new-fontset "foo-bar" ascii_fontlist)`: the base
fontset "foo-bar" has the id 0 and the address 1. -/
def fontset_foo_bar : Globals :=
  outcome_state (Fnew_fontset sample_externals syms_of_fontset (.str "foo-bar".toList)
    ascii_fontlist) syms_of_fontset

/-- The state `fontset_foo_bar` with `fontset-alias-alist` set to
`(("bar" . "foo-bar"))`: "foo-bar" is an alias of the name "bar". -/
def fontset_foo_bar_aliased : Globals :=
  { fontset_foo_bar with
    Vfontset_alias_alist := .cons (.cons (.str "bar".toList) (.str "foo-bar".toList)) .nil }

/-- The initial state after `(new-fontset "" ascii_fontlist)`: the base
fontset with the empty name has the id 0 and the address 1. -/
def fontset_empty_name : Globals :=
  outcome_state (Fnew_fontset sample_externals syms_of_fontset (.str []) ascii_fontlist)
    syms_of_fontset

/-- The state `fontset_empty_name` after a second
`(new-fontset "" ascii_fontlist)`: two base fontsets with the empty name. -/
def fontset_empty_name_twice : Globals :=
  outcome_state (Fnew_fontset sample_externals fontset_empty_name (.str []) ascii_fontlist)
    fontset_empty_name

/-- The state `fontset_foo_bar` after `(new-fontset "abc*" ascii_fontlist)`:
the base fontsets "foo-bar" and "abc*", with the ids 0 and 1. -/
def fontset_foo_bar_abc : Globals :=
  outcome_state (Fnew_fontset sample_externals fontset_foo_bar (.str "abc*".toList)
    ascii_fontlist) fontset_foo_bar

/-- A base fontset whose only element is `(4096 . "a")`, set at the character
4096: its charset is 0x90 and its position codes are 0 and -1. -/
def base_of_key_4096 : Lisp_Char_Table :=
  fontset_set SPLIT_NON_ASCII_CHAR Fmake_char_table 4096 (.cons (.int 4096) (.str ['a']))

/-- A heap with the base fontset `base_of_key_4096` at address 0 and, at the
other addresses, a realized fontset of it with an empty store. -/
def heap_of_key_4096 : Nat → Lisp_Char_Table :=
  fun a => if a = 0 then base_of_key_4096 else { Fmake_char_table with parent := some 0 }

theorem sub_char_table_cases (elt : Lisp_Object) :
    (∃ defalt contents, elt = .sub_char_table defalt contents) ∨ SUB_CHAR_TABLE_P elt = false := by
  cases elt <;> simp [SUB_CHAR_TABLE_P]

theorem nil_cases (elt : Lisp_Object) : elt = .nil ∨ NILP elt = false := by
  cases elt <;> simp [NILP]

theorem fontset_set_store_of_not_sub (v elt : Lisp_Object) (h : SUB_CHAR_TABLE_P elt = false) :
    fontset_set_store v elt = v := by
  cases elt <;> simp_all [fontset_set_store, SUB_CHAR_TABLE_P]

theorem fontset_ref_multibyte (split_char : Int → Int × Int × Int) (fontset : Lisp_Char_Table)
    (c : Int) (hc : SINGLE_BYTE_CHAR_P c = false) :
    fontset_ref split_char fontset c =
      fontset_ref_slot (fontset.contents ((split_char c).1 + 128)) (split_char c).2.1
        (split_char c).2.2 := by
  unfold fontset_ref
  rw [hc]
  rfl

theorem fontset_set_multibyte_contents (split_char : Int → Int × Int × Int)
    (fontset : Lisp_Char_Table) (c : Int) (v : Lisp_Object) (hc : SINGLE_BYTE_CHAR_P c = false)
    (i : Int) :
    (fontset_set split_char fontset c v).contents i =
      if i = (split_char c).1 + 128 then
        fontset_set_walk v [(split_char c).2.1, (split_char c).2.2, 0]
          (fontset.contents ((split_char c).1 + 128))
      else fontset.contents i := by
  unfold fontset_set
  rw [hc]
  rfl

/-! ### Reading a slot -/

theorem fontset_ref_slot_leaf (elt : Lisp_Object) (c1 c2 : Int)
    (h : SUB_CHAR_TABLE_P elt = false) : fontset_ref_slot elt c1 c2 = elt := by
  cases elt <;> simp_all [fontset_ref_slot, SUB_CHAR_TABLE_P]

theorem fontset_ref_slot_generic (defalt : Lisp_Object) (contents : Int → Lisp_Object)
    (c1 c2 : Int) (h : c1 < 32) :
    fontset_ref_slot (.sub_char_table defalt contents) c1 c2 = defalt := by
  simp [fontset_ref_slot, h]

theorem fontset_ref_slot_row (defalt : Lisp_Object) (contents : Int → Lisp_Object)
    (c1 c2 : Int) (h : 32 ≤ c1) :
    fontset_ref_slot (.sub_char_table defalt contents) c1 c2 =
      match contents c1 with
      | .nil => defalt
      | .sub_char_table defalt2 contents2 =>
        if c2 < 32 then defalt2
        else
          match contents2 c2 with
          | .nil => defalt2
          | elt => elt
      | elt => elt := by
  have h32 : ¬ c1 < 32 := by omega
  simp [fontset_ref_slot, h32]

theorem fontset_ref_slot_row_nil (defalt : Lisp_Object) (contents : Int → Lisp_Object)
    (c1 c2 : Int) (h : 32 ≤ c1) (hn : contents c1 = .nil) :
    fontset_ref_slot (.sub_char_table defalt contents) c1 c2 = defalt := by
  rw [fontset_ref_slot_row _ _ _ _ h, hn]

theorem fontset_ref_slot_row_leaf (defalt : Lisp_Object) (contents : Int → Lisp_Object)
    (c1 c2 : Int) (h : 32 ≤ c1) (hn : NILP (contents c1) = false)
    (hs : SUB_CHAR_TABLE_P (contents c1) = false) :
    fontset_ref_slot (.sub_char_table defalt contents) c1 c2 = contents c1 := by
  rw [fontset_ref_slot_row _ _ _ _ h]
  cases hc : contents c1 <;> simp_all [NILP, SUB_CHAR_TABLE_P]

theorem fontset_ref_slot_row_generic (defalt defalt2 : Lisp_Object)
    (contents contents2 : Int → Lisp_Object) (c1 c2 : Int) (h : 32 ≤ c1) (h2 : c2 < 32)
    (hc : contents c1 = .sub_char_table defalt2 contents2) :
    fontset_ref_slot (.sub_char_table defalt contents) c1 c2 = defalt2 := by
  rw [fontset_ref_slot_row _ _ _ _ h, hc]
  simp [h2]

theorem fontset_ref_slot_cell_nil (defalt defalt2 : Lisp_Object)
    (contents contents2 : Int → Lisp_Object) (c1 c2 : Int) (h : 32 ≤ c1) (h2 : 32 ≤ c2)
    (hc : contents c1 = .sub_char_table defalt2 contents2) (hn : contents2 c2 = .nil) :
    fontset_ref_slot (.sub_char_table defalt contents) c1 c2 = defalt2 := by
  have h32 : ¬ c2 < 32 := by omega
  rw [fontset_ref_slot_row _ _ _ _ h, hc]
  simp [h32, hn]

theorem fontset_ref_slot_cell (defalt defalt2 : Lisp_Object)
    (contents contents2 : Int → Lisp_Object) (c1 c2 : Int) (h : 32 ≤ c1) (h2 : 32 ≤ c2)
    (hc : contents c1 = .sub_char_table defalt2 contents2) (hn : NILP (contents2 c2) = false) :
    fontset_ref_slot (.sub_char_table defalt contents) c1 c2 = contents2 c2 := by
  have h32 : ¬ c2 < 32 := by omega
  rw [fontset_ref_slot_row _ _ _ _ h, hc]
  simp only [h32, if_false]
  cases hx : contents2 c2 <;> simp_all [NILP]

/-! ### Writing a slot -/

theorem fontset_set_walk_stop (v elt : Lisp_Object) (code : Int) (rest : List Int)
    (h : code ≤ 0) : fontset_set_walk v (code :: rest) elt = fontset_set_store v elt := by
  have : ¬ 0 < code := by omega
  simp [fontset_set_walk, this]

theorem fontset_set_walk_sub (v defalt : Lisp_Object) (contents : Int → Lisp_Object) (code : Int)
    (rest : List Int) (h : 0 < code) :
    fontset_set_walk v (code :: rest) (.sub_char_table defalt contents) =
      .sub_char_table defalt
        (fun i => if i = code then fontset_set_walk v rest (contents code) else contents i) := by
  simp [fontset_set_walk, h, SUB_CHAR_TABLE_P]

theorem fontset_set_walk_leaf (v elt : Lisp_Object) (code : Int) (rest : List Int)
    (h : 0 < code) (hs : SUB_CHAR_TABLE_P elt = false) :
    fontset_set_walk v (code :: rest) elt =
      .sub_char_table elt
        (fun i => if i = code then fontset_set_walk v rest .nil else .nil) := by
  simp [fontset_set_walk, h, hs, make_sub_char_table]

/-! ### Round trip in a slot -/

theorem fontset_ref_slot_row_written (v e defalt : Lisp_Object) (contents : Int → Lisp_Object)
    (c1 c2 : Int) (h1 : 32 ≤ c1) (h2 : c2 ≤ 0 ∨ 32 ≤ c2)
    (hv : NILP v = false) (hs : SUB_CHAR_TABLE_P v = false)
    (hd : row_levels_ok e)
    (hc : contents c1 = fontset_set_walk v [c2, 0] e) :
    fontset_ref_slot (.sub_char_table defalt contents) c1 c2 = v := by
  rcases h2 with h2 | h2
  · rw [fontset_set_walk_stop _ _ _ _ h2] at hc
    rcases sub_char_table_cases e with ⟨d2, cont2, rfl⟩ | he
    · exact fontset_ref_slot_row_generic _ _ _ _ _ _ h1 (by omega) hc
    · rw [fontset_set_store_of_not_sub _ _ he] at hc
      rw [fontset_ref_slot_row_leaf _ _ _ _ h1 (by rw [hc]; exact hv) (by rw [hc]; exact hs), hc]
  · have hp : 0 < c2 := by omega
    rcases sub_char_table_cases e with ⟨d2, cont2, rfl⟩ | he
    · rw [fontset_set_walk_sub _ _ _ _ _ hp, fontset_set_walk_stop _ _ _ _ (le_refl 0),
        fontset_set_store_of_not_sub _ _ (hd d2 cont2 rfl c2)] at hc
      rw [fontset_ref_slot_cell _ _ _ _ _ _ h1 h2 hc (by simpa using hv)]
      simp
    · rw [fontset_set_walk_leaf _ _ _ _ hp he, fontset_set_walk_stop _ _ _ _ (le_refl 0),
        fontset_set_store_of_not_sub _ _ (by rfl)] at hc
      rw [fontset_ref_slot_cell _ _ _ _ _ _ h1 h2 hc (by simpa using hv)]
      simp

theorem fontset_ref_slot_written (v elt : Lisp_Object) (c1 c2 : Int)
    (h1 : c1 ≤ 0 ∨ 32 ≤ c1) (h2 : c2 ≤ 0 ∨ 32 ≤ c2)
    (hv : NILP v = false) (hs : SUB_CHAR_TABLE_P v = false)
    (hd : slot_levels_ok elt) :
    fontset_ref_slot (fontset_set_walk v [c1, c2, 0] elt) c1 c2 = v := by
  rcases h1 with h1 | h1
  · rw [fontset_set_walk_stop _ _ _ _ h1]
    rcases sub_char_table_cases elt with ⟨d, cont, rfl⟩ | he
    · exact fontset_ref_slot_generic _ _ _ _ (by omega)
    · rw [fontset_set_store_of_not_sub _ _ he]
      exact fontset_ref_slot_leaf _ _ _ hs
  · have hp : 0 < c1 := by omega
    rcases sub_char_table_cases elt with ⟨d, cont, rfl⟩ | he
    · rw [fontset_set_walk_sub _ _ _ _ _ hp]
      exact fontset_ref_slot_row_written v (cont c1) _ _ c1 c2 h1 h2 hv hs
        (hd d cont rfl c1) (by simp)
    · rw [fontset_set_walk_leaf _ _ _ _ hp he]
      refine fontset_ref_slot_row_written v .nil _ _ c1 c2 h1 h2 hv hs ?_ (by simp)
      intro d2 cont2 h
      cases h

/-! ### The levels of the store -/

theorem row_levels_ok_of_not_sub (e : Lisp_Object) (h : SUB_CHAR_TABLE_P e = false) :
    row_levels_ok e := by
  intro d2 cont2 he
  rw [he] at h
  simp [SUB_CHAR_TABLE_P] at h

theorem slot_levels_ok_of_not_sub (e : Lisp_Object) (h : SUB_CHAR_TABLE_P e = false) :
    slot_levels_ok e := by
  intro d cont he
  rw [he] at h
  simp [SUB_CHAR_TABLE_P] at h

theorem fontset_set_walk_row_levels_ok (v e : Lisp_Object) (c2 : Int)
    (hs : SUB_CHAR_TABLE_P v = false) (hd : row_levels_ok e) :
    row_levels_ok (fontset_set_walk v [c2, 0] e) := by
  by_cases hp : 0 < c2
  · rcases sub_char_table_cases e with ⟨d2, cont2, rfl⟩ | he
    · rw [fontset_set_walk_sub _ _ _ _ _ hp, fontset_set_walk_stop _ _ _ _ (le_refl 0),
        fontset_set_store_of_not_sub _ _ (hd d2 cont2 rfl c2)]
      intro d3 cont3 h k
      injection h with _ h3
      rw [← h3]
      by_cases hk : k = c2
      · simp [hk, hs]
      · simp [hk, hd d2 cont2 rfl k]
    · rw [fontset_set_walk_leaf _ _ _ _ hp he, fontset_set_walk_stop _ _ _ _ (le_refl 0),
        fontset_set_store_of_not_sub _ _ (by rfl)]
      intro d3 cont3 h k
      injection h with _ h3
      rw [← h3]
      by_cases hk : k = c2
      · simp [hk, hs]
      · simp [hk, SUB_CHAR_TABLE_P]
  · rw [fontset_set_walk_stop _ _ _ _ (by omega)]
    rcases sub_char_table_cases e with ⟨d2, cont2, rfl⟩ | he
    · intro d3 cont3 h k
      simp only [fontset_set_store] at h
      injection h with _ h3
      rw [← h3]
      exact hd d2 cont2 rfl k
    · rw [fontset_set_store_of_not_sub _ _ he]
      exact row_levels_ok_of_not_sub _ hs

theorem fontset_set_walk_slot_levels_ok (v elt : Lisp_Object) (c1 c2 : Int)
    (hs : SUB_CHAR_TABLE_P v = false) (hd : slot_levels_ok elt) :
    slot_levels_ok (fontset_set_walk v [c1, c2, 0] elt) := by
  by_cases hp : 0 < c1
  · rcases sub_char_table_cases elt with ⟨d, cont, rfl⟩ | he
    · rw [fontset_set_walk_sub _ _ _ _ _ hp]
      intro d3 cont3 h j
      injection h with _ h3
      rw [← h3]
      by_cases hj : j = c1
      · simp only [hj, if_true]
        exact fontset_set_walk_row_levels_ok v _ c2 hs (hd d cont rfl c1)
      · simp only [hj, if_false]
        exact hd d cont rfl j
    · rw [fontset_set_walk_leaf _ _ _ _ hp he]
      intro d3 cont3 h j
      injection h with _ h3
      rw [← h3]
      by_cases hj : j = c1
      · simp only [hj, if_true]
        exact fontset_set_walk_row_levels_ok v _ c2 hs (row_levels_ok_of_not_sub _ (by rfl))
      · simp only [hj, if_false]
        exact row_levels_ok_of_not_sub _ (by rfl)
  · rw [fontset_set_walk_stop _ _ _ _ (by omega)]
    rcases sub_char_table_cases elt with ⟨d, cont, rfl⟩ | he
    · intro d3 cont3 h j
      simp only [fontset_set_store] at h
      injection h with _ h3
      rw [← h3]
      exact hd d cont rfl j
    · rw [fontset_set_store_of_not_sub _ _ he]
      exact slot_levels_ok_of_not_sub _ hs

theorem store_levels_ok_Fmake_char_table : store_levels_ok Fmake_char_table := by
  intro i
  exact slot_levels_ok_of_not_sub _ (by rfl)

theorem store_levels_ok_fontset_set (split_char : Int → Int × Int × Int)
    (fontset : Lisp_Char_Table) (c : Int) (v : Lisp_Object) (hs : SUB_CHAR_TABLE_P v = false)
    (hd : store_levels_ok fontset) : store_levels_ok (fontset_set split_char fontset c v) := by
  cases hc : SINGLE_BYTE_CHAR_P c
  · intro i
    rw [fontset_set_multibyte_contents _ _ _ _ hc]
    by_cases hi : i = (split_char c).1 + 128
    · simp only [hi, if_true]
      exact fontset_set_walk_slot_levels_ok v _ _ _ hs (hd _)
    · simp only [hi, if_false]
      exact hd i
  · intro i
    have : (fontset_set split_char fontset c v).contents = fontset.contents := by
      simp [fontset_set, hc]
    rw [this]
    exact hd i

/-! ## Theorems: claims about the store -/

theorem fully_specified_sample : fully_specified SPLIT_NON_ASCII_CHAR 55329 := by
  unfold fully_specified
  decide

/-- C1 (amended): round trip.  For every fontset whose store has no sub char
table below the second level, every fully specified multibyte character c
and every value v other than nil (Absent) that is not a sub char table,
fontset_ref at c after fontset_set at c with v returns v. -/
theorem fontset_ref_fontset_set_round_trip (split_char : Int → Int × Int × Int)
    (fontset : Lisp_Char_Table) (c : Int) (v : Lisp_Object)
    (hc : SINGLE_BYTE_CHAR_P c = false) (hf : fully_specified split_char c)
    (hd : store_levels_ok fontset) (hv : NILP v = false) (hs : SUB_CHAR_TABLE_P v = false) :
    fontset_ref split_char (fontset_set split_char fontset c v) c = v := by
  rw [fontset_ref_multibyte _ _ _ hc, fontset_set_multibyte_contents _ _ _ _ hc]
  simp only [if_true]
  refine fontset_ref_slot_written v _ _ _ (Or.inr hf.1) ?_ hv hs (hd _)
  rcases hf.2 with h | h
  · left; omega
  · right; exact h

/-- Witness of C1 (amended): a face id stored at the character (0x92, 48, 33)
of the store that holds a font for the row (0x92, 48) is read back. -/
theorem fontset_ref_fontset_set_round_trip_witness :
    fontset_ref SPLIT_NON_ASCII_CHAR
      (fontset_set SPLIT_NON_ASCII_CHAR row_default_store 55329 (.int 3)) 55329 = .int 3 :=
  fontset_ref_fontset_set_round_trip SPLIT_NON_ASCII_CHAR row_default_store 55329 (.int 3)
    (by decide) fully_specified_sample
    (store_levels_ok_fontset_set _ _ _ _ (by rfl) store_levels_ok_Fmake_char_table)
    (by rfl) (by rfl)

/-- Counterexample of C1 as stated: the value nil (Absent) stored at the fully
specified character (0x92, 48, 33) of a store that holds the element 7 for
the row (0x92, 48) is not read back; fontset_ref returns 7, the default of
the row. -/
theorem fontset_ref_fontset_set_nil_counterexample :
    store_levels_ok row_default_store ∧ SINGLE_BYTE_CHAR_P 55329 = false ∧
    fully_specified SPLIT_NON_ASCII_CHAR 55329 ∧
    fontset_ref SPLIT_NON_ASCII_CHAR
      (fontset_set SPLIT_NON_ASCII_CHAR row_default_store 55329 .nil) 55329 = .int 7 ∧
    ¬ fontset_ref SPLIT_NON_ASCII_CHAR
      (fontset_set SPLIT_NON_ASCII_CHAR row_default_store 55329 .nil) 55329 = .nil := by
  refine ⟨store_levels_ok_fontset_set _ _ _ _ (by rfl) store_levels_ok_Fmake_char_table,
    by decide, fully_specified_sample, rfl, ?_⟩
  intro h
  have h7 : fontset_ref SPLIT_NON_ASCII_CHAR
      (fontset_set SPLIT_NON_ASCII_CHAR row_default_store 55329 .nil) 55329 = .int 7 := rfl
  rw [h7] at h
  exact Lisp_Object.noConfusion h

/-- C2: evaluation at the failing input.  In the empty store the generic
character (0x92, 0, 0) is set to v1 and then the character (0x92, 48, 33) to
v2.  The character itself reads v2 and a character of another row reads v1,
but the character (0x92, 48, 34), which shares the first position code, reads
nil: the row was made a sub char table whose default is the former content
of its slot, nil. -/
theorem fontset_set_specific_hides_charset_default :
    Fmake_char_table.contents (0x92 + 128) = .nil ∧
    SPLIT_NON_ASCII_CHAR 49152 = (0x92, 0, 0) ∧
    SPLIT_NON_ASCII_CHAR 55329 = (0x92, 48, 33) ∧
    SPLIT_NON_ASCII_CHAR 55330 = (0x92, 48, 34) ∧
    SPLIT_NON_ASCII_CHAR 55457 = (0x92, 49, 33) ∧
    fontset_ref SPLIT_NON_ASCII_CHAR charset_and_char_store 55329 =
      .cons (.int 55329) (.str ['b']) ∧
    fontset_ref SPLIT_NON_ASCII_CHAR charset_and_char_store 55457 =
      .cons (.int 49152) (.str ['a']) ∧
    fontset_ref SPLIT_NON_ASCII_CHAR charset_and_char_store 55330 = .nil := by
  refine ⟨rfl, by decide, by decide, by decide, by decide, rfl, rfl, rfl⟩

/-- C3 (amended): generic inheritance.  For every store in which charset X has
no entry and every value v that is not a sub char table, after fontset_set
with v on the generic character g of X whose first position code is 0 or
negative (and whose second is below 32), fontset_ref returns v for every
multibyte character c of charset X. -/
theorem fontset_ref_generic_inherited (split_char : Int → Int × Int × Int)
    (fontset : Lisp_Char_Table) (g c : Int) (v : Lisp_Object)
    (hg : SINGLE_BYTE_CHAR_P g = false) (hc : SINGLE_BYTE_CHAR_P c = false)
    (hx : fontset.contents (char_charset split_char g + 128) = .nil)
    (h1 : (split_char g).2.1 ≤ 0) (_h2 : (split_char g).2.2 < 32)
    (hcx : char_charset split_char c = char_charset split_char g)
    (hs : SUB_CHAR_TABLE_P v = false) :
    fontset_ref split_char (fontset_set split_char fontset g v) c = v := by
  unfold char_charset at hx hcx
  rw [fontset_ref_multibyte _ _ _ hc, fontset_set_multibyte_contents _ _ _ _ hg, hcx]
  simp only [if_true]
  rw [hx, fontset_set_walk_stop _ _ _ _ h1, fontset_set_store_of_not_sub _ _ (by rfl)]
  exact fontset_ref_slot_leaf _ _ _ hs

/-- Witness of C3 (amended): the generic character (0x92, 0, 0) set in the
empty store is read at the character (0x92, 48, 33). -/
theorem fontset_ref_generic_inherited_witness :
    fontset_ref SPLIT_NON_ASCII_CHAR
      (fontset_set SPLIT_NON_ASCII_CHAR Fmake_char_table 49152 (.int 7)) 55329 = .int 7 :=
  fontset_ref_generic_inherited SPLIT_NON_ASCII_CHAR Fmake_char_table 49152 55329 (.int 7)
    (by decide) (by decide) rfl (by decide) (by decide) (by decide) (by rfl)

/-- Counterexample of C3 as stated: the character 49792 of charset 0x92 has
the position codes 5 and 0, both below 32; after fontset_set on it with 7 in
the empty store, fontset_ref at the character (0x92, 48, 33) returns nil. -/
theorem fontset_ref_generic_below_32_counterexample :
    SPLIT_NON_ASCII_CHAR 49792 = (0x92, 5, 0) ∧
    Fmake_char_table.contents (char_charset SPLIT_NON_ASCII_CHAR 49792 + 128) = .nil ∧
    char_charset SPLIT_NON_ASCII_CHAR 55329 = char_charset SPLIT_NON_ASCII_CHAR 49792 ∧
    fontset_ref SPLIT_NON_ASCII_CHAR
      (fontset_set SPLIT_NON_ASCII_CHAR Fmake_char_table 49792 (.int 7)) 55329 = .nil ∧
    ¬ fontset_ref SPLIT_NON_ASCII_CHAR
      (fontset_set SPLIT_NON_ASCII_CHAR Fmake_char_table 49792 (.int 7)) 55329 = .int 7 := by
  refine ⟨by decide, rfl, by decide, rfl, ?_⟩
  intro h
  have hn : fontset_ref SPLIT_NON_ASCII_CHAR
      (fontset_set SPLIT_NON_ASCII_CHAR Fmake_char_table 49792 (.int 7)) 55329 = .nil := rfl
  rw [hn] at h
  exact Lisp_Object.noConfusion h

theorem fontset_set_multibyte_defalt (split_char : Int → Int × Int × Int)
    (fontset : Lisp_Char_Table) (c : Int) (v : Lisp_Object) (hc : SINGLE_BYTE_CHAR_P c = false) :
    (fontset_set split_char fontset c v).defalt = fontset.defalt := by
  unfold fontset_set
  rw [hc]
  rfl

theorem fontset_set_list_defalt (split_char : Int → Int × Int × Int)
    (sets : List (Int × Lisp_Object)) (fontset : Lisp_Char_Table)
    (hm : ∀ p ∈ sets, SINGLE_BYTE_CHAR_P p.1 = false) :
    (sets.foldl (fun fs p => fontset_set split_char fs p.1 p.2) fontset).defalt
      = fontset.defalt := by
  induction sets generalizing fontset with
  | nil => rfl
  | cons p rest ih =>
    rw [List.foldl_cons, ih _ (fun q hq => hm q (List.mem_cons_of_mem _ hq))]
    exact fontset_set_multibyte_defalt _ _ _ _ (hm p (List.mem_cons_self _ _))

/-- C4: single-byte isolation.  For every fontset and every character c of 0
to 255, fontset_ref returns the single-byte slot of the fontset, and the
result is the same after any sequence of fontset_set calls on multibyte
characters. -/
theorem fontset_ref_single_byte (split_char : Int → Int × Int × Int)
    (fontset : Lisp_Char_Table) (c : Int) (sets : List (Int × Lisp_Object))
    (hc : 0 ≤ c ∧ c < 256) (hm : ∀ p ∈ sets, SINGLE_BYTE_CHAR_P p.1 = false) :
    fontset_ref split_char fontset c = FONTSET_ASCII fontset ∧
    fontset_ref split_char
      (sets.foldl (fun fs p => fontset_set split_char fs p.1 p.2) fontset) c
      = fontset_ref split_char fontset c := by
  have hsb : SINGLE_BYTE_CHAR_P c = true := by simp [SINGLE_BYTE_CHAR_P, hc]
  simp only [fontset_ref, hsb, if_true, FONTSET_ASCII]
  exact ⟨trivial, fontset_set_list_defalt _ _ _ hm⟩

/-- Witness of C4: setting the character 0x4E2D in the default fontset does not
change the element of the character 65. -/
theorem fontset_ref_single_byte_witness :
    fontset_ref SPLIT_NON_ASCII_CHAR
      ([((0x4E2D : Int), Lisp_Object.int 7)].foldl
        (fun fs p => fontset_set SPLIT_NON_ASCII_CHAR fs p.1 p.2)
        (syms_of_fontset.heap 0)) 65
      = .cons (.int 0) (.cons .nil (.str "iso8859-1".toList)) :=
  ((fontset_ref_single_byte SPLIT_NON_ASCII_CHAR (syms_of_fontset.heap 0) 65
    [((0x4E2D : Int), Lisp_Object.int 7)] (by decide) (by decide)).2).trans rfl

/-! ## Theorems: the table of fontsets -/

theorem AREF_lt_size {α : Type} (v : List α) (i : Int) (x : α) (h : AREF v i = some x) :
    0 ≤ i ∧ i < ASIZE v := by
  unfold AREF at h
  unfold ASIZE
  split at h
  · cases h
  · have := List.getElem?_eq_some.1 h
    obtain ⟨hl, _⟩ := this
    omega

theorem AREF_isSome {α : Type} (v : List α) (i : Int) (h0 : 0 ≤ i) (h1 : i < ASIZE v) :
    ∃ x, AREF v i = some x := by
  unfold ASIZE at h1
  have hl : i.toNat < v.length := by omega
  refine ⟨v[i.toNat], ?_⟩
  unfold AREF
  rw [if_neg (by omega)]
  exact List.getElem?_eq_getElem hl

theorem AREF_ASET {α : Type} (v : List α) (i j : Int) (x : α) :
    AREF (ASET v i x) j = if i = j ∧ 0 ≤ i ∧ i < ASIZE v then some x else AREF v j := by
  unfold AREF ASET ASIZE
  by_cases hi : i < 0
  · have h : ¬ (i = j ∧ 0 ≤ i ∧ i < (v.length : Int)) := by omega
    rw [if_pos hi, if_neg h]
  · rw [if_neg hi]
    by_cases hj : j < 0
    · have h : ¬ (i = j ∧ 0 ≤ i ∧ i < (v.length : Int)) := by omega
      rw [if_pos hj, if_neg h, if_pos hj]
    · rw [if_neg hj, List.getElem?_set]
      by_cases hij : i = j
      · subst hij
        by_cases hl : i.toNat < v.length
        · have h : (i = i ∧ 0 ≤ i ∧ i < (v.length : Int)) := ⟨rfl, by omega, by omega⟩
          rw [if_pos rfl, if_pos hl, if_pos h]
        · have h : ¬ (i = i ∧ 0 ≤ i ∧ i < (v.length : Int)) := by omega
          rw [if_pos rfl, if_neg hl, if_neg h, if_neg hi]
          exact (List.getElem?_eq_none (by omega)).symm
      · have h : ¬ (i = j ∧ 0 ≤ i ∧ i < (v.length : Int)) := by omega
        have h2 : ¬ i.toNat = j.toNat := by omega
        rw [if_neg h2, if_neg h, if_neg hj]

theorem ASIZE_ASET {α : Type} (v : List α) (i : Int) (x : α) : ASIZE (ASET v i x) = ASIZE v := by
  unfold ASET ASIZE
  split <;> simp

theorem AREF_append_replicate {α : Type} (v : List α) (n : Nat) (x : α) (i : Int) :
    AREF (v ++ List.replicate n x) i =
      if i < ASIZE v then AREF v i else if i < ASIZE v + n then some x else none := by
  unfold AREF ASIZE
  by_cases hi : i < 0
  · have : i < (v.length : Int) := by omega
    rw [if_pos hi, if_pos this, if_pos hi]
  · rw [if_neg hi]
    by_cases hl : i < (v.length : Int)
    · rw [if_pos hl, if_neg hi, List.getElem?_append_left (by omega)]
    · rw [if_neg hl, List.getElem?_append_right (by omega), List.getElem?_replicate]
      by_cases hn : i < (v.length : Int) + n
      · rw [if_pos hn, if_pos (by omega)]
      · rw [if_neg hn, if_neg (by omega)]

theorem ASIZE_append_replicate {α : Type} (v : List α) (n : Nat) (x : α) :
    ASIZE (v ++ List.replicate n x) = ASIZE v + n := by
  simp [ASIZE]

theorem make_fontset_scan_spec (table : List (Option Nat)) (fuel : Nat) (id0 id : Int)
    (h : make_fontset_scan table fuel id0 = some id) :
    id0 ≤ id ∧ AREF table id = some none ∧
    ∀ j, id0 ≤ j → j < id → ∃ a, AREF table j = some (some a) := by
  induction fuel generalizing id0 with
  | zero => simp [make_fontset_scan] at h
  | succ n ih =>
    unfold make_fontset_scan at h
    cases hx : AREF table id0 with
    | none => rw [hx] at h; cases h
    | some x =>
      rw [hx] at h
      cases x with
      | none =>
        simp only [Option.some.injEq] at h
        subst h
        exact ⟨le_refl _, hx, fun j h1 h2 => by omega⟩
      | some a =>
        simp only at h
        obtain ⟨h1, h2, h3⟩ := ih (id0 + 1) h
        refine ⟨by omega, h2, fun j hj1 hj2 => ?_⟩
        by_cases hj : j = id0
        · subst hj; exact ⟨a, hx⟩
        · exact h3 j (by omega) hj2

theorem make_fontset_scan_finds (table : List (Option Nat)) (fuel : Nat) (id0 k : Int)
    (h0 : 0 ≤ id0) (hk : id0 ≤ k) (hnil : AREF table k = some none) (hfuel : k - id0 < fuel) :
    ∃ id, make_fontset_scan table fuel id0 = some id := by
  induction fuel generalizing id0 with
  | zero => simp at hfuel; omega
  | succ n ih =>
    unfold make_fontset_scan
    have hb := AREF_lt_size _ _ _ hnil
    obtain ⟨x, hx⟩ := AREF_isSome table id0 h0 (by omega)
    rw [hx]
    cases x with
    | none => exact ⟨id0, rfl⟩
    | some a =>
      have hne : id0 ≠ k := by
        intro he
        rw [he, hnil] at hx
        cases hx
      simp only
      exact ih (id0 + 1) (by omega) (by omega) (by push_cast at hfuel; omega)

/-- The effect of `make_fontset` in a state that satisfies the invariant. -/
theorem make_fontset_of_inv (s : Globals) (hinv : registry_inv s) (frame name : Lisp_Object)
    (base : Option Nat) :
    ∃ id, make_fontset_scan s.Vfontset_table (s.Vfontset_table.length + 1) s.next_fontset_id
        = some id ∧
      s.next_fontset_id ≤ id ∧ id < ASIZE s.Vfontset_table ∧
      AREF s.Vfontset_table id = some none ∧
      (∀ j, 0 ≤ j → j < id → ∃ a, AREF s.Vfontset_table j = some (some a)) ∧
      ∃ s1, make_fontset s frame name base = some (s.heap_size, s1) ∧
        s1.next_fontset_id = id + 1 ∧
        s1.Vfontset_table = ASET (if id + 1 = ASIZE s.Vfontset_table
          then s.Vfontset_table ++ List.replicate 8 none else s.Vfontset_table) id
            (some s.heap_size) ∧
        FONTSET_ID (s1.heap s.heap_size) = .int id ∧ s1.heap_size = s.heap_size + 1 := by
  obtain ⟨h0, h1, h2, h3⟩ := hinv
  obtain ⟨id, hid⟩ := make_fontset_scan_finds s.Vfontset_table (s.Vfontset_table.length + 1)
    s.next_fontset_id (ASIZE s.Vfontset_table - 1) h0 h1 h2
    (by unfold ASIZE at *; push_cast; omega)
  obtain ⟨ha, hb, hc⟩ := make_fontset_scan_spec _ _ _ _ hid
  refine ⟨id, hid, ha, (AREF_lt_size _ _ _ hb).2, hb, ?_, ?_⟩
  · intro j hj0 hj1
    by_cases hj : j < s.next_fontset_id
    · exact h3 j hj0 hj
    · exact hc j (by omega) hj1
  · unfold make_fontset
    simp only [hid]
    exact ⟨_, rfl, rfl, rfl, by simp [FONTSET_ID], rfl⟩

theorem registry_inv_syms_of_fontset : registry_inv syms_of_fontset := by
  refine ⟨by decide, by decide, by decide, ?_⟩
  intro j h0 h1
  simp [syms_of_fontset] at h1
  omega

theorem registry_inv_make_fontset (s s1 : Globals) (frame name : Lisp_Object) (base : Option Nat)
    (a : Nat) (hinv : registry_inv s) (h : make_fontset s frame name base = some (a, s1)) :
    registry_inv s1 := by
  obtain ⟨id, _, hlo, hhi, hnil, hocc, s2, hm, hnext, htab, _, _⟩ :=
    make_fontset_of_inv s hinv frame name base
  rw [hm] at h
  simp only [Option.some.injEq, Prod.mk.injEq] at h
  obtain ⟨_, rfl⟩ := h
  obtain ⟨h0, h1, h2, h3⟩ := hinv
  unfold registry_inv
  rw [hnext, htab, ASIZE_ASET]
  by_cases hg : id + 1 = ASIZE s.Vfontset_table
  · simp only [hg, if_true]
    rw [ASIZE_append_replicate]
    refine ⟨by omega, by omega, ?_, ?_⟩
    · rw [AREF_ASET, if_neg (by omega), AREF_append_replicate, if_neg (by omega),
        if_pos (by omega)]
    · intro j hj0 hj1
      rw [AREF_ASET, ASIZE_append_replicate]
      by_cases hj : id = j
      · rw [if_pos ⟨hj, by omega, by omega⟩]
        exact ⟨_, rfl⟩
      · rw [if_neg (by omega), AREF_append_replicate, if_pos (by omega)]
        exact hocc j hj0 (by omega)
  · simp only [hg, if_false]
    refine ⟨by omega, by omega, ?_, ?_⟩
    · rw [AREF_ASET, if_neg (by omega)]
      exact h2
    · intro j hj0 hj1
      rw [AREF_ASET]
      by_cases hj : id = j
      · rw [if_pos ⟨hj, by omega, by omega⟩]
        exact ⟨_, rfl⟩
      · rw [if_neg (by omega)]
        exact hocc j hj0 (by omega)

theorem registry_inv_free_face_fontset (s : Globals) (id : Int) (hinv : registry_inv s) :
    registry_inv (free_face_fontset s id) := by
  unfold free_face_fontset
  by_cases hv : fontset_id_valid_p s id = true
  · rw [if_pos hv]
    simp only [fontset_id_valid_p, decide_eq_true_eq] at hv
    obtain ⟨h0, h1, h2, h3⟩ := hinv
    unfold registry_inv
    simp only [ASIZE_ASET]
    refine ⟨by split <;> omega, by split <;> omega, ?_, ?_⟩
    · rw [AREF_ASET, if_neg (by omega)]
      exact h2
    · intro j hj0 hj1
      rw [AREF_ASET, if_neg (by split at hj1 <;> omega)]
      exact h3 j hj0 (by split at hj1 <;> omega)
  · rw [if_neg hv]
    exact hinv

theorem registry_inv_of_reachable (s : Globals) (h : Registry_Reachable s) : registry_inv s := by
  induction h with
  | init => exact registry_inv_syms_of_fontset
  | make s s1 frame name base a _ hm ih => exact registry_inv_make_fontset s s1 frame name base a ih hm
  | free s id _ ih => exact registry_inv_free_face_fontset s id ih

/-- C6: lowest-free-id allocation.  In every state of the table reachable from
the initial state by make_fontset and free_face_fontset calls, make_fontset
returns a fontset and assigns it the smallest id whose table slot is empty:
slot id was nil, every slot below id was occupied, the new fontset records id
and is stored in slot id. -/
theorem make_fontset_lowest_free_id (s : Globals) (frame name : Lisp_Object) (base : Option Nat)
    (h : Registry_Reachable s) :
    ∃ a s1 id, make_fontset s frame name base = some (a, s1) ∧
      FONTSET_ID (s1.heap a) = .int id ∧
      AREF s1.Vfontset_table id = some (some a) ∧
      AREF s.Vfontset_table id = some none ∧
      ∀ j, 0 ≤ j → j < id → ∃ b, AREF s.Vfontset_table j = some (some b) := by
  obtain ⟨id, _, hlo, hhi, hnil, hocc, s1, hm, _, htab, hid, _⟩ :=
    make_fontset_of_inv s (registry_inv_of_reachable s h) frame name base
  have h0 := (registry_inv_of_reachable s h).1
  have hsz : id < ASIZE (if id + 1 = ASIZE s.Vfontset_table
      then s.Vfontset_table ++ List.replicate 8 none else s.Vfontset_table) := by
    split
    · rw [ASIZE_append_replicate]; omega
    · exact hhi
  refine ⟨s.heap_size, s1, id, hm, hid, ?_, hnil, hocc⟩
  rw [htab, AREF_ASET, if_pos ⟨rfl, by omega, hsz⟩]

theorem three_fontsets_released_1_reachable : Registry_Reachable three_fontsets_released_1 := by
  have h1 : Registry_Reachable (make_fontset_state syms_of_fontset (.frame 0) .nil (some 0)) :=
    Registry_Reachable.make syms_of_fontset _ (.frame 0) .nil (some 0) 1
      Registry_Reachable.init rfl
  have h2 : Registry_Reachable (make_fontset_state
      (make_fontset_state syms_of_fontset (.frame 0) .nil (some 0)) (.frame 0) .nil (some 0)) :=
    Registry_Reachable.make _ _ (.frame 0) .nil (some 0) 2 h1 rfl
  have h3 : Registry_Reachable three_fontsets :=
    Registry_Reachable.make _ _ (.frame 0) .nil (some 0) 3 h2 rfl
  exact Registry_Reachable.free _ 1 h3

/-- Witness of C6: after the ids 0, 1 and 2 have been created and the id 1 has
been released, the next fontset receives the id 1. -/
theorem make_fontset_lowest_free_id_witness :
    AREF three_fontsets.Vfontset_table 0 = some (some 1) ∧
    AREF three_fontsets.Vfontset_table 1 = some (some 2) ∧
    AREF three_fontsets.Vfontset_table 2 = some (some 3) ∧
    ∃ a s1, make_fontset three_fontsets_released_1 (.frame 0) .nil (some 0) = some (a, s1) ∧
      FONTSET_ID (s1.heap a) = .int 1 ∧ AREF s1.Vfontset_table 1 = some (some a) := by
  refine ⟨rfl, rfl, rfl, ?_⟩
  obtain ⟨a, s1, id, hm, hid, hslot, hnil, hocc⟩ :=
    make_fontset_lowest_free_id three_fontsets_released_1 (.frame 0) .nil (some 0)
      three_fontsets_released_1_reachable
  have h1 : AREF three_fontsets_released_1.Vfontset_table 1 = some none := rfl
  have h0 : AREF three_fontsets_released_1.Vfontset_table 0 = some (some 1) := rfl
  have hid1 : id = 1 := by
    have hb := AREF_lt_size _ _ _ hnil
    by_contra hne
    by_cases hlt : id < 1
    · have : id = 0 := by omega
      rw [this, h0] at hnil
      cases hnil
    · obtain ⟨b, hb1⟩ := hocc 1 (by omega) (by omega)
      rw [h1] at hb1
      cases hb1
  subst hid1
  exact ⟨a, s1, hm, hid, hslot⟩

/-! ## Theorems: resolution through the base fontset -/

theorem fontset_ref_via_base_nil (split_char : Int → Int × Int × Int)
    (heap : Nat → Lisp_Char_Table) (fontset : Lisp_Char_Table) (c : Int) (base : Nat)
    (hc : SINGLE_BYTE_CHAR_P c = false) (hb : FONTSET_BASE fontset = some base)
    (he : fontset_ref split_char (heap base) c = .nil) :
    fontset_ref_via_base split_char heap fontset c = some (.nil, c) := by
  unfold fontset_ref_via_base
  rw [hc]
  simp only [hb, he, Bool.false_eq_true, if_false]

theorem fontset_ref_via_base_key (split_char : Int → Int × Int × Int)
    (heap : Nat → Lisp_Char_Table) (fontset : Lisp_Char_Table) (c : Int) (base : Nat)
    (key : Int) (x : Lisp_Object)
    (hc : SINGLE_BYTE_CHAR_P c = false) (hb : FONTSET_BASE fontset = some base)
    (he : fontset_ref split_char (heap base) c = .cons (.int key) x) :
    fontset_ref_via_base split_char heap fontset c =
      some (fontset_ref_via_base_slot (fontset.contents ((split_char key).1 + 128))
        (split_char key).2.1 (split_char key).2.2, key) := by
  unfold fontset_ref_via_base
  rw [hc]
  simp only [hb, he, Bool.false_eq_true, if_false]

theorem defalt_or_elt_of_not_sub (elt : Lisp_Object) (h : SUB_CHAR_TABLE_P elt = false) :
    defalt_or_elt elt = elt := by
  cases elt <;> simp_all [defalt_or_elt, SUB_CHAR_TABLE_P]

theorem fontset_ref_via_base_slot_generic (elt : Lisp_Object) (c1 c2 : Int) (h : c1 < 32) :
    fontset_ref_via_base_slot elt c1 c2 = defalt_or_elt elt := by
  simp [fontset_ref_via_base_slot, h]

theorem fontset_ref_via_base_slot_leaf (elt : Lisp_Object) (c1 c2 : Int) (h : 32 ≤ c1)
    (hs : SUB_CHAR_TABLE_P elt = false) : fontset_ref_via_base_slot elt c1 c2 = .nil := by
  have h32 : ¬ c1 < 32 := by omega
  cases elt <;> simp_all [fontset_ref_via_base_slot, SUB_CHAR_TABLE_P]

theorem fontset_ref_via_base_slot_row (defalt : Lisp_Object) (contents : Int → Lisp_Object)
    (c1 c2 : Int) (h : 32 ≤ c1) (h2 : c2 < 32) :
    fontset_ref_via_base_slot (.sub_char_table defalt contents) c1 c2
      = defalt_or_elt (contents c1) := by
  have h32 : ¬ c1 < 32 := by omega
  simp [fontset_ref_via_base_slot, h32, h2]

theorem fontset_ref_via_base_slot_cell (defalt defalt2 : Lisp_Object)
    (contents contents2 : Int → Lisp_Object) (c1 c2 : Int) (h : 32 ≤ c1) (h2 : 32 ≤ c2)
    (hc : contents c1 = .sub_char_table defalt2 contents2) :
    fontset_ref_via_base_slot (.sub_char_table defalt contents) c1 c2 = contents2 c2 := by
  have h32 : ¬ c1 < 32 := by omega
  have h322 : ¬ c2 < 32 := by omega
  simp [fontset_ref_via_base_slot, h32, h322, hc]

theorem fontset_ref_via_base_slot_cell_leaf (defalt : Lisp_Object)
    (contents : Int → Lisp_Object) (c1 c2 : Int) (h : 32 ≤ c1) (h2 : 32 ≤ c2)
    (hs : SUB_CHAR_TABLE_P (contents c1) = false) :
    fontset_ref_via_base_slot (.sub_char_table defalt contents) c1 c2 = .nil := by
  have h32 : ¬ c1 < 32 := by omega
  have h322 : ¬ c2 < 32 := by omega
  simp only [fontset_ref_via_base_slot, h32, h322, if_false]
  cases hx : contents c1 <;> simp_all [SUB_CHAR_TABLE_P]

/-- What was written at a well formed key is read at the exact position of the
key. -/
theorem fontset_ref_via_base_slot_written (v elt : Lisp_Object) (c1 c2 : Int)
    (h1 : c1 ≤ 0 ∨ 32 ≤ c1) (h2 : c2 ≤ 0 ∨ 32 ≤ c2) (hs : SUB_CHAR_TABLE_P v = false)
    (hd : slot_levels_ok elt) :
    fontset_ref_via_base_slot (fontset_set_walk v [c1, c2, 0] elt) c1 c2 = v := by
  rcases h1 with h1 | h1
  · rw [fontset_set_walk_stop _ _ _ _ h1, fontset_ref_via_base_slot_generic _ _ _ (by omega)]
    rcases sub_char_table_cases elt with ⟨d, cont, rfl⟩ | he
    · rfl
    · rw [fontset_set_store_of_not_sub _ _ he, defalt_or_elt_of_not_sub _ hs]
  · have hp : 0 < c1 := by omega
    have key : ∀ (d : Lisp_Object) (cont : Int → Lisp_Object) (e : Lisp_Object),
        row_levels_ok e →
        fontset_ref_via_base_slot (.sub_char_table d
          (fun i => if i = c1 then fontset_set_walk v [c2, 0] e else cont i)) c1 c2 = v := by
      intro d cont e hre
      rcases h2 with h2 | h2
      · rw [fontset_ref_via_base_slot_row _ _ _ _ h1 (by omega)]
        simp only [if_true]
        rw [fontset_set_walk_stop _ _ _ _ h2]
        rcases sub_char_table_cases e with ⟨d2, cont2, rfl⟩ | he
        · rfl
        · rw [fontset_set_store_of_not_sub _ _ he, defalt_or_elt_of_not_sub _ hs]
      · have hp2 : 0 < c2 := by omega
        rcases sub_char_table_cases e with ⟨d2, cont2, rfl⟩ | he
        · rw [fontset_ref_via_base_slot_cell _ d2 _
            (fun i => if i = c2 then fontset_set_walk v [0] (cont2 c2) else cont2 i) _ _ h1 h2
            (by simp only [if_true]; rw [fontset_set_walk_sub _ _ _ _ _ hp2])]
          simp only [if_true]
          rw [fontset_set_walk_stop _ _ _ _ (le_refl 0),
            fontset_set_store_of_not_sub _ _ (hre d2 cont2 rfl c2)]
        · rw [fontset_ref_via_base_slot_cell _ e _
            (fun i => if i = c2 then fontset_set_walk v [0] .nil else .nil) _ _ h1 h2
            (by simp only [if_true]; rw [fontset_set_walk_leaf _ _ _ _ hp2 he])]
          simp only [if_true]
          rw [fontset_set_walk_stop _ _ _ _ (le_refl 0),
            fontset_set_store_of_not_sub _ _ (by rfl)]
    rcases sub_char_table_cases elt with ⟨d, cont, rfl⟩ | he
    · rw [fontset_set_walk_sub _ _ _ _ _ hp]
      exact key d cont (cont c1) (hd d cont rfl c1)
    · rw [fontset_set_walk_leaf _ _ _ _ hp he]
      exact key elt (fun _ => .nil) .nil (row_levels_ok_of_not_sub _ (by rfl))

/-- The element read at the exact position of a key is nil or the element
that `fontset_ref` reads there, and it is that element for a key whose first
position code is below 32. -/
theorem fontset_ref_via_base_slot_or (elt : Lisp_Object) (c1 c2 : Int) :
    (c1 < 32 → fontset_ref_via_base_slot elt c1 c2 = fontset_ref_slot elt c1 c2) ∧
    (fontset_ref_via_base_slot elt c1 c2 = .nil ∨
      fontset_ref_via_base_slot elt c1 c2 = fontset_ref_slot elt c1 c2) := by
  by_cases h1 : c1 < 32
  · have : fontset_ref_via_base_slot elt c1 c2 = fontset_ref_slot elt c1 c2 := by
      rw [fontset_ref_via_base_slot_generic _ _ _ h1]
      rcases sub_char_table_cases elt with ⟨d, cont, rfl⟩ | he
      · rw [fontset_ref_slot_generic _ _ _ _ h1]; rfl
      · rw [fontset_ref_slot_leaf _ _ _ he, defalt_or_elt_of_not_sub _ he]
    exact ⟨fun _ => this, Or.inr this⟩
  · refine ⟨fun h => absurd h h1, ?_⟩
    have h1' : 32 ≤ c1 := by omega
    rcases sub_char_table_cases elt with ⟨d, cont, rfl⟩ | he
    · by_cases h2 : c2 < 32
      · rw [fontset_ref_via_base_slot_row _ _ _ _ h1' h2]
        rcases sub_char_table_cases (cont c1) with ⟨d2, cont2, he2⟩ | he2
        · right
          rw [fontset_ref_slot_row_generic _ _ _ _ _ _ h1' h2 he2, he2]; rfl
        · rw [defalt_or_elt_of_not_sub _ he2]
          rcases nil_cases (cont c1) with hn | hn
          · left; exact hn
          · right
            rw [fontset_ref_slot_row_leaf _ _ _ _ h1' hn he2]
      · have h2' : 32 ≤ c2 := by omega
        rcases sub_char_table_cases (cont c1) with ⟨d2, cont2, he2⟩ | he2
        · rw [fontset_ref_via_base_slot_cell _ _ _ _ _ _ h1' h2' he2]
          rcases nil_cases (cont2 c2) with hn | hn
          · left; exact hn
          · right
            rw [fontset_ref_slot_cell _ _ _ _ _ _ h1' h2' he2 hn]
        · left
          exact fontset_ref_via_base_slot_cell_leaf _ _ _ _ h1' h2' he2
    · left
      exact fontset_ref_via_base_slot_leaf _ _ _ h1' he

theorem NILP_eq_true (elt : Lisp_Object) (h : NILP elt = true) : elt = .nil := by
  cases elt <;> simp_all [NILP]

/-- Where the read at the exact position of a key and the read of
`fontset_ref` part: for a first position code of 32 or more, the former is nil
where the latter is a leaf met above the depth of the key (a charset slot or a
row that is not a sub char table) or the default of the enclosing sub char
table (for a row or a cell that is nil); in the other cases both are the same
element. -/
theorem fontset_ref_via_base_slot_where (slot : Lisp_Object) (c1 c2 : Int) :
    (32 ≤ c1 → SUB_CHAR_TABLE_P slot = false →
      fontset_ref_via_base_slot slot c1 c2 = .nil ∧ fontset_ref_slot slot c1 c2 = slot) ∧
    (∀ df ct, slot = .sub_char_table df ct → 32 ≤ c1 →
      (NILP (ct c1) = true →
        fontset_ref_via_base_slot slot c1 c2 = .nil ∧ fontset_ref_slot slot c1 c2 = df) ∧
      (NILP (ct c1) = false → SUB_CHAR_TABLE_P (ct c1) = false →
        (c2 < 32 →
          fontset_ref_via_base_slot slot c1 c2 = ct c1 ∧ fontset_ref_slot slot c1 c2 = ct c1) ∧
        (32 ≤ c2 →
          fontset_ref_via_base_slot slot c1 c2 = .nil ∧ fontset_ref_slot slot c1 c2 = ct c1)) ∧
      (∀ df2 ct2, ct c1 = .sub_char_table df2 ct2 →
        (c2 < 32 →
          fontset_ref_via_base_slot slot c1 c2 = df2 ∧ fontset_ref_slot slot c1 c2 = df2) ∧
        (32 ≤ c2 → NILP (ct2 c2) = true →
          fontset_ref_via_base_slot slot c1 c2 = .nil ∧ fontset_ref_slot slot c1 c2 = df2) ∧
        (32 ≤ c2 → NILP (ct2 c2) = false →
          fontset_ref_via_base_slot slot c1 c2 = ct2 c2 ∧
            fontset_ref_slot slot c1 c2 = ct2 c2))) := by
  refine ⟨fun h1 hs => ⟨fontset_ref_via_base_slot_leaf _ _ _ h1 hs,
    fontset_ref_slot_leaf _ _ _ hs⟩, ?_⟩
  intro df ct hslot h1
  subst hslot
  refine ⟨?_, ?_, ?_⟩
  · intro hn
    have hnil := NILP_eq_true _ hn
    refine ⟨?_, fontset_ref_slot_row_nil _ _ _ _ h1 hnil⟩
    by_cases h2 : c2 < 32
    · rw [fontset_ref_via_base_slot_row _ _ _ _ h1 h2, hnil]
      rfl
    · exact fontset_ref_via_base_slot_cell_leaf _ _ _ _ h1 (by omega) (by rw [hnil]; rfl)
  · intro hn hs
    refine ⟨fun h2 => ⟨?_, fontset_ref_slot_row_leaf _ _ _ _ h1 hn hs⟩,
      fun h2 => ⟨fontset_ref_via_base_slot_cell_leaf _ _ _ _ h1 h2 hs,
        fontset_ref_slot_row_leaf _ _ _ _ h1 hn hs⟩⟩
    rw [fontset_ref_via_base_slot_row _ _ _ _ h1 h2, defalt_or_elt_of_not_sub _ hs]
  · intro df2 ct2 hrow
    refine ⟨fun h2 => ⟨?_, fontset_ref_slot_row_generic _ _ _ _ _ _ h1 h2 hrow⟩,
      fun h2 hn => ⟨?_, fontset_ref_slot_cell_nil _ _ _ _ _ _ h1 h2 hrow (NILP_eq_true _ hn)⟩,
      fun h2 hn => ⟨fontset_ref_via_base_slot_cell _ _ _ _ _ _ h1 h2 hrow,
        fontset_ref_slot_cell _ _ _ _ _ _ h1 h2 hrow hn⟩⟩
    · rw [fontset_ref_via_base_slot_row _ _ _ _ h1 h2, hrow]
      rfl
    · rw [fontset_ref_via_base_slot_cell _ _ _ _ _ _ h1 h2 hrow]
      exact NILP_eq_true _ hn

theorem heap_store_heap_same (s : Globals) (a : Nat) (fontset : Lisp_Char_Table) :
    (heap_store s a fontset).heap a = fontset := by
  simp [heap_store]

theorem heap_store_heap_other (s : Globals) (a b : Nat) (fontset : Lisp_Char_Table)
    (h : b ≠ a) : (heap_store s a fontset).heap b = s.heap b := by
  simp [heap_store, h]

theorem heap_store_FONTSET_FROM_ID (s : Globals) (a : Nat) (fontset : Lisp_Char_Table)
    (id : Int) : FONTSET_FROM_ID (heap_store s a fontset) id = FONTSET_FROM_ID s id := rfl

theorem fontset_set_parent (split_char : Int → Int × Int × Int) (fontset : Lisp_Char_Table)
    (c : Int) (v : Lisp_Object) :
    FONTSET_BASE (fontset_set split_char fontset c v) = FONTSET_BASE fontset := by
  unfold fontset_set FONTSET_BASE
  split <;> rfl

theorem face_for_char_miss (split_char : Int → Int × Int × Int) (lookup_face : Int → Int)
    (s : Globals) (id : Int) (a : Nat) (c c1 : Int) (ha : FONTSET_FROM_ID s id = some a)
    (hr : fontset_ref_via_base split_char s.heap (s.heap a) c = some (.nil, c1)) :
    face_for_char split_char lookup_face s id c =
      some ⟨lookup_face c1, [c1],
        heap_store s a (fontset_set split_char (s.heap a) c1 (.int (lookup_face c1)))⟩ := by
  unfold face_for_char
  simp only [ha, hr]

theorem face_for_char_hit (split_char : Int → Int × Int × Int) (lookup_face : Int → Int)
    (s : Globals) (id : Int) (a : Nat) (c c1 n : Int) (ha : FONTSET_FROM_ID s id = some a)
    (hr : fontset_ref_via_base split_char s.heap (s.heap a) c = some (.int n, c1)) :
    face_for_char split_char lookup_face s id c = some ⟨n, [], s⟩ := by
  unfold face_for_char
  simp only [ha, hr]

/-- C7: cache write then read.  For every realized fontset R (in slot id, at
address a, with a store that has no sub char table below the second level)
with base B and every multibyte character c for which B holds an entry that
carries the well formed multibyte key k, when face_for_char finds no face
recorded, it obtains the face id n from the realizer, called with k, and
stores it; afterwards fontset_ref_via_base on R returns n for every multibyte
character c' whose entry in B carries the same key k, and face_for_char for c'
returns n without calling the realizer and without changing the state. -/
theorem face_for_char_caches_for_key (split_char : Int → Int × Int × Int)
    (lookup_face : Int → Int) (s : Globals) (id : Int) (a b : Nat) (c k : Int)
    (x : Lisp_Object)
    (ha : FONTSET_FROM_ID s id = some a) (hb : FONTSET_BASE (s.heap a) = some b)
    (hab : a ≠ b) (_hc : SINGLE_BYTE_CHAR_P c = false)
    (_he : fontset_ref split_char (s.heap b) c = .cons (.int k) x)
    (hk : SINGLE_BYTE_CHAR_P k = false) (hko : key_codes_ok split_char k)
    (hd : store_levels_ok (s.heap a))
    (hmiss : fontset_ref_via_base split_char s.heap (s.heap a) c = some (.nil, k)) :
    ∃ s1, face_for_char split_char lookup_face s id c = some ⟨lookup_face k, [k], s1⟩ ∧
      ∀ c' x', SINGLE_BYTE_CHAR_P c' = false →
        fontset_ref split_char (s.heap b) c' = .cons (.int k) x' →
        fontset_ref_via_base split_char s1.heap (s1.heap a) c' = some (.int (lookup_face k), k) ∧
        ∀ lookup_face2 : Int → Int,
          face_for_char split_char lookup_face2 s1 id c' = some ⟨lookup_face k, [], s1⟩ := by
  refine ⟨_, face_for_char_miss split_char lookup_face s id a c k ha hmiss, ?_⟩
  intro c' x' hc' he'
  have hread : fontset_ref_via_base split_char
      (heap_store s a (fontset_set split_char (s.heap a) k (.int (lookup_face k)))).heap
      ((heap_store s a (fontset_set split_char (s.heap a) k (.int (lookup_face k)))).heap a) c'
      = some (.int (lookup_face k), k) := by
    rw [heap_store_heap_same]
    rw [fontset_ref_via_base_key split_char _ _ c' b k x' hc'
      (by rw [fontset_set_parent]; exact hb)
      (by rw [heap_store_heap_other _ _ _ _ (Ne.symm hab)]; exact he')]
    rw [fontset_set_multibyte_contents _ _ _ _ hk]
    simp only [if_true]
    rw [fontset_ref_via_base_slot_written _ _ _ _ hko.1 hko.2 (by rfl) (hd _)]
  exact ⟨hread, fun lookup_face2 =>
    face_for_char_hit split_char lookup_face2 _ id a c' k _
      (by rw [heap_store_FONTSET_FROM_ID]; exact ha) hread⟩

/-- Witness of C7: in the realized fontset of the default fontset, which holds
a font for the generic character 49152 of charset 0x92, face_for_char for the
character 55329 records the face 5, and the character 55457 of the same
charset then reads the face 5. -/
theorem face_for_char_caches_for_key_witness :
    fontset_ref_via_base SPLIT_NON_ASCII_CHAR realized_of_default.heap
      (realized_of_default.heap 1) 55329 = some (.nil, 49152) ∧
    ∃ s1, face_for_char SPLIT_NON_ASCII_CHAR (fun _ => 5) realized_of_default 0 55329
        = some ⟨5, [49152], s1⟩ ∧
      fontset_ref_via_base SPLIT_NON_ASCII_CHAR s1.heap (s1.heap 1) 55457
        = some (.int 5, 49152) := by
  refine ⟨rfl, ?_⟩
  obtain ⟨s1, h1, h2⟩ := face_for_char_caches_for_key SPLIT_NON_ASCII_CHAR (fun _ => 5)
    realized_of_default 0 1 0 55329 49152 (.cons .nil (.str "jisx0208".toList))
    rfl rfl (by decide) (by decide) rfl (by decide) (by unfold key_codes_ok; decide)
    (fun i => slot_levels_ok_of_not_sub _ (by rfl)) rfl
  exact ⟨s1, h1, (h2 55457 (.cons .nil (.str "jisx0208".toList)) (by decide) rfl).1⟩

/-- C8 (amended): fontset_ref_via_base reads the realized store at the exact
position of the key.  For every realized fontset R and every multibyte
character c whose base entry carries the multibyte key k, with the position
codes c1 and c2, fontset_ref_via_base(R, c) returns an element and k.  The
element equals fontset_ref(R, k) when c1 is below 32, and otherwise it is nil
or equals fontset_ref(R, k).  For c1 of 32 or more the element is nil where
fontset_ref(R, k) is a leaf met above the depth of the key (the charset slot
when it is not a sub char table; the row c1 when it is neither nil nor a sub
char table and c2 is 32 or more) or the default of the enclosing sub char
table (when the row c1 is nil; when the cell c2 of the row is nil and c2 is 32
or more); in the remaining cases both are the same element: the row or its
default when c2 is below 32, the cell when it is not nil. -/
theorem fontset_ref_via_base_exact_position (split_char : Int → Int × Int × Int)
    (heap : Nat → Lisp_Char_Table) (fontset : Lisp_Char_Table) (c : Int) (base : Nat)
    (k : Int) (x : Lisp_Object)
    (hc : SINGLE_BYTE_CHAR_P c = false) (hb : FONTSET_BASE fontset = some base)
    (he : fontset_ref split_char (heap base) c = .cons (.int k) x)
    (hk : SINGLE_BYTE_CHAR_P k = false) :
    ∃ elt, fontset_ref_via_base split_char heap fontset c = some (elt, k) ∧
      ((split_char k).2.1 < 32 → elt = fontset_ref split_char fontset k) ∧
      (elt = .nil ∨ elt = fontset_ref split_char fontset k) ∧
      (32 ≤ (split_char k).2.1 →
        SUB_CHAR_TABLE_P (fontset.contents ((split_char k).1 + 128)) = false →
        elt = .nil ∧
          fontset_ref split_char fontset k = fontset.contents ((split_char k).1 + 128)) ∧
      (∀ df ct, fontset.contents ((split_char k).1 + 128) = .sub_char_table df ct →
        32 ≤ (split_char k).2.1 →
        (NILP (ct (split_char k).2.1) = true →
          elt = .nil ∧ fontset_ref split_char fontset k = df) ∧
        (NILP (ct (split_char k).2.1) = false →
          SUB_CHAR_TABLE_P (ct (split_char k).2.1) = false →
          ((split_char k).2.2 < 32 →
            elt = ct (split_char k).2.1 ∧
              fontset_ref split_char fontset k = ct (split_char k).2.1) ∧
          (32 ≤ (split_char k).2.2 →
            elt = .nil ∧ fontset_ref split_char fontset k = ct (split_char k).2.1)) ∧
        (∀ df2 ct2, ct (split_char k).2.1 = .sub_char_table df2 ct2 →
          ((split_char k).2.2 < 32 →
            elt = df2 ∧ fontset_ref split_char fontset k = df2) ∧
          (32 ≤ (split_char k).2.2 → NILP (ct2 (split_char k).2.2) = true →
            elt = .nil ∧ fontset_ref split_char fontset k = df2) ∧
          (32 ≤ (split_char k).2.2 → NILP (ct2 (split_char k).2.2) = false →
            elt = ct2 (split_char k).2.2 ∧
              fontset_ref split_char fontset k = ct2 (split_char k).2.2))) := by
  refine ⟨_, fontset_ref_via_base_key split_char heap fontset c base k x hc hb he, ?_⟩
  rw [fontset_ref_multibyte _ _ _ hk]
  exact ⟨(fontset_ref_via_base_slot_or _ _ _).1, (fontset_ref_via_base_slot_or _ _ _).2,
    (fontset_ref_via_base_slot_where _ _ _).1, (fontset_ref_via_base_slot_where _ _ _).2⟩

/-- Witness of C8 (amended): the realized fontset at address 2 of
`realized_with_charset_face` holds the face 5 in the charset slot of 0x92,
recorded for the generic key 49152.  For the character 55329, whose base entry
carries the key 55329 with the position codes 48 and 33, the lookup returns
nil, and fontset_ref at the key returns the charset slot, the leaf 5 met above
the depth of the key. -/
theorem fontset_ref_via_base_exact_position_witness :
    (realized_with_charset_face.heap 2).contents ((SPLIT_NON_ASCII_CHAR 55329).1 + 128)
      = .int 5 ∧
    ∃ elt, fontset_ref_via_base SPLIT_NON_ASCII_CHAR realized_with_charset_face.heap
        (realized_with_charset_face.heap 2) 55329 = some (elt, 55329) ∧
      elt = .nil ∧
      fontset_ref SPLIT_NON_ASCII_CHAR (realized_with_charset_face.heap 2) 55329
        = (realized_with_charset_face.heap 2).contents
          ((SPLIT_NON_ASCII_CHAR 55329).1 + 128) := by
  refine ⟨rfl, ?_⟩
  obtain ⟨elt, h1, _, _, h4, _⟩ :=
    fontset_ref_via_base_exact_position SPLIT_NON_ASCII_CHAR realized_with_charset_face.heap
      (realized_with_charset_face.heap 2) 55329 1 55329 (.str ['b'])
      (by decide) rfl rfl (by decide)
  exact ⟨elt, h1, h4 (by decide) rfl⟩

/-- Counterexample of C8 as stated: the base fontset "f" holds a font for the
generic character 49152 of charset 0x92 and one for the character 55329; its
realized fontset has recorded the face 5 for the key 49152.  For the
character 55329, whose base entry carries the key 55329,
fontset_ref_via_base returns nil, and fontset_ref at the key returns 5, the
leaf met above the depth of the key. -/
theorem fontset_ref_via_base_not_fontset_ref_counterexample :
    FONTSET_FROM_ID realized_with_charset_face 1 = some 2 ∧
    FONTSET_BASE (realized_with_charset_face.heap 2) = some 1 ∧
    fontset_ref SPLIT_NON_ASCII_CHAR (realized_with_charset_face.heap 1) 55329
      = .cons (.int 55329) (.str ['b']) ∧
    fontset_ref_via_base SPLIT_NON_ASCII_CHAR realized_with_charset_face.heap
      (realized_with_charset_face.heap 2) 55329 = some (.nil, 55329) ∧
    fontset_ref SPLIT_NON_ASCII_CHAR (realized_with_charset_face.heap 2) 55329 = .int 5 ∧
    ¬ fontset_ref_via_base SPLIT_NON_ASCII_CHAR realized_with_charset_face.heap
      (realized_with_charset_face.heap 2) 55329
      = some (fontset_ref SPLIT_NON_ASCII_CHAR (realized_with_charset_face.heap 2) 55329,
          55329) := by
  refine ⟨rfl, rfl, rfl, rfl, rfl, ?_⟩
  intro h
  have h1 : fontset_ref_via_base SPLIT_NON_ASCII_CHAR realized_with_charset_face.heap
      (realized_with_charset_face.heap 2) 55329 = some (.nil, 55329) := rfl
  have h2 : fontset_ref SPLIT_NON_ASCII_CHAR (realized_with_charset_face.heap 2) 55329
      = .int 5 := rfl
  rw [h1, h2] at h
  injection h with h
  injection h with h _
  exact Lisp_Object.noConfusion h

/-- C9 (amended): no Cached state without an entry.  For every realized
fontset R (in slot id, at address a) with base B and every multibyte
character c for which neither B nor the default fontset holds an entry,
face_for_char calls the realizer with c, returns its face id n and stores n
in R at c; fontset_ref_via_base(R, c) still returns nil afterwards, and a
repeated face_for_char calls the realizer again. -/
theorem face_for_char_no_base_entry (split_char : Int → Int × Int × Int)
    (lookup_face : Int → Int) (s : Globals) (id : Int) (a b : Nat) (c : Int)
    (ha : FONTSET_FROM_ID s id = some a) (hb : FONTSET_BASE (s.heap a) = some b)
    (hab : a ≠ b) (hc : SINGLE_BYTE_CHAR_P c = false)
    (he : fontset_ref split_char (s.heap b) c = .nil)
    (_hdef : fontset_ref split_char (s.heap s.Vdefault_fontset) c = .nil) :
    ∃ s1, face_for_char split_char lookup_face s id c = some ⟨lookup_face c, [c], s1⟩ ∧
      s1 = heap_store s a (fontset_set split_char (s.heap a) c (.int (lookup_face c))) ∧
      fontset_ref_via_base split_char s1.heap (s1.heap a) c = some (.nil, c) ∧
      ∀ lookup_face2 : Int → Int, ∃ s2,
        face_for_char split_char lookup_face2 s1 id c = some ⟨lookup_face2 c, [c], s2⟩ := by
  have hmiss := fontset_ref_via_base_nil split_char s.heap (s.heap a) c b hc hb he
  refine ⟨_, face_for_char_miss split_char lookup_face s id a c c ha hmiss, rfl, ?_⟩
  have hread : fontset_ref_via_base split_char
      (heap_store s a (fontset_set split_char (s.heap a) c (.int (lookup_face c)))).heap
      ((heap_store s a (fontset_set split_char (s.heap a) c (.int (lookup_face c)))).heap a) c
      = some (.nil, c) := by
    rw [heap_store_heap_same]
    exact fontset_ref_via_base_nil split_char _ _ c b hc
      (by rw [fontset_set_parent]; exact hb)
      (by rw [heap_store_heap_other _ _ _ _ (Ne.symm hab)]; exact he)
  exact ⟨hread, fun lookup_face2 =>
    ⟨_, face_for_char_miss split_char lookup_face2 _ id a c c
      (by rw [heap_store_FONTSET_FROM_ID]; exact ha) hread⟩⟩

/-- Witness of C9 (amended): the realized fontset of the initial default
fontset, which holds no entry for the character 55329. -/
theorem face_for_char_no_base_entry_witness :
    ∃ s1, face_for_char SPLIT_NON_ASCII_CHAR (fun _ => 5) realized_of_empty_default 0 55329
        = some ⟨5, [55329], s1⟩ ∧
      fontset_ref_via_base SPLIT_NON_ASCII_CHAR s1.heap (s1.heap 1) 55329
        = some (.nil, 55329) := by
  obtain ⟨s1, h1, _, h2, _⟩ := face_for_char_no_base_entry SPLIT_NON_ASCII_CHAR (fun _ => 5)
    realized_of_empty_default 0 1 0 55329 rfl rfl (by decide) (by decide) rfl rfl
  exact ⟨s1, h1, h2⟩

/-- Counterexample of C9 as stated: in the realized fontset of the initial
default fontset, which holds no entry for the character 55329, face_for_char
returns the face id 5 of the realizer; fontset_ref_via_base then returns
nil, not 5, and a second face_for_char calls the realizer again, which now
returns 6. -/
theorem face_for_char_not_cached_counterexample :
    FONTSET_FROM_ID realized_of_empty_default 0 = some 1 ∧
    FONTSET_BASE (realized_of_empty_default.heap 1) = some 0 ∧
    fontset_ref SPLIT_NON_ASCII_CHAR (realized_of_empty_default.heap 0) 55329 = .nil ∧
    (face_for_char SPLIT_NON_ASCII_CHAR (fun _ => 5) realized_of_empty_default 0 55329).map
      (fun r => (r.face_id, r.realizer_calls)) = some (5, [55329]) ∧
    fontset_ref_via_base SPLIT_NON_ASCII_CHAR
      (face_for_char_state SPLIT_NON_ASCII_CHAR (fun _ => 5) realized_of_empty_default 0
        55329).heap
      ((face_for_char_state SPLIT_NON_ASCII_CHAR (fun _ => 5) realized_of_empty_default 0
        55329).heap 1) 55329 = some (.nil, 55329) ∧
    ¬ fontset_ref_via_base SPLIT_NON_ASCII_CHAR
      (face_for_char_state SPLIT_NON_ASCII_CHAR (fun _ => 5) realized_of_empty_default 0
        55329).heap
      ((face_for_char_state SPLIT_NON_ASCII_CHAR (fun _ => 5) realized_of_empty_default 0
        55329).heap 1) 55329 = some (.int 5, 55329) ∧
    (face_for_char SPLIT_NON_ASCII_CHAR (fun _ => 6)
      (face_for_char_state SPLIT_NON_ASCII_CHAR (fun _ => 5) realized_of_empty_default 0 55329)
      0 55329).map (fun r => (r.face_id, r.realizer_calls)) = some (6, [55329]) := by
  refine ⟨rfl, rfl, rfl, rfl, rfl, ?_, rfl⟩
  intro h
  have h1 : fontset_ref_via_base SPLIT_NON_ASCII_CHAR
      (face_for_char_state SPLIT_NON_ASCII_CHAR (fun _ => 5) realized_of_empty_default 0
        55329).heap
      ((face_for_char_state SPLIT_NON_ASCII_CHAR (fun _ => 5) realized_of_empty_default 0
        55329).heap 1) 55329 = some (.nil, 55329) := rfl
  rw [h1] at h
  injection h with h
  injection h with h _
  exact Lisp_Object.noConfusion h

/-! ## Theorems: changing a fontset -/

theorem clear_fontset_elements_idem (fontset : Lisp_Char_Table) :
    clear_fontset_elements (clear_fontset_elements fontset) = clear_fontset_elements fontset := by
  unfold clear_fontset_elements
  congr 1
  funext i
  by_cases h : CHAR_TABLE_SINGLE_BYTE_SLOTS ≤ i ∧ i < CHAR_TABLE_ORDINARY_SLOTS <;> simp [h]

theorem Fset_fontset_font_clear_spec (fontset : Nat) (table : List (Option Nat))
    (heap : Nat → Lisp_Char_Table) (b : Nat) :
    (some b ∈ table → FONTSET_BASE (heap b) = some fontset →
      Fset_fontset_font_clear fontset table heap b = clear_fontset_elements (heap b)) ∧
    (Fset_fontset_font_clear fontset table heap b = heap b ∨
      Fset_fontset_font_clear fontset table heap b = clear_fontset_elements (heap b)) := by
  induction table generalizing heap with
  | nil => exact ⟨fun h => by simp at h, Or.inl rfl⟩
  | cons slot rest ih =>
    cases slot with
    | none =>
      simp only [Fset_fontset_font_clear]
      refine ⟨fun hm hb => (ih heap).1 ?_ hb, (ih heap).2⟩
      simpa using hm
    | some r =>
      simp only [Fset_fontset_font_clear]
      by_cases hcond : FONTSET_BASE (heap r) = some fontset
      · have hc : (!BASE_FONTSET_P (heap r) && decide (FONTSET_BASE (heap r) = some fontset))
            = true := by simp [BASE_FONTSET_P, hcond]
        rw [if_pos hc]
        by_cases hbr : b = r
        · subst hbr
          have ih' := ih (fun x => if x = b then clear_fontset_elements (heap b) else heap x)
          simp only [if_true] at ih'
          have hres : Fset_fontset_font_clear fontset rest
              (fun x => if x = b then clear_fontset_elements (heap b) else heap x) b
              = clear_fontset_elements (heap b) := by
            rcases ih'.2 with h | h
            · exact h
            · rw [h, clear_fontset_elements_idem]
          exact ⟨fun _ _ => hres, Or.inr hres⟩
        · have ih' := ih (fun x => if x = r then clear_fontset_elements (heap r) else heap x)
          simp only [hbr, if_false] at ih'
          refine ⟨fun hm hb => ih'.1 ?_ hb, ih'.2⟩
          simp only [List.mem_cons, Option.some.injEq] at hm
          rcases hm with hm | hm
          · exact absurd hm hbr
          · exact hm
      · have hc : ¬ (!BASE_FONTSET_P (heap r) && decide (FONTSET_BASE (heap r) = some fontset))
            = true := by simp [hcond]
        rw [if_neg hc]
        refine ⟨fun hm hb => (ih heap).1 ?_ hb, (ih heap).2⟩
        simp only [List.mem_cons, Option.some.injEq] at hm
        rcases hm with hm | hm
        · subst hm; exact absurd hb hcond
        · exact hm

theorem AREF_mem {α : Type} (v : List α) (i : Int) (x : α) (h : AREF v i = some x) : x ∈ v := by
  unfold AREF at h
  split at h
  · cases h
  · obtain ⟨hl, hx⟩ := List.getElem?_eq_some.1 h
    rw [← hx]
    exact List.getElem_mem _

theorem FONTSET_FROM_ID_mem (s : Globals) (id : Int) (a : Nat)
    (h : FONTSET_FROM_ID s id = some a) : some a ∈ s.Vfontset_table := by
  unfold FONTSET_FROM_ID at h
  cases hx : AREF s.Vfontset_table id with
  | none => rw [hx] at h; cases h
  | some x =>
    rw [hx] at h
    simp only [Option.join] at h
    subst h
    exact AREF_mem _ _ _ hx

/-- C10: evaluation at the failing input.  The base fontset "f" is created with
an ASCII font only, and then the default fontset is given a font for the
character 55329.  The lookup of 55329 in "f" yields nil, and the default
fontset holds `(55329 . (nil . "jisx0208"))` for it. -/
theorem fontset_ref_base_ignores_later_default :
    FONTSET_FROM_ID base_then_default_changed 0 = some 1 ∧
    BASE_FONTSET_P (base_then_default_changed.heap 1) = true ∧
    FONTSET_NAME (base_then_default_changed.heap 1) = .str ['f'] ∧
    base_then_default_changed.Vdefault_fontset = 0 ∧
    fontset_ref SPLIT_NON_ASCII_CHAR (base_then_default_changed.heap 0) 55329
      = .cons (.int 55329) (.cons .nil (.str "jisx0208".toList)) ∧
    fontset_ref SPLIT_NON_ASCII_CHAR (base_then_default_changed.heap 1) 55329 = .nil := by
  refine ⟨rfl, rfl, rfl, rfl, rfl, rfl⟩

/-! ## Theorems: strings -/

/-- C18 (amended): registry-string validity.  For every string, with cs its
bytes before the first NUL, check_registry_encoding returns true if and only
if cs is not empty, does not start with a hyphen and has at most one
hyphen. -/
theorem check_registry_encoding_iff (registry : List Char) :
    check_registry_encoding registry = true ↔
      c_string registry ≠ [] ∧ (c_string registry).head? ≠ some '-' ∧
      (c_string registry).count '-' ≤ 1 := by
  unfold check_registry_encoding
  cases hcs : c_string registry with
  | nil => simp
  | cons ch rest =>
    by_cases h : ch = '-'
    · simp [h]
    · have hne : ¬ ('-' = ch) := fun e => h e.symm
      simp only [h, if_false, decide_eq_true_eq, ne_eq, not_false_eq_true, true_and,
        List.head?_cons, Option.some.injEq, reduceCtorEq]
      rw [List.count_cons_of_ne hne]
      have : (rest.filter (fun x => decide (x = '-'))).length = rest.count '-' := by
        rw [List.count_eq_countP, List.countP_eq_length_filter]
        congr 1
      rw [this]
      omega

/-- Counterexample of C18 as stated: the empty string does not start with a
hyphen and has no hyphen, and check_registry_encoding returns false. -/
theorem check_registry_encoding_empty_counterexample :
    ([] : List Char).head? ≠ some '-' ∧ ([] : List Char).count '-' ≤ 1 ∧
    check_registry_encoding [] = false := by
  decide

theorem same_fontsets_refl (s : Globals) : same_fontsets s s :=
  ⟨rfl, rfl, rfl, rfl, rfl, rfl⟩

theorem same_fontsets_trans (s s1 s2 : Globals) (h1 : same_fontsets s s1)
    (h2 : same_fontsets s1 s2) : same_fontsets s s2 := by
  unfold same_fontsets at h1 h2 ⊢
  refine ⟨?_, ?_, ?_, ?_, ?_, ?_⟩
  · rw [h2.1, h1.1]
  · rw [h2.2.1, h1.2.1]
  · rw [h2.2.2.1, h1.2.2.1]
  · rw [h2.2.2.2.1, h1.2.2.2.1]
  · rw [h2.2.2.2.2.1, h1.2.2.2.2.1]
  · rw [h2.2.2.2.2.2, h1.2.2.2.2.2]

theorem wildcard_translation_eq (p : List Char) :
    (p.map fontset_pattern_regexp_byte).flatten = wildcard_translation p := by
  induction p with
  | nil => rfl
  | cons ch rest ih =>
    simp only [List.map_cons, List.flatten_cons, ih, wildcard_translation,
      fontset_pattern_regexp_byte]
    by_cases h1 : ch = '*'
    · simp [h1]
    · by_cases h2 : ch = '?'
      · simp [h2]
      · simp [h1, h2]

theorem pattern_regex_eq (p : List Char) :
    ['^'] ++ (p.map fontset_pattern_regexp_byte).flatten ++ ['$'] = pattern_regex p := by
  rw [wildcard_translation_eq]
  rfl

theorem has_wildcard_iff (p : List Char) :
    (!p.contains '*' && !p.contains '?') = false ↔ has_wildcard p := by
  unfold has_wildcard
  have h1 : p.contains '*' = true ↔ '*' ∈ p := List.elem_iff
  have h2 : p.contains '?' = true ↔ '?' ∈ p := List.elem_iff
  cases ha : p.contains '*' <;> cases hb : p.contains '?' <;> simp_all

/-- What a defined call of `fontset_pattern_regexp` returns and leaves. -/
theorem fontset_pattern_regexp_spec (s s1 : Globals) (pattern : List Char) (r : Lisp_Object)
    (h : fontset_pattern_regexp s pattern = some (r, s1)) :
    same_fontsets s s1 ∧ (cache_ok s → cache_ok s1) ∧
    (¬ has_wildcard (c_string pattern) → r = .nil ∧ s1 = s) ∧
    (has_wildcard (c_string pattern) → cache_ok s →
      r = .str (pattern_regex (c_string pattern))) := by
  unfold fontset_pattern_regexp at h
  by_cases hw : has_wildcard (c_string pattern)
  · have hw' := (has_wildcard_iff _).2 hw
    simp only [hw', Bool.false_eq_true, if_false] at h
    cases hc : s.Vcached_fontset_data with
    | none =>
      rw [hc] at h
      simp only [Bool.false_eq_true, if_false] at h
      by_cases hfit : fontset_pattern_regexp_allocated pattern
          < fontset_pattern_regexp_written pattern
      · simp [hfit] at h
      · simp only [hfit, if_false, pattern_regex_eq, Option.some.injEq, Prod.mk.injEq] at h
        obtain ⟨rfl, rfl⟩ := h
        refine ⟨⟨rfl, rfl, rfl, rfl, rfl, rfl⟩, fun _ => ?_, fun hn => absurd hw hn,
          fun _ _ => rfl⟩
        simp [cache_ok, c_string, List.takeWhile_takeWhile]
    | some pr =>
      obtain ⟨name, regex⟩ := pr
      rw [hc] at h
      by_cases hhit : c_string name = c_string pattern
      · simp only [hhit, decide_True, if_true, hc, Option.some.injEq, Prod.mk.injEq] at h
        obtain ⟨rfl, rfl⟩ := h
        refine ⟨same_fontsets_refl _, fun hok => hok, fun hn => absurd hw hn, fun _ hok => ?_⟩
        unfold cache_ok at hok
        rw [hc] at hok
        simp only at hok
        rw [hok, hhit]
      · simp only [hhit, decide_False, Bool.false_eq_true, if_false] at h
        by_cases hfit : fontset_pattern_regexp_allocated pattern
            < fontset_pattern_regexp_written pattern
        · simp [hfit] at h
        · simp only [hfit, if_false, pattern_regex_eq, Option.some.injEq, Prod.mk.injEq] at h
          obtain ⟨rfl, rfl⟩ := h
          refine ⟨⟨rfl, rfl, rfl, rfl, rfl, rfl⟩, fun _ => ?_, fun hn => absurd hw hn,
            fun _ _ => rfl⟩
          simp [cache_ok, c_string, List.takeWhile_takeWhile]
  · have hw' : (!(c_string pattern).contains '*' && !(c_string pattern).contains '?') = true := by
      cases hb : (!(c_string pattern).contains '*' && !(c_string pattern).contains '?')
      · exact absurd ((has_wildcard_iff _).1 hb) hw
      · rfl
    simp only [hw', if_true, Option.some.injEq, Prod.mk.injEq] at h
    obtain ⟨rfl, rfl⟩ := h
    exact ⟨same_fontsets_refl _, fun hok => hok, fun _ => ⟨rfl, rfl⟩, fun hn => absurd hn hw⟩

theorem fontset_pattern_regexp_defined (s : Globals) (pattern : List Char)
    (hfit : has_wildcard (c_string pattern) →
      fontset_pattern_regexp_written pattern ≤ fontset_pattern_regexp_allocated pattern) :
    ∃ r s1, fontset_pattern_regexp s pattern = some (r, s1) := by
  unfold fontset_pattern_regexp
  by_cases hw : has_wildcard (c_string pattern)
  · have hw' := (has_wildcard_iff _).2 hw
    have hfit' : ¬ fontset_pattern_regexp_allocated pattern
        < fontset_pattern_regexp_written pattern := by have := hfit hw; omega
    simp only [hw', Bool.false_eq_true, if_false, hfit']
    cases hc : s.Vcached_fontset_data with
    | none => simp
    | some pr =>
      obtain ⟨name, regex⟩ := pr
      by_cases hhit : c_string name = c_string pattern
      · simp [hhit, hc]
      · simp [hhit]
  · have hw' : (!(c_string pattern).contains '*' && !(c_string pattern).contains '?') = true := by
      cases hb : (!(c_string pattern).contains '*' && !(c_string pattern).contains '?')
      · exact absurd ((has_wildcard_iff _).1 hb) hw
      · rfl
    simp only [hw', if_true]
    exact ⟨_, _, rfl⟩

theorem fontset_pattern_regexp_fits_of_none (s s1 : Globals) (pattern : List Char)
    (r : Lisp_Object) (hnone : s.Vcached_fontset_data = none)
    (hw : has_wildcard (c_string pattern))
    (h : fontset_pattern_regexp s pattern = some (r, s1)) :
    fontset_pattern_regexp_written pattern ≤ fontset_pattern_regexp_allocated pattern := by
  unfold fontset_pattern_regexp at h
  have hw' := (has_wildcard_iff _).2 hw
  simp only [hw', Bool.false_eq_true, if_false, hnone] at h
  by_contra hfit
  have hfit' : fontset_pattern_regexp_allocated pattern
      < fontset_pattern_regexp_written pattern := by omega
  simp [hfit'] at h

theorem c_string_eq_self (p : List Char) (h : Char.ofNat 0 ∉ p) : c_string p = p := by
  unfold c_string
  rw [List.takeWhile_eq_self_iff]
  intro x hx
  simp only [ne_eq, decide_eq_true_eq]
  intro hx0
  exact h (hx0 ▸ hx)

/-- C11 (amended): wildcard translation.  For every pattern string, with p
its bytes before the first NUL (the pattern itself when it has no NUL byte),
in a state whose cache is empty or was left by fontset_pattern_regexp, and
when the regular expression fits the scratch buffer: fontset_pattern_regexp
returns, it returns nil if and only if p contains neither `*` nor `?`, and
otherwise it returns exactly `^`, followed by p with every `*` replaced by
`.*`, every `?` replaced by `.` and every other character copied unchanged,
followed by `$`. -/
theorem fontset_pattern_regexp_translation (s : Globals) (pattern : List Char)
    (hok : cache_ok s)
    (hfit : has_wildcard (c_string pattern) →
      fontset_pattern_regexp_written pattern ≤ fontset_pattern_regexp_allocated pattern) :
    (Char.ofNat 0 ∉ pattern → c_string pattern = pattern) ∧
    ∃ r s1, fontset_pattern_regexp s pattern = some (r, s1) ∧
      (r = .nil ↔ ¬ has_wildcard (c_string pattern)) ∧
      (has_wildcard (c_string pattern) → r = .str (pattern_regex (c_string pattern))) := by
  refine ⟨c_string_eq_self pattern, ?_⟩
  obtain ⟨r, s1, h⟩ := fontset_pattern_regexp_defined s pattern hfit
  obtain ⟨_, _, h3, h4⟩ := fontset_pattern_regexp_spec s s1 pattern r h
  refine ⟨r, s1, h, ⟨fun hr hw => ?_, fun hn => (h3 hn).1⟩, fun hw => h4 hw hok⟩
  rw [h4 hw hok] at hr
  cases hr

/-- Witness of C11 (amended): the pattern `foo*bar` in the initial state is
translated to `^foo.*bar$`. -/
theorem fontset_pattern_regexp_translation_witness :
    ∃ r s1, fontset_pattern_regexp syms_of_fontset "foo*bar".toList = some (r, s1) ∧
      r = .str "^foo.*bar$".toList := by
  obtain ⟨hc, r, s1, h, _, h2⟩ := fontset_pattern_regexp_translation syms_of_fontset
    "foo*bar".toList trivial (fun _ => by decide)
  refine ⟨r, s1, h, ?_⟩
  rw [h2 (by rw [hc (by decide)]; exact Or.inl (by decide)), hc (by decide)]
  rfl

/-- Counterexample of C11 as stated: the pattern of the three bytes `a`, NUL
and `*` contains `*`, and fontset_pattern_regexp returns nil for it, since
the C string ends at the NUL. -/
theorem fontset_pattern_regexp_nul_counterexample :
    '*' ∈ ['a', Char.ofNat 0, '*'] ∧
    (fontset_pattern_regexp syms_of_fontset ['a', Char.ofNat 0, '*']).map Prod.fst
      = some .nil := by
  refine ⟨by decide, rfl⟩

theorem fontset_pattern_regexp_calls_cache_ok (ps : List (List Char)) (s0 s : Globals)
    (h0 : cache_ok s0) (h : fontset_pattern_regexp_calls s0 ps = some s) : cache_ok s := by
  induction ps generalizing s0 with
  | nil =>
    simp only [fontset_pattern_regexp_calls, Option.some.injEq] at h
    rw [← h]; exact h0
  | cons p ps ih =>
    unfold fontset_pattern_regexp_calls at h
    cases hp : fontset_pattern_regexp s0 p with
    | none => rw [hp] at h; cases h
    | some rs =>
      obtain ⟨r, s1⟩ := rs
      rw [hp] at h
      exact ih s1 ((fontset_pattern_regexp_spec s0 s1 p r hp).2.1 h0) h

/-- C13: cache transparency.  For every sequence of calls of
fontset_pattern_regexp that starts with an empty cache and every pattern p,
the call for p in the state that the sequence leaves returns the same value
as the call for p in that state with an empty cache (whenever that call
returns): the result does not depend on the pair left in
Vcached_fontset_data. -/
theorem fontset_pattern_regexp_cache_transparent (s0 s s1 : Globals) (ps : List (List Char))
    (p : List Char) (r : Lisp_Object)
    (h0 : s0.Vcached_fontset_data = none)
    (hs : fontset_pattern_regexp_calls s0 ps = some s)
    (h : fontset_pattern_regexp { s with Vcached_fontset_data := none } p = some (r, s1)) :
    ∃ s2, fontset_pattern_regexp s p = some (r, s2) := by
  have hok : cache_ok s :=
    fontset_pattern_regexp_calls_cache_ok ps s0 s (by simp [cache_ok, h0]) hs
  by_cases hw : has_wildcard (c_string p)
  · have hfit := fontset_pattern_regexp_fits_of_none _ s1 p r rfl hw h
    obtain ⟨r2, s2, h2⟩ := fontset_pattern_regexp_defined s p (fun _ => hfit)
    have e1 := (fontset_pattern_regexp_spec _ s1 p r h).2.2.2 hw (by simp [cache_ok])
    have e2 := (fontset_pattern_regexp_spec s s2 p r2 h2).2.2.2 hw hok
    exact ⟨s2, by rw [h2, e1, e2]⟩
  · obtain ⟨r2, s2, h2⟩ := fontset_pattern_regexp_defined s p (fun hw' => absurd hw' hw)
    have e1 := ((fontset_pattern_regexp_spec _ s1 p r h).2.2.1 hw).1
    have e2 := ((fontset_pattern_regexp_spec s s2 p r2 h2).2.2.1 hw).1
    exact ⟨s2, by rw [h2, e1, e2]⟩

/-- Witness of C13: after the calls for `foo*bar` and `abc?`, the call for
`foo*bar` returns `^foo.*bar$`, as with an empty cache. -/
theorem fontset_pattern_regexp_cache_transparent_witness :
    ∃ s s2, fontset_pattern_regexp_calls syms_of_fontset ["foo*bar".toList, "abc?".toList]
        = some s ∧
      s.Vcached_fontset_data = some ("abc?".toList, "^abc.$".toList) ∧
      fontset_pattern_regexp s "foo*bar".toList = some (.str "^foo.*bar$".toList, s2) := by
  have hs : ∃ s, fontset_pattern_regexp_calls syms_of_fontset
      ["foo*bar".toList, "abc?".toList] = some s ∧
      s.Vcached_fontset_data = some ("abc?".toList, "^abc.$".toList) ∧
      ∃ s1, fontset_pattern_regexp { s with Vcached_fontset_data := none } "foo*bar".toList
        = some (.str "^foo.*bar$".toList, s1) := ⟨_, rfl, rfl, _, rfl⟩
  obtain ⟨s, h1, h2, s1, h3⟩ := hs
  obtain ⟨s2, h4⟩ := fontset_pattern_regexp_cache_transparent syms_of_fontset s s1
    ["foo*bar".toList, "abc?".toList] "foo*bar".toList _ rfl h1 h3
  exact ⟨s, s2, h1, h2, h4⟩

/-! ## Theorems: looking a fontset up by name -/

theorem fs_query_fontset_loop_spec (ext : Externals) (heap : Nat → Lisp_Char_Table)
    (key : List Char) (regexpp : Bool) (tbl : List (Option Nat)) (i0 : Int)
    (hnames : ∀ (j : Nat) a, tbl[j]? = some (some a) → BASE_FONTSET_P (heap a) = true →
      ∃ nm, FONTSET_NAME (heap a) = .str nm) :
    ∃ r, fs_query_fontset_loop ext heap key regexpp tbl i0 = some r ∧
      ((r = -1 ∧ ∀ (j : Nat) a nm, tbl[j]? = some (some a) → BASE_FONTSET_P (heap a) = true →
          FONTSET_NAME (heap a) = .str nm → name_matches ext key regexpp nm = false) ∨
       (∃ (j : Nat) (a : Nat) (nm : List Char), r = i0 + j ∧ tbl[j]? = some (some a) ∧
          BASE_FONTSET_P (heap a) = true ∧ FONTSET_NAME (heap a) = .str nm ∧
          name_matches ext key regexpp nm = true ∧
          ∀ (j' : Nat) a' nm', j' < j → tbl[j']? = some (some a') →
            BASE_FONTSET_P (heap a') = true → FONTSET_NAME (heap a') = .str nm' →
            name_matches ext key regexpp nm' = false)) := by
  induction tbl generalizing i0 with
  | nil =>
    exact ⟨-1, rfl, Or.inl ⟨rfl, fun j a nm h => (by simp at h)⟩⟩
  | cons slot rest ih =>
    have hnames' : ∀ (j : Nat) a, rest[j]? = some (some a) → BASE_FONTSET_P (heap a) = true →
        ∃ nm, FONTSET_NAME (heap a) = .str nm := fun j a h => hnames (j + 1) a (by simpa using h)
    obtain ⟨r, hr, hcases⟩ := ih (i0 + 1) hnames'
    -- the result when the first slot is skipped
    have hskip : (∀ a nm, slot = some a → BASE_FONTSET_P (heap a) = true →
        FONTSET_NAME (heap a) = .str nm → name_matches ext key regexpp nm = false) →
        ((r = -1 ∧ ∀ (j : Nat) a nm, (slot :: rest)[j]? = some (some a) →
            BASE_FONTSET_P (heap a) = true →
            FONTSET_NAME (heap a) = .str nm → name_matches ext key regexpp nm = false) ∨
         (∃ (j : Nat) (a : Nat) (nm : List Char), r = i0 + j ∧ (slot :: rest)[j]? = some (some a) ∧
            BASE_FONTSET_P (heap a) = true ∧ FONTSET_NAME (heap a) = .str nm ∧
            name_matches ext key regexpp nm = true ∧
            ∀ (j' : Nat) a' nm', j' < j → (slot :: rest)[j']? = some (some a') →
              BASE_FONTSET_P (heap a') = true → FONTSET_NAME (heap a') = .str nm' →
              name_matches ext key regexpp nm' = false)) := by
      intro h0
      rcases hcases with ⟨h1, h2⟩ | ⟨j, a, nm, h1, h2, h3, h4, h5, h6⟩
      · left
        refine ⟨h1, fun j a nm hj hb hn => ?_⟩
        cases j with
        | zero =>
          simp only [List.getElem?_cons_zero, Option.some.injEq] at hj
          exact h0 a nm hj hb hn
        | succ j => exact h2 j a nm (by simpa using hj) hb hn
      · right
        refine ⟨j + 1, a, nm, by push_cast; omega, by simpa using h2, h3, h4, h5, ?_⟩
        intro j' a' nm' hlt hj hb hn
        cases j' with
        | zero =>
          simp only [List.getElem?_cons_zero, Option.some.injEq] at hj
          exact h0 a' nm' hj hb hn
        | succ j' => exact h6 j' a' nm' (by omega) (by simpa using hj) hb hn
    cases slot with
    | none =>
      refine ⟨r, by simpa [fs_query_fontset_loop] using hr, hskip ?_⟩
      intro a nm h
      cases h
    | some a =>
      by_cases hb : BASE_FONTSET_P (heap a) = true
      · obtain ⟨nm, hnm⟩ := hnames 0 a (by simp) hb
        by_cases hm : name_matches ext key regexpp nm = true
        · refine ⟨i0, ?_, Or.inr ⟨0, a, nm, by simp, by simp, hb, hnm, hm, ?_⟩⟩
          · unfold fs_query_fontset_loop
            unfold name_matches at hm
            simp only [hb, Bool.not_true, Bool.false_eq_true, if_false, hnm, hm, if_true]
          · intro j' a' nm' hlt
            omega
        · refine ⟨r, ?_, hskip ?_⟩
          · unfold fs_query_fontset_loop
            unfold name_matches at hm
            simp only [hb, Bool.not_true, Bool.false_eq_true, if_false, hnm, hm]
            exact hr
          · intro a' nm' ha' _ hn'
            simp only [Option.some.injEq] at ha'
            subst ha'
            rw [hnm] at hn'
            injection hn' with hn'
            subst hn'
            simpa using hm
      · refine ⟨r, ?_, hskip ?_⟩
        · unfold fs_query_fontset_loop
          simp only [hb, Bool.not_false, if_true]
          simpa using hr
        · intro a' nm' ha' hb'
          simp only [Option.some.injEq] at ha'
          subst ha'
          exact absurd hb' hb

theorem FONTSET_FROM_ID_iff (s : Globals) (i : Int) (a : Nat) :
    FONTSET_FROM_ID s i = some a ↔ 0 ≤ i ∧ s.Vfontset_table[i.toNat]? = some (some a) := by
  unfold FONTSET_FROM_ID AREF
  by_cases hi : i < 0
  · simp [hi]
  · simp only [hi, if_false]
    cases hx : s.Vfontset_table[i.toNat]? with
    | none => simp
    | some x =>
      cases x
      · simp
      · simp; omega

/-- The loop of `fs_query_fontset` over the whole table returns -1 when no
base fontset matches, and else the least id of a base fontset that
matches. -/
theorem fs_query_fontset_loop_table (ext : Externals) (s : Globals) (key : List Char)
    (regexpp : Bool) (hnames : names_ok s) :
    ∃ r, fs_query_fontset_loop ext s.heap key regexpp s.Vfontset_table 0 = some r ∧
      (r = -1 ↔ ¬ ∃ i, base_entry_matches ext s key regexpp i) ∧
      (r ≠ -1 → base_entry_matches ext s key regexpp r ∧
        ∀ j, j < r → ¬ base_entry_matches ext s key regexpp j) := by
  obtain ⟨r, hr, hcases⟩ := fs_query_fontset_loop_spec ext s.heap key regexpp
    s.Vfontset_table 0
    (fun j a hj hb => hnames j a ((FONTSET_FROM_ID_iff s j a).2 ⟨by omega, by simpa using hj⟩) hb)
  refine ⟨r, hr, ?_⟩
  rcases hcases with ⟨h1, h2⟩ | ⟨j, a, nm, h1, h2, h3, h4, h5, h6⟩
  · have hnone : ¬ ∃ i, base_entry_matches ext s key regexpp i := by
      rintro ⟨i, a, nm, hi, hb, hn, hm⟩
      obtain ⟨hi0, hi1⟩ := (FONTSET_FROM_ID_iff s i a).1 hi
      rw [h2 i.toNat a nm hi1 hb hn] at hm
      cases hm
    exact ⟨⟨fun _ => hnone, fun _ => h1⟩, fun hne => absurd h1 hne⟩
  · have hr' : r = (j : Int) := by omega
    have hmatch : base_entry_matches ext s key regexpp r :=
      ⟨a, nm, (FONTSET_FROM_ID_iff s r a).2 ⟨by omega, by rw [hr']; simpa using h2⟩, h3, h4, h5⟩
    refine ⟨⟨fun hm1 => by omega, fun hno => absurd ⟨r, hmatch⟩ hno⟩, fun _ => ⟨hmatch, ?_⟩⟩
    rintro i hi ⟨a', nm', hi', hb', hn', hm'⟩
    obtain ⟨hi0, hi1⟩ := (FONTSET_FROM_ID_iff s i a').1 hi'
    rw [h6 i.toNat a' nm' (by omega) hi1 hb' hn'] at hm'
    cases hm'

theorem names_ok_of_same (s s1 : Globals) (h : same_fontsets s s1) (hn : names_ok s) :
    names_ok s1 := by
  obtain ⟨h1, _, h3, _⟩ := h
  intro i a hi hb
  have hi' : FONTSET_FROM_ID s i = some a := by
    unfold FONTSET_FROM_ID at hi ⊢
    rw [← h3]; exact hi
  rw [h1] at hb ⊢
  exact hn i a hi' hb

theorem base_entry_matches_of_same (ext : Externals) (s s1 : Globals) (key : List Char)
    (regexpp : Bool) (i : Int) (h : same_fontsets s s1) :
    base_entry_matches ext s1 key regexpp i ↔ base_entry_matches ext s key regexpp i := by
  obtain ⟨h1, _, h3, _⟩ := h
  unfold base_entry_matches FONTSET_FROM_ID
  rw [h1, h3]

/-- The first step of `fs_query_fontset`: the key of the lookup and the state
after the translation of the pattern. -/
theorem fs_query_fontset_eq (ext : Externals) (s : Globals) (name : List Char) (regexpp : Bool)
    (hok : cache_ok s)
    (hfit : regexpp = false → has_wildcard (c_string (ext.Fdowncase name)) →
      fontset_pattern_regexp_written (ext.Fdowncase name)
        ≤ fontset_pattern_regexp_allocated (ext.Fdowncase name)) :
    ∃ s1, same_fontsets s s1 ∧ cache_ok s1 ∧
      fs_query_fontset ext s name regexpp =
        (fs_query_fontset_loop ext s1.heap (lookup_key ext s name regexpp).1
          (lookup_key ext s name regexpp).2 s1.Vfontset_table 0).map (fun id => (id, s1)) := by
  have hmap : ∀ (o : Option Int) (s1 : Globals),
      (match o with
        | none => none
        | some id => some (id, s1)) = o.map (fun id => (id, s1)) := by
    intro o s1; cases o <;> rfl
  unfold fs_query_fontset lookup_key
  cases regexpp with
  | true =>
    refine ⟨s, same_fontsets_refl s, hok, ?_⟩
    simp only [Bool.not_true, Bool.false_eq_true, if_false, if_true, hmap]
  | false =>
    simp only [Bool.not_false, if_true, Bool.false_eq_true, if_false]
    have hwild :
        ∃ s1, same_fontsets s s1 ∧ cache_ok s1 ∧
        (match
          (match fontset_pattern_regexp s (ext.Fdowncase name) with
            | none => none
            | some (.str regex, s1) => some (regex, true, s1)
            | some (_, s1) => some (ext.Fdowncase name, false, s1) :
            Option (List Char × Bool × Globals)) with
        | none => none
        | some (name, regexpp, s1) =>
          match fs_query_fontset_loop ext s1.heap name regexpp s1.Vfontset_table 0 with
          | none => none
          | some id => some (id, s1)) =
        (fs_query_fontset_loop ext s1.heap
          (if has_wildcard (c_string (ext.Fdowncase name)) then
            (pattern_regex (c_string (ext.Fdowncase name)), true)
           else (ext.Fdowncase name, false)).1
          (if has_wildcard (c_string (ext.Fdowncase name)) then
            (pattern_regex (c_string (ext.Fdowncase name)), true)
           else (ext.Fdowncase name, false)).2 s1.Vfontset_table 0).map
            (fun id => (id, s1)) := by
      obtain ⟨r, s1, hp⟩ := fontset_pattern_regexp_defined s (ext.Fdowncase name) (hfit rfl)
      obtain ⟨hsame, hc, hnw, hw⟩ := fontset_pattern_regexp_spec s s1 _ r hp
      refine ⟨s1, hsame, hc hok, ?_⟩
      rw [hp]
      by_cases hwc : has_wildcard (c_string (ext.Fdowncase name))
      · rw [hw hwc hok]
        simp only [hwc, if_true, hmap]
      · rw [(hnw hwc).1]
        simp only [hwc, if_false, hmap]
    cases hfr : Frassoc (ext.Fdowncase name) s.Vfontset_alias_alist with
    | cons car cdr =>
      cases car with
      | str al =>
        refine ⟨s, same_fontsets_refl s, hok, ?_⟩
        simp only [hmap]
      | _ => exact hwild
    | _ => exact hwild

/-! ## Theorems: the id of a fontset by name -/

/-- The names of the base fontsets of a concrete table with one fontset. -/
theorem names_ok_of_single (s : Globals) (a : Nat) (nm : List Char) (n : Nat)
    (htable : s.Vfontset_table = some a :: List.replicate n none)
    (hname : FONTSET_NAME (s.heap a) = .str nm) : names_ok s := by
  intro i b hi _
  have hmem := FONTSET_FROM_ID_mem s i b hi
  rw [htable] at hmem
  simp [List.mem_replicate] at hmem
  subst hmem
  exact ⟨nm, hname⟩

/-- The result of `fs_query_fontset` when every base fontset is named by a
string, the cache is as `fontset_pattern_regexp` leaves it and a wild card
pattern fits the scratch buffer: -1 when no base fontset matches the key of
the lookup, and else the least id of a base fontset that matches. -/
theorem fs_query_fontset_spec (ext : Externals) (s : Globals) (name : List Char)
    (regexpp : Bool) (hnames : names_ok s) (hok : cache_ok s)
    (hfit : regexpp = false → has_wildcard (c_string (ext.Fdowncase name)) →
      fontset_pattern_regexp_written (ext.Fdowncase name)
        ≤ fontset_pattern_regexp_allocated (ext.Fdowncase name)) :
    ∃ id s1, fs_query_fontset ext s name regexpp = some (id, s1) ∧ same_fontsets s s1 ∧
      (id = -1 ↔ ¬ ∃ i, base_entry_matches ext s (lookup_key ext s name regexpp).1
        (lookup_key ext s name regexpp).2 i) ∧
      (id ≠ -1 →
        base_entry_matches ext s (lookup_key ext s name regexpp).1
          (lookup_key ext s name regexpp).2 id ∧
        (∃ a, FONTSET_FROM_ID s id = some a ∧ BASE_FONTSET_P (s.heap a) = true) ∧
        ∀ j, j < id → ¬ base_entry_matches ext s (lookup_key ext s name regexpp).1
          (lookup_key ext s name regexpp).2 j) := by
  obtain ⟨s1, hsame, _, heq⟩ := fs_query_fontset_eq ext s name regexpp hok hfit
  obtain ⟨r, hr, h1, h2⟩ := fs_query_fontset_loop_table ext s1 (lookup_key ext s name regexpp).1
    (lookup_key ext s name regexpp).2 (names_ok_of_same s s1 hsame hnames)
  refine ⟨r, s1, ?_, hsame, ?_, ?_⟩
  · rw [heq, hr]; rfl
  · rw [h1]
    constructor
    · rintro h ⟨i, hi⟩
      exact h ⟨i, (base_entry_matches_of_same ext s s1 _ _ i hsame).2 hi⟩
    · rintro h ⟨i, hi⟩
      exact h ⟨i, (base_entry_matches_of_same ext s s1 _ _ i hsame).1 hi⟩
  · intro hne
    obtain ⟨hm, hmin⟩ := h2 hne
    have hm' := (base_entry_matches_of_same ext s s1 _ _ r hsame).1 hm
    refine ⟨hm', ?_, ?_⟩
    · obtain ⟨a, nm, ha, hb, _, _⟩ := hm'
      exact ⟨a, ha, hb⟩
    · intro j hj hjm
      exact hmin j hj ((base_entry_matches_of_same ext s s1 _ _ j hsame).2 hjm)

/-- Claim C20, amended.  With every base fontset named by a string, the cache
as `fontset_pattern_regexp` leaves it, and a wild card pattern that fits the
scratch buffer of its translation, `fs_query_fontset` returns an id and
leaves the fontsets as they are; the id is -1 exactly when no slot of the
table holds a base fontset whose name matches the key of the lookup (the
real name when the downcased name is an alias), and else it is the least id
of such a slot, so never the id of a realized fontset or of an empty slot. -/
theorem fs_query_fontset_lowest_match (ext : Externals) (s : Globals) (name : List Char)
    (regexpp : Bool) (hnames : names_ok s) (hok : cache_ok s)
    (hfit : regexpp = false → has_wildcard (c_string (ext.Fdowncase name)) →
      fontset_pattern_regexp_written (ext.Fdowncase name)
        ≤ fontset_pattern_regexp_allocated (ext.Fdowncase name)) :
    ∃ id s1, fs_query_fontset ext s name regexpp = some (id, s1) ∧ same_fontsets s s1 ∧
      (id = -1 ↔ ¬ ∃ i, base_entry_matches ext s (lookup_key ext s name regexpp).1
        (lookup_key ext s name regexpp).2 i) ∧
      (id ≠ -1 →
        base_entry_matches ext s (lookup_key ext s name regexpp).1
          (lookup_key ext s name regexpp).2 id ∧
        (∃ a, FONTSET_FROM_ID s id = some a ∧ BASE_FONTSET_P (s.heap a) = true) ∧
        ∀ j, j < id → ¬ base_entry_matches ext s (lookup_key ext s name regexpp).1
          (lookup_key ext s name regexpp).2 j) :=
  fs_query_fontset_spec ext s name regexpp hnames hok hfit

/-- The amended claim C20 at the pattern "foo-*" in the state with the one
base fontset "foo-bar": the id 0 is returned. -/
theorem fs_query_fontset_lowest_match_witness :
    ∃ s1, fs_query_fontset sample_externals fontset_foo_bar "foo-*".toList false = some (0, s1) ∧
      same_fontsets fontset_foo_bar s1 ∧
      base_entry_matches sample_externals fontset_foo_bar
        (lookup_key sample_externals fontset_foo_bar "foo-*".toList false).1
        (lookup_key sample_externals fontset_foo_bar "foo-*".toList false).2 0 := by
  obtain ⟨id, s1, h, hsame, _, h2⟩ := fs_query_fontset_lowest_match sample_externals
    fontset_foo_bar "foo-*".toList false
    (names_ok_of_single fontset_foo_bar 1 "foo-bar".toList 31 rfl rfl) trivial
    (fun _ _ => by decide)
  have hid : (fs_query_fontset sample_externals fontset_foo_bar "foo-*".toList false).map
      Prod.fst = some 0 := rfl
  rw [h] at hid
  have hid0 : id = 0 := by simpa using hid
  subst hid0
  exact ⟨s1, h, hsame, (h2 (by decide)).1⟩

/-- Claim C20, counterexample.  With `fontset-alias-alist` set to
`(("bar" . "foo-bar"))`, slot 0 holds the base fontset "foo-bar", the name
"foo-bar" is in lower case and has no wild card, and `fs_query_fontset`
returns -1 for "foo-bar": the lookup is made with the real name "bar". -/
theorem fs_query_fontset_alias_counterexample :
    FONTSET_FROM_ID fontset_foo_bar_aliased 0 = some 1 ∧
    BASE_FONTSET_P (fontset_foo_bar_aliased.heap 1) = true ∧
    FONTSET_NAME (fontset_foo_bar_aliased.heap 1) = .str "foo-bar".toList ∧
    sample_externals.Fdowncase "foo-bar".toList = "foo-bar".toList ∧
    ¬ has_wildcard "foo-bar".toList ∧
    (fs_query_fontset sample_externals fontset_foo_bar_aliased "foo-bar".toList false).map
      Prod.fst = some (-1) :=
  ⟨rfl, rfl, rfl, rfl, by decide, rfl⟩

/-! ## Theorems: errors of the entry points -/

/-- A lookup by name leaves the fontsets as they are. -/
theorem fs_query_fontset_same (ext : Externals) (s s1 : Globals) (name : List Char)
    (regexpp : Bool) (id : Int) (h : fs_query_fontset ext s name regexpp = some (id, s1)) :
    same_fontsets s s1 := by
  unfold fs_query_fontset at h
  have hloop : ∀ (key : List Char) (re : Bool) (s0 : Globals),
      (match fs_query_fontset_loop ext s0.heap key re s0.Vfontset_table 0 with
        | none => none
        | some id => some (id, s0)) = some (id, s1) → s0 = s1 := by
    intro key re s0 h0
    cases hl : fs_query_fontset_loop ext s0.heap key re s0.Vfontset_table 0 with
    | none => rw [hl] at h0; cases h0
    | some r => rw [hl] at h0; simp only [Option.some.injEq, Prod.mk.injEq] at h0; exact h0.2
  cases regexpp with
  | true =>
    simp only [Bool.not_true, Bool.false_eq_true, if_false] at h
    rw [← hloop _ _ _ h]; exact same_fontsets_refl s
  | false =>
    simp only [Bool.not_false, if_true] at h
    have hrest : (match fontset_pattern_regexp s (ext.Fdowncase name) with
        | none => (none : Option (List Char × Bool × Globals))
        | some (.str regex, s1) => some (regex, true, s1)
        | some (_, s1) => some (ext.Fdowncase name, false, s1)) = none ∨
        ∃ key re s0, (match fontset_pattern_regexp s (ext.Fdowncase name) with
        | none => (none : Option (List Char × Bool × Globals))
        | some (.str regex, s1) => some (regex, true, s1)
        | some (_, s1) => some (ext.Fdowncase name, false, s1)) = some (key, re, s0) ∧
          same_fontsets s s0 := by
      cases hp : fontset_pattern_regexp s (ext.Fdowncase name) with
      | none => exact Or.inl rfl
      | some rs =>
        obtain ⟨r, s0⟩ := rs
        have hs := (fontset_pattern_regexp_spec s s0 _ r hp).1
        cases r <;> exact Or.inr ⟨_, _, s0, rfl, hs⟩
    have hfin : ∀ (step : Option (List Char × Bool × Globals)),
        (step = none ∨ ∃ key re s0, step = some (key, re, s0) ∧ same_fontsets s s0) →
        (match step with
          | none => none
          | some (name, regexpp, s1) =>
            match fs_query_fontset_loop ext s1.heap name regexpp s1.Vfontset_table 0 with
            | none => none
            | some id => some (id, s1)) = some (id, s1) → same_fontsets s s1 := by
      intro step hstep h0
      rcases hstep with hstep | ⟨key, re, s0, hstep, hs⟩
      · subst hstep; cases h0
      · subst hstep
        rw [← hloop _ _ _ h0]; exact hs
    cases hr : Frassoc (ext.Fdowncase name) s.Vfontset_alias_alist with
    | cons a b =>
      rw [hr] at h
      cases a with
      | str aliased =>
        exact hfin _ (Or.inr ⟨_, _, s, rfl, same_fontsets_refl s⟩) h
      | _ => exact hfin _ hrest h
    | _ => rw [hr] at h; exact hfin _ hrest h

/-- The function `check_fontset_name` leaves the fontsets as they are. -/
theorem check_fontset_name_same (ext : Externals) (s : Globals) (name : Lisp_Object) :
    (∀ a s1, check_fontset_name ext s name = .value a s1 → same_fontsets s s1) ∧
    (∀ err s1, check_fontset_name ext s name = .signal err s1 → same_fontsets s s1) := by
  unfold check_fontset_name
  cases name with
  | str data =>
    simp only
    cases hq : fs_query_fontset ext s data false with
    | none => exact ⟨fun _ _ h => (by cases h), fun _ _ h => (by cases h)⟩
    | some r =>
      obtain ⟨id, s0⟩ := r
      have hs := fs_query_fontset_same ext s s0 data false id hq
      simp only
      by_cases hid : id < 0
      · simp only [hid, if_true]
        exact ⟨fun _ _ h => (by cases h), fun _ _ h => (by cases h; exact hs)⟩
      · simp only [hid, if_false]
        cases FONTSET_FROM_ID s0 id with
        | none => exact ⟨fun _ _ h => (by cases h), fun _ _ h => (by cases h)⟩
        | some a => exact ⟨fun _ _ h => (by cases h; exact hs), fun _ _ h => (by cases h)⟩
  | t => exact ⟨fun _ _ h => (by cases h; exact same_fontsets_refl s), fun _ _ h => (by cases h)⟩
  | _ => exact ⟨fun _ _ h => (by cases h), fun _ _ h => (by cases h; exact same_fontsets_refl s)⟩

/-- The function `Fquery_fontset` leaves the fontsets as they are. -/
theorem Fquery_fontset_same (ext : Externals) (s : Globals) (pattern regexpp : Lisp_Object) :
    (∀ v s1, Fquery_fontset ext s pattern regexpp = .value v s1 → same_fontsets s s1) ∧
    (∀ err s1, Fquery_fontset ext s pattern regexpp = .signal err s1 → same_fontsets s s1) := by
  unfold Fquery_fontset
  cases pattern with
  | str data =>
    simp only
    by_cases hlen : data.length = 0
    · simp only [hlen, if_true]
      exact ⟨fun _ _ h => (by cases h; exact same_fontsets_refl s), fun _ _ h => (by cases h)⟩
    · simp only [hlen, if_false]
      cases hq : fs_query_fontset ext s data (!NILP regexpp) with
      | none => exact ⟨fun _ _ h => (by cases h), fun _ _ h => (by cases h)⟩
      | some r =>
        obtain ⟨id, s0⟩ := r
        have hs := fs_query_fontset_same ext s s0 data _ id hq
        simp only
        by_cases hid : id < 0
        · simp only [hid, if_true]
          exact ⟨fun _ _ h => (by cases h; exact hs), fun _ _ h => (by cases h)⟩
        · simp only [hid, if_false]
          cases FONTSET_FROM_ID s0 id with
          | none => exact ⟨fun _ _ h => (by cases h), fun _ _ h => (by cases h)⟩
          | some a => exact ⟨fun _ _ h => (by cases h; exact hs), fun _ _ h => (by cases h)⟩
  | _ => exact ⟨fun _ _ h => (by cases h), fun _ _ h => (by cases h; exact same_fontsets_refl s)⟩

/-- An error of `Fnew_fontset` leaves the fontsets as they are. -/
theorem Fnew_fontset_signal_same (ext : Externals) (s s1 : Globals) (name fontlist : Lisp_Object)
    (err : Lisp_Error) (h : Fnew_fontset ext s name fontlist = .signal err s1) :
    same_fontsets s s1 := by
  unfold Fnew_fontset at h
  cases name with
  | str data =>
    simp only at h
    by_cases hl : (NILP fontlist || CONSP fontlist) = true
    · simp only [hl, Bool.not_true, Bool.false_eq_true, if_false] at h
      have hq := Fquery_fontset_same ext s (.str (ext.Fdowncase data)) .nil
      cases hqv : Fquery_fontset ext s (.str (ext.Fdowncase data)) .nil with
      | undefined => rw [hqv] at h; cases h
      | signal e s0 => rw [hqv] at h; cases h; exact hq.2 _ _ hqv
      | value tem s0 =>
        rw [hqv] at h
        have hs := hq.1 _ _ hqv
        simp only at h
        by_cases ht : (!NILP tem) = true
        · simp only [ht, if_true] at h
          cases h; exact hs
        · simp only [ht, if_false] at h
          cases he : Fnew_fontset_elements ext fontlist [] none with
          | none => rw [he] at h; cases h; exact hs
          | some r =>
            obtain ⟨elements, ascii⟩ := r
            rw [he] at h
            cases ascii with
            | none => cases h; exact hs
            | some ascii_font =>
              simp only at h
              cases hm : make_fontset s0 .nil (.str (ext.Fdowncase data)) none with
              | none => rw [hm] at h; cases h
              | some r2 => rw [hm] at h; cases h
    · simp only [hl, Bool.not_false, if_true] at h
      cases h; exact same_fontsets_refl s
  | _ => cases h; exact same_fontsets_refl s

/-- An error of `Fset_fontset_font` leaves the fontsets as they are. -/
theorem Fset_fontset_font_signal_same (ext : Externals) (s s1 : Globals)
    (name ch fontname frame : Lisp_Object) (err : Lisp_Error)
    (h : Fset_fontset_font ext s name ch fontname frame = .signal err s1) :
    same_fontsets s s1 := by
  unfold Fset_fontset_font at h
  have hc := check_fontset_name_same ext s name
  cases hcheck : check_fontset_name ext s name with
  | undefined => rw [hcheck] at h; cases h
  | signal e s0 => rw [hcheck] at h; cases h; exact hc.2 _ _ hcheck
  | value fontset s0 =>
    rw [hcheck] at h
    have hs := hc.1 _ _ hcheck
    simp only at h
    cases hrange : Fset_fontset_font_range ext name ch with
    | error e => rw [hrange] at h; cases h; exact hs
    | ok r =>
      obtain ⟨from_, to_⟩ := r
      rw [hrange] at h
      cases fontname with
      | str data =>
        simp only at h
        cases helt : Fset_fontset_font_elt s0 fontset from_ (ext.Fdowncase data) with
        | none => rw [helt] at h; cases h; exact hs
        | some elt =>
          rw [helt] at h
          simp only at h
          by_cases hf : (!Fset_fontset_font_frame ext frame) = true
          · simp only [hf, if_true] at h
            cases h; exact hs
          · simp only [hf, if_false] at h
            cases h
      | _ => cases h; exact hs

/-- Claim C15.  Whenever `Fnew_fontset` or `Fset_fontset_font` signals an
error, the state at the signal has the table of fontsets, the next id, the
default fontset and the contents of every fontset of the state before the
call. -/
theorem validation_error_leaves_fontsets (ext : Externals) (s s1 : Globals)
    (name fontlist ch fontname frame : Lisp_Object) (err : Lisp_Error)
    (h : Fnew_fontset ext s name fontlist = .signal err s1 ∨
      Fset_fontset_font ext s name ch fontname frame = .signal err s1) :
    s1.Vfontset_table = s.Vfontset_table ∧ s1.next_fontset_id = s.next_fontset_id ∧
      s1.heap = s.heap ∧ same_fontsets s s1 := by
  have hs : same_fontsets s s1 := by
    rcases h with h | h
    · exact Fnew_fontset_signal_same ext s s1 name fontlist err h
    · exact Fset_fontset_font_signal_same ext s s1 name ch fontname frame err h
  exact ⟨hs.2.2.1, hs.2.2.2.1, hs.1, hs⟩

/-- Claim C15 at the duplicate name "foo-*" in the state with the base fontset
"foo-bar". -/
theorem validation_error_leaves_fontsets_witness :
    Fnew_fontset sample_externals fontset_foo_bar (.str "foo-*".toList) ascii_fontlist
      = .signal .fontset_matches_existing
        (outcome_state (Fnew_fontset sample_externals fontset_foo_bar (.str "foo-*".toList)
          ascii_fontlist) fontset_foo_bar) ∧
    (outcome_state (Fnew_fontset sample_externals fontset_foo_bar (.str "foo-*".toList)
      ascii_fontlist) fontset_foo_bar).heap = fontset_foo_bar.heap :=
  ⟨rfl, (validation_error_leaves_fontsets sample_externals fontset_foo_bar _
    (.str "foo-*".toList) ascii_fontlist .nil .nil .nil .fontset_matches_existing
    (Or.inl rfl)).2.2.1⟩

/-- The checks of `Fset_fontset_font` on a single byte character, or on a
range with a single byte end, give an error when the fontset name is not
nil. -/
theorem Fset_fontset_font_range_single_byte (ext : Externals) (name ch : Lisp_Object)
    (hname : NILP name = false)
    (hch : (∃ c, ch = .int c ∧ SINGLE_BYTE_CHAR_P c = true) ∨
      (∃ from_ to_, ch = .cons (.int from_) (.int to_) ∧
        (SINGLE_BYTE_CHAR_P from_ = true ∨ SINGLE_BYTE_CHAR_P to_ = true))) :
    ∃ err, Fset_fontset_font_range ext name ch = .error err := by
  unfold Fset_fontset_font_range
  rcases hch with ⟨c, rfl, hc⟩ | ⟨from_, to_, rfl, hft⟩
  · simp only
    by_cases hv : (!ext.char_valid_p c 1) = true
    · simp only [hv, if_true]; exact ⟨_, rfl⟩
    · simp only [hv, if_false, hc, if_true]; exact ⟨_, rfl⟩
  · simp only
    by_cases hv : (!ext.char_valid_p from_ 0 || !ext.char_valid_p to_ 0) = true
    · simp only [hv, if_true]; exact ⟨_, rfl⟩
    · have hsb : (!NILP name && (SINGLE_BYTE_CHAR_P from_ || SINGLE_BYTE_CHAR_P to_)) = true := by
        rw [hname]
        rcases hft with h | h <;> simp [h]
      simp only [hv, if_false, hsb, if_true]; exact ⟨_, rfl⟩

/-- A name that `check_fontset_name` resolves is not nil. -/
theorem check_fontset_name_value_not_nil (ext : Externals) (s s1 : Globals) (name : Lisp_Object)
    (a : Nat) (h : check_fontset_name ext s name = .value a s1) : NILP name = false := by
  cases name with
  | nil => unfold check_fontset_name at h; cases h
  | _ => rfl

/-- Claim C16.  For every fontset name whose lookup is defined, when the
character is a single byte character, or a range of which an end is a single
byte character, `Fset_fontset_font` signals an error and the fontsets are as
they were before the call. -/
theorem Fset_fontset_font_single_byte (ext : Externals) (s : Globals)
    (name ch fontname frame : Lisp_Object)
    (hdef : check_fontset_name ext s name ≠ .undefined)
    (hch : (∃ c, ch = .int c ∧ SINGLE_BYTE_CHAR_P c = true) ∨
      (∃ from_ to_, ch = .cons (.int from_) (.int to_) ∧
        (SINGLE_BYTE_CHAR_P from_ = true ∨ SINGLE_BYTE_CHAR_P to_ = true))) :
    ∃ err s1, Fset_fontset_font ext s name ch fontname frame = .signal err s1 ∧
      same_fontsets s s1 ∧ s1.heap = s.heap := by
  have hsig : ∃ err s1, Fset_fontset_font ext s name ch fontname frame = .signal err s1 := by
    unfold Fset_fontset_font
    cases hcheck : check_fontset_name ext s name with
    | undefined => exact absurd hcheck hdef
    | signal e s0 => exact ⟨e, s0, rfl⟩
    | value fontset s0 =>
      obtain ⟨err, herr⟩ := Fset_fontset_font_range_single_byte ext name ch
        (check_fontset_name_value_not_nil ext s s0 name fontset hcheck) hch
      simp only [herr]
      exact ⟨err, s0, rfl⟩
  obtain ⟨err, s1, h⟩ := hsig
  have hs := Fset_fontset_font_signal_same ext s s1 name ch fontname frame err h
  exact ⟨err, s1, h, hs, hs.1⟩

/-- Claim C16 at the fontset "foo-bar" and the range from the character 65 to
the character 55329: the error is the one of a single byte character. -/
theorem Fset_fontset_font_single_byte_witness :
    (∃ err s1, Fset_fontset_font sample_externals fontset_foo_bar (.str "foo-bar".toList)
        (.cons (.int 65) (.int 55329)) (.str "fixed".toList) .nil = .signal err s1 ∧
      same_fontsets fontset_foo_bar s1 ∧ s1.heap = fontset_foo_bar.heap) ∧
    outcome_error (Fset_fontset_font sample_externals fontset_foo_bar (.str "foo-bar".toList)
      (.cons (.int 65) (.int 55329)) (.str "fixed".toList) .nil) = some .single_byte_character :=
  ⟨Fset_fontset_font_single_byte sample_externals fontset_foo_bar (.str "foo-bar".toList)
    (.cons (.int 65) (.int 55329)) (.str "fixed".toList) .nil
    (fun h => Outcome.noConfusion (h.symm.trans (rfl :
      check_fontset_name sample_externals fontset_foo_bar (.str "foo-bar".toList)
        = .value 1 fontset_foo_bar)))
    (Or.inr ⟨65, 55329, rfl, Or.inl rfl⟩), rfl⟩

/-! ## Theorems: duplicate names -/

/-- The key of a lookup of a name that is no alias. -/
theorem lookup_key_no_alias (ext : Externals) (s : Globals) (name : List Char)
    (halias : ∀ aliased rest,
      Frassoc (ext.Fdowncase name) s.Vfontset_alias_alist ≠ .cons (.str aliased) rest) :
    lookup_key ext s name false =
      if has_wildcard (c_string (ext.Fdowncase name)) then
        (pattern_regex (c_string (ext.Fdowncase name)), true)
      else (ext.Fdowncase name, false) := by
  unfold lookup_key
  cases hr : Frassoc (ext.Fdowncase name) s.Vfontset_alias_alist with
  | cons a b =>
    cases a with
    | str aliased => exact absurd hr (halias aliased b)
    | _ => rfl
  | _ => rfl

/-- A name that matches an existing base fontset is rejected by
`Fnew_fontset`. -/
theorem Fnew_fontset_duplicate_signal (ext : Externals) (s : Globals) (data e : List Char)
    (fontlist : Lisp_Object) (i : Int) (a : Nat)
    (hlist : (NILP fontlist || CONSP fontlist) = true)
    (hidem : ext.Fdowncase (ext.Fdowncase data) = ext.Fdowncase data)
    (hnonempty : (ext.Fdowncase data).length ≠ 0)
    (halias : ∀ aliased rest,
      Frassoc (ext.Fdowncase data) s.Vfontset_alias_alist ≠ .cons (.str aliased) rest)
    (hnames : names_ok s) (hok : cache_ok s)
    (hfit : has_wildcard (c_string (ext.Fdowncase data)) →
      fontset_pattern_regexp_written (ext.Fdowncase data)
        ≤ fontset_pattern_regexp_allocated (ext.Fdowncase data))
    (hentry : FONTSET_FROM_ID s i = some a) (hbase : BASE_FONTSET_P (s.heap a) = true)
    (hname : FONTSET_NAME (s.heap a) = .str e)
    (hmatch : (¬ has_wildcard (c_string (ext.Fdowncase data)) ∧
        c_string (ext.Fdowncase data) = c_string e) ∨
      (has_wildcard (c_string (ext.Fdowncase data)) ∧
        0 ≤ ext.fast_c_string_match_ignore_case (pattern_regex (c_string (ext.Fdowncase data)))
          (c_string e))) :
    ∃ s1, Fnew_fontset ext s (.str data) fontlist = .signal .fontset_matches_existing s1 ∧
      same_fontsets s s1 := by
  have halias' : ∀ aliased rest, Frassoc (ext.Fdowncase (ext.Fdowncase data))
      s.Vfontset_alias_alist ≠ .cons (.str aliased) rest := by rw [hidem]; exact halias
  obtain ⟨id, s1, hq, hsame, hnone, hsome⟩ := fs_query_fontset_spec ext s (ext.Fdowncase data)
    false hnames hok (by rw [hidem]; exact fun _ => hfit)
  have hm : base_entry_matches ext s (lookup_key ext s (ext.Fdowncase data) false).1
      (lookup_key ext s (ext.Fdowncase data) false).2 i := by
    refine ⟨a, e, hentry, hbase, hname, ?_⟩
    rw [lookup_key_no_alias ext s _ halias', hidem]
    unfold name_matches
    rcases hmatch with ⟨hw, heq⟩ | ⟨hw, hre⟩
    · rw [if_neg hw]
      simp only [Bool.false_eq_true, if_false, decide_eq_true_eq]
      exact heq
    · rw [if_pos hw]
      simp only [if_true, decide_eq_true_eq]
      exact hre
  have hne : id ≠ -1 := fun h => (hnone.1 h) ⟨i, hm⟩
  obtain ⟨⟨b, nm, hb, _, hbn, _⟩, _, _⟩ := hsome hne
  have hb1 : FONTSET_FROM_ID s1 id = some b := by
    unfold FONTSET_FROM_ID at hb ⊢
    rw [hsame.2.2.1]; exact hb
  have hid : ¬ id < 0 := by
    obtain ⟨h0, _⟩ := (FONTSET_FROM_ID_iff s id b).1 hb
    omega
  refine ⟨s1, ?_, hsame⟩
  unfold Fnew_fontset
  simp only [hlist, Bool.not_true, Bool.false_eq_true, if_false]
  have hQ : Fquery_fontset ext s (.str (ext.Fdowncase data)) .nil = .value (.str nm) s1 := by
    unfold Fquery_fontset
    simp only [hnonempty, if_false]
    have hnil : (!NILP Lisp_Object.nil) = false := rfl
    rw [hnil, hq]
    simp only [hid, if_false, hb1, hsame.1, hbn]
  rw [hQ]
  rfl

/-- Claim C14, amended.  Let a base fontset named `e` exist, every base
fontset be named by a string, the cache be as `fontset_pattern_regexp` leaves
it, and `n` be a name whose downcased form is not empty, is no alias in
`fontset-alias-alist`, and either has no wild card and equals `e` as a C
string, or is a wild card pattern that fits the scratch buffer of its
translation and whose regular expression matches `e`.  Then `Fnew_fontset`
signals that the name matches an existing fontset, and the fontsets are as
they were before the call. -/
theorem Fnew_fontset_duplicate (ext : Externals) (s : Globals) (data e : List Char)
    (fontlist : Lisp_Object) (i : Int) (a : Nat)
    (hlist : (NILP fontlist || CONSP fontlist) = true)
    (hidem : ext.Fdowncase (ext.Fdowncase data) = ext.Fdowncase data)
    (hnonempty : (ext.Fdowncase data).length ≠ 0)
    (halias : ∀ aliased rest,
      Frassoc (ext.Fdowncase data) s.Vfontset_alias_alist ≠ .cons (.str aliased) rest)
    (hnames : names_ok s) (hok : cache_ok s)
    (hfit : has_wildcard (c_string (ext.Fdowncase data)) →
      fontset_pattern_regexp_written (ext.Fdowncase data)
        ≤ fontset_pattern_regexp_allocated (ext.Fdowncase data))
    (hentry : FONTSET_FROM_ID s i = some a) (hbase : BASE_FONTSET_P (s.heap a) = true)
    (hname : FONTSET_NAME (s.heap a) = .str e)
    (hmatch : (¬ has_wildcard (c_string (ext.Fdowncase data)) ∧
        c_string (ext.Fdowncase data) = c_string e) ∨
      (has_wildcard (c_string (ext.Fdowncase data)) ∧
        0 ≤ ext.fast_c_string_match_ignore_case (pattern_regex (c_string (ext.Fdowncase data)))
          (c_string e))) :
    ∃ s1, Fnew_fontset ext s (.str data) fontlist = .signal .fontset_matches_existing s1 ∧
      same_fontsets s s1 :=
  Fnew_fontset_duplicate_signal ext s data e fontlist i a hlist hidem hnonempty halias hnames hok
    hfit hentry hbase hname hmatch

/-- The amended claim C14 at the example of the specification: with the base
fontset "foo-bar", the name "foo-*" is rejected. -/
theorem Fnew_fontset_duplicate_witness :
    ∃ s1, Fnew_fontset sample_externals fontset_foo_bar (.str "foo-*".toList) ascii_fontlist
      = .signal .fontset_matches_existing s1 ∧ same_fontsets fontset_foo_bar s1 :=
  Fnew_fontset_duplicate sample_externals fontset_foo_bar "foo-*".toList "foo-bar".toList
    ascii_fontlist 0 1 rfl rfl (by decide) (fun _ _ h => Lisp_Object.noConfusion h)
    (names_ok_of_single fontset_foo_bar 1 "foo-bar".toList 31 rfl rfl) trivial
    (fun _ => by decide) rfl rfl rfl (Or.inr ⟨by decide, by decide⟩)

/-- Claim C14, counterexample.  In the state with the base fontset of the
empty name, `Fnew_fontset` with the empty name, which equals the existing
name, returns nil and creates the fontset of id 1, again with the empty
name: `Fquery_fontset` returns nil for an empty pattern. -/
theorem Fnew_fontset_empty_name_counterexample :
    FONTSET_FROM_ID fontset_empty_name 0 = some 1 ∧
    BASE_FONTSET_P (fontset_empty_name.heap 1) = true ∧
    FONTSET_NAME (fontset_empty_name.heap 1) = .str [] ∧
    sample_externals.Fdowncase [] = [] ∧
    FONTSET_FROM_ID fontset_empty_name 1 = none ∧
    outcome_value (Fnew_fontset sample_externals fontset_empty_name (.str []) ascii_fontlist)
      = some .nil ∧
    FONTSET_FROM_ID (outcome_state (Fnew_fontset sample_externals fontset_empty_name (.str [])
      ascii_fontlist) fontset_empty_name) 1 = some 2 ∧
    FONTSET_NAME ((outcome_state (Fnew_fontset sample_externals fontset_empty_name (.str [])
      ascii_fontlist) fontset_empty_name).heap 2) = .str [] :=
  ⟨rfl, rfl, rfl, rfl, rfl, rfl, rfl, rfl⟩

/-! ## Theorems: the family and the registry of a font name -/

theorem hyphen_positions_length (cs : List Char) (p : Nat) :
    (hyphen_positions cs p).length = cs.count '-' := by
  induction cs generalizing p with
  | nil => rfl
  | cons ch rest ih =>
    unfold hyphen_positions
    by_cases h : ch = '-'
    · subst h
      simp only [if_true, List.length_cons, List.count_cons_self, ih]
    · have hne : ¬ ('-' = ch) := fun e => h e.symm
      simp only [h, if_false, ih]
      rw [List.count_cons_of_ne hne]

/-- The loop of `font_family_registry` when the string has few hyphens: it
runs to the end of the string and records the offset after each hyphen. -/
theorem font_family_registry_loop_few (cs : List Char) (p : Nat) (sep : List Nat)
    (h : sep.length + (hyphen_positions cs p).length ≤ 14) :
    font_family_registry_loop cs p sep
      = (sep ++ (hyphen_positions cs p).map (fun x => x + 1), p + cs.length) := by
  induction cs generalizing p sep with
  | nil => simp [font_family_registry_loop, hyphen_positions]
  | cons ch rest ih =>
    unfold font_family_registry_loop
    unfold hyphen_positions at h ⊢
    have hk : sep.length < 15 := by omega
    simp only [hk, if_true]
    by_cases hc : ch = '-'
    · subst hc
      simp only [if_true, List.length_cons] at h ⊢
      have h2 : (sep ++ [p + 1]).length + (hyphen_positions rest (p + 1)).length ≤ 14 := by
        simp only [List.length_append, List.length_cons, List.length_nil]
        omega
      rw [ih (p + 1) (sep ++ [p + 1]) h2]
      simp only [List.append_assoc, List.singleton_append, List.map_cons, Prod.mk.injEq,
        true_and]
      omega
    · simp only [hc, if_false] at h ⊢
      rw [ih (p + 1) sep h]
      simp only [List.length_cons, Prod.mk.injEq, true_and]
      omega

/-- The loop of `font_family_registry` when the string has many hyphens: it
ends with 15 offsets. -/
theorem font_family_registry_loop_many (cs : List Char) (p : Nat) (sep : List Nat)
    (hk : sep.length ≤ 15) (h : 15 ≤ sep.length + (hyphen_positions cs p).length) :
    (font_family_registry_loop cs p sep).1.length = 15 := by
  induction cs generalizing p sep with
  | nil =>
    simp only [hyphen_positions, List.length_nil, Nat.add_zero] at h
    simp only [font_family_registry_loop]
    omega
  | cons ch rest ih =>
    unfold font_family_registry_loop
    unfold hyphen_positions at h
    by_cases hlt : sep.length < 15
    · simp only [hlt, if_true]
      by_cases hc : ch = '-'
      · simp only [hc, if_true] at h ⊢
        apply ih
        · simp only [List.length_append, List.length_cons, List.length_nil]; omega
        · simp only [List.length_append, List.length_cons, List.length_nil] at h ⊢; omega
      · simp only [hc, if_false] at h ⊢
        exact ih _ _ hk h
    · simp only [hlt, if_false]
      omega

theorem getD_map_succ (l : List Nat) (i : Nat) (h : i < l.length) :
    (l.map (fun x => x + 1)).getD i 0 = l.getD i 0 + 1 := by
  simp [List.getD_eq_getElem?_getD, List.getElem?_map, List.getElem?_eq_getElem h]

/-- The result of `font_family_registry` in terms of the C string of the
name. -/
theorem font_family_registry_eq (data : List Char) :
    font_family_registry (.str data) =
      if (c_string data).count '-' = 14 then
        .cons (.str (xlfd_family (c_string data))) (.str (xlfd_registry (c_string data)))
      else .str data := by
  unfold font_family_registry
  simp only
  have hlen := hyphen_positions_length (c_string data) 0
  by_cases hfew : (hyphen_positions (c_string data) 0).length ≤ 14
  · rw [font_family_registry_loop_few (c_string data) 0 [] (by simpa using hfew)]
    simp only [List.nil_append, List.length_map, Nat.zero_add, hlen]
    by_cases h14 : (c_string data).count '-' = 14
    · have hl : (hyphen_positions (c_string data) 0).length = 14 := by rw [hlen]; exact h14
      simp only [h14, ne_eq, not_true_eq_false, if_false, if_true]
      rw [getD_map_succ _ 0 (by omega), getD_map_succ _ 2 (by omega),
        getD_map_succ _ 12 (by omega)]
      unfold xlfd_family xlfd_registry
      have e1 : (hyphen_positions (c_string data) 0).getD 2 0 + 1 - 1
          - ((hyphen_positions (c_string data) 0).getD 0 0 + 1)
          = (hyphen_positions (c_string data) 0).getD 2 0
            - (hyphen_positions (c_string data) 0).getD 0 0 - 1 := by omega
      have e2 : ∀ (l : List Char) (n : Nat), List.take (l.length - n) (List.drop n l)
          = List.drop n l := by
        intro l n
        apply List.take_of_length_le
        simp only [List.length_drop]
        omega
      rw [e1, e2]
    · simp only [h14, ne_eq, not_false_eq_true, if_true, if_false]
  · have h15 := font_family_registry_loop_many (c_string data) 0 [] (by simp)
      (by simp only [List.length_nil]; omega)
    have hne : ¬ (c_string data).count '-' = 14 := by omega
    simp only [hne, if_false]
    cases hloop : font_family_registry_loop (c_string data) 0 [] with
    | mk sep p =>
      rw [hloop] at h15
      simp only at h15
      simp only [h15]
      rfl

/-- Claim C19, amended.  On the C string of the font name `s`, the bytes
before the first NUL: `font_family_registry` returns `s` unchanged unless the
C string has exactly 14 hyphens, and with exactly 14 it returns the pair of
the bytes strictly between the first and the third hyphen and of the bytes
after the thirteenth hyphen up to the end of the C string. -/
theorem font_family_registry_xlfd (data : List Char) :
    ((c_string data).count '-' ≠ 14 → font_family_registry (.str data) = .str data) ∧
    ((c_string data).count '-' = 14 →
      font_family_registry (.str data) =
        .cons (.str (xlfd_family (c_string data))) (.str (xlfd_registry (c_string data)))) := by
  rw [font_family_registry_eq]
  constructor
  · intro h; rw [if_neg h]
  · intro h; rw [if_pos h]

/-- The family and the registry of a font name of the X window system. -/
theorem font_family_registry_example :
    font_family_registry
        (.str "-adobe-courier-medium-r-normal--12-120-75-75-m-70-iso8859-1".toList)
      = .cons (.str "adobe-courier".toList) (.str "iso8859-1".toList) ∧
    font_family_registry (.str "fixed".toList) = .str "fixed".toList ∧
    xlfd_family "-adobe-courier-medium-r-normal--12-120-75-75-m-70-iso8859-1".toList
      = "adobe-courier".toList ∧
    xlfd_registry "-adobe-courier-medium-r-normal--12-120-75-75-m-70-iso8859-1".toList
      = "iso8859-1".toList :=
  ⟨rfl, rfl, by decide, by decide⟩

/-- Claim C19, counterexample.  The name `xlfd_nul_x` has exactly 14 hyphens,
and the bytes after its thirteenth hyphen up to its end are `r-e`, a NUL and
`x`; the registry that `font_family_registry` returns is `r-e`, the bytes up
to the NUL. -/
theorem font_family_registry_nul_counterexample :
    xlfd_nul_x.count '-' = 14 ∧
    xlfd_registry xlfd_nul_x = ['r', '-', 'e', Char.ofNat 0, 'x'] ∧
    font_family_registry (.str xlfd_nul_x) = .cons (.str "f-y".toList) (.str "r-e".toList) :=
  ⟨by decide, by decide, rfl⟩

/-! ## Theorems: patterns as globs -/

theorem wildcard_translation_head (p : List Char) :
    (wildcard_translation p).head? ≠ some '*' := by
  cases p with
  | nil => simp [wildcard_translation]
  | cons ch rest =>
    unfold wildcard_translation
    by_cases h1 : ch = '*'
    · simp [h1]
    · by_cases h2 : ch = '?'
      · simp [h2]
      · simp [h1, h2]

theorem regex_items_cons (ch : Char) (rest : List Char) (h : rest.head? ≠ some '*') :
    regex_items (ch :: rest) = ⟨decide (ch = '.'), ch, false⟩ :: regex_items rest := by
  cases rest with
  | nil => simp [regex_items]
  | cons c r =>
    have hc : c ≠ '*' := by simpa using h
    rw [regex_items.eq_3]
    intro rest1 hr
    simp only [List.cons.injEq] at hr
    exact hc hr.1

theorem regex_items_wildcard_translation (p : List Char)
    (hmeta : ∀ ch ∈ p, ch ≠ '*' → ch ≠ '?' → ¬ regex_metachar ch) :
    regex_items (wildcard_translation p) = p.map pattern_item := by
  induction p with
  | nil => simp [wildcard_translation, regex_items]
  | cons ch rest ih =>
    have ih1 := ih (fun c hc => hmeta c (List.mem_cons_of_mem _ hc))
    unfold wildcard_translation
    by_cases h1 : ch = '*'
    · subst h1
      simp only [if_true, List.map_cons]
      rw [regex_items.eq_2, ih1]
      simp [pattern_item]
    · by_cases h2 : ch = '?'
      · subst h2
        simp only [h1, if_false, if_true, List.map_cons]
        rw [regex_items_cons _ _ (wildcard_translation_head rest), ih1]
        simp [pattern_item]
      · simp only [h1, h2, if_false, List.map_cons]
        rw [regex_items_cons _ _ (wildcard_translation_head rest), ih1]
        have hdot : ch ≠ '.' := by
          intro hd
          apply hmeta ch (List.mem_cons_self _ _) h1 h2
          subst hd
          decide
        simp [pattern_item, h1, h2, hdot]

theorem regex_star_dot (ok : Char → Bool) (k : List Char → Bool) (hok : ∀ c, ok c = true)
    (n : List Char) : regex_star ok k n = n.tails.any k := by
  induction n with
  | nil => simp [regex_star]
  | cons c rest ih => simp [regex_star, hok, ih]

theorem regex_here_pattern (p n : List Char) :
    regex_here true (p.map pattern_item) n = glob_match same_letter p n := by
  induction p generalizing n with
  | nil => simp [regex_here, glob_match]
  | cons ch rest ih =>
    have ihf : regex_here true (rest.map pattern_item) = glob_match same_letter rest :=
      funext ih
    simp only [List.map_cons]
    unfold regex_here glob_match
    by_cases h1 : ch = '*'
    · subst h1
      simp only [pattern_item, if_true]
      rw [regex_star_dot _ _ (by intro c; simp [regex_item_ok]), ihf]
    · by_cases h2 : ch = '?'
      · subst h2
        simp only [pattern_item, h1, if_false, if_true, Bool.false_eq_true]
        cases n with
        | nil => rfl
        | cons c n1 => simp [regex_item_ok, ih]
      · simp only [pattern_item, h1, h2, if_false, Bool.false_eq_true]
        cases n with
        | nil => rfl
        | cons c n1 => simp [regex_item_ok, same_letter, ih, h2]

theorem regex_match_pattern_regex (p n : List Char) :
    regex_match (pattern_regex p) n
      = if regex_here true (regex_items (wildcard_translation p)) n then 0 else -1 := by
  unfold regex_match pattern_regex
  simp

/-- The regular expression of a pattern matches a name exactly when the whole
name matches the pattern as a glob, letter case ignored. -/
theorem regex_match_glob (p n : List Char)
    (hmeta : ∀ ch ∈ p, ch ≠ '*' → ch ≠ '?' → ¬ regex_metachar ch) :
    0 ≤ regex_match (pattern_regex p) n ↔ glob_match same_letter p n = true := by
  rw [regex_match_pattern_regex, regex_items_wildcard_translation p hmeta, regex_here_pattern]
  cases glob_match same_letter p n <;> simp

/-- Claim C12, amended.  For a pattern whose C string has a wild card, fits
the scratch buffer of its translation and has no regular expression
metacharacter other than the wild cards, `fontset_pattern_regexp` returns a
regular expression that matches a name exactly when the whole name matches
the C string of the pattern as a glob in which `*` stands for any sequence
of bytes, `?` for exactly one byte and any other byte for itself, letter
case ignored. -/
theorem fontset_pattern_regexp_glob (s : Globals) (pattern n : List Char) (hok : cache_ok s)
    (hwild : has_wildcard (c_string pattern))
    (hfit : fontset_pattern_regexp_written pattern ≤ fontset_pattern_regexp_allocated pattern)
    (hmeta : ∀ ch ∈ c_string pattern, ch ≠ '*' → ch ≠ '?' → ¬ regex_metachar ch) :
    ∃ re s1, fontset_pattern_regexp s pattern = some (.str re, s1) ∧
      (0 ≤ regex_match re n ↔ glob_match same_letter (c_string pattern) n = true) := by
  obtain ⟨r, s1, h⟩ := fontset_pattern_regexp_defined s pattern (fun _ => hfit)
  have hr := (fontset_pattern_regexp_spec s s1 pattern r h).2.2.2 hwild hok
  subst hr
  exact ⟨_, s1, h, regex_match_glob (c_string pattern) n hmeta⟩

/-- The amended claim C12 at the example of the specification: the pattern
"foo*bar" matches the name "foobazbar" and not the name "foobar2". -/
theorem fontset_pattern_regexp_glob_witness :
    (∃ re s1, fontset_pattern_regexp syms_of_fontset "foo*bar".toList = some (.str re, s1) ∧
      (0 ≤ regex_match re "foobazbar".toList ↔
        glob_match same_letter (c_string "foo*bar".toList) "foobazbar".toList = true)) ∧
    glob_match same_letter (c_string "foo*bar".toList) "foobazbar".toList = true ∧
    glob_match same_letter (c_string "foo*bar".toList) "foobar2".toList = false ∧
    regex_match "^foo.*bar$".toList "foobazbar".toList = 0 ∧
    regex_match "^foo.*bar$".toList "foobar2".toList = -1 :=
  ⟨fontset_pattern_regexp_glob syms_of_fontset "foo*bar".toList "foobazbar".toList trivial
    (by decide) (by decide) (by decide), by decide, by decide, by decide, by decide⟩

/-- Claim C12, counterexample.  The pattern "abc*" has no metacharacter other
than its wild card, and its regular expression matches the name "ABCd",
letter case ignored; the whole of "ABCd" does not match "abc*" as a glob in
which a byte other than a wild card stands for itself. -/
theorem fontset_pattern_regexp_glob_case_counterexample :
    (fontset_pattern_regexp syms_of_fontset "abc*".toList).map Prod.fst
      = some (.str "^abc.*$".toList) ∧
    (∀ ch ∈ "abc*".toList, ch ≠ '*' → ch ≠ '?' → ¬ regex_metachar ch) ∧
    regex_match "^abc.*$".toList "ABCd".toList = 0 ∧
    glob_match (fun a b => decide (a = b)) "abc*".toList "ABCd".toList = false :=
  ⟨rfl, by decide, by decide, by decide⟩

/-! ## Theorems: a font for a range of characters -/

/-- The read of a row at the second position code, as a read of a charset
slot whose rows are all that row. -/
theorem fontset_ref_via_base_slot_as_row (defalt : Lisp_Object) (contents : Int → Lisp_Object)
    (c1 c2 : Int) (h : 32 ≤ c1) :
    fontset_ref_via_base_slot (.sub_char_table defalt contents) c1 c2
      = fontset_ref_via_base_slot (.sub_char_table .nil (fun _ => contents c1)) 32 c2 := by
  unfold fontset_ref_via_base_slot
  have h1 : ¬ c1 < 32 := by omega
  simp only [h1, if_false, show ¬ ((32 : Int) < 32) by omega]

/-- A write into a row leaves the read at a second position code as it was or
makes it the new element. -/
theorem fontset_set_walk_row_frame (v row : Lisp_Object) (d2 c2 : Int)
    (hs : SUB_CHAR_TABLE_P v = false) (hd : row_levels_ok row) :
    fontset_ref_via_base_slot (.sub_char_table .nil (fun _ => fontset_set_walk v [d2, 0] row))
        32 c2
      = fontset_ref_via_base_slot (.sub_char_table .nil (fun _ => row)) 32 c2 ∨
    fontset_ref_via_base_slot (.sub_char_table .nil (fun _ => fontset_set_walk v [d2, 0] row))
        32 c2 = v := by
  have hstop : ∀ x, fontset_set_walk v [0] x = fontset_set_store v x :=
    fun x => fontset_set_walk_stop v x 0 [] (le_refl 0)
  by_cases hc2 : c2 < 32
  · rw [fontset_ref_via_base_slot_row _ _ _ _ (le_refl 32) hc2,
      fontset_ref_via_base_slot_row _ _ _ _ (le_refl 32) hc2]
    by_cases hd2 : 0 < d2
    · rcases sub_char_table_cases row with ⟨df2, ct2, rfl⟩ | hrow
      · rw [fontset_set_walk_sub _ _ _ _ _ hd2]; exact Or.inl rfl
      · rw [fontset_set_walk_leaf _ _ _ _ hd2 hrow]
        left
        simp only [defalt_or_elt]
        exact (defalt_or_elt_of_not_sub row hrow).symm
    · rw [fontset_set_walk_stop _ _ _ _ (by omega)]
      right
      rcases sub_char_table_cases row with ⟨df2, ct2, rfl⟩ | hrow
      · rfl
      · rw [fontset_set_store_of_not_sub _ _ hrow]
        exact defalt_or_elt_of_not_sub v hs
  · have hc2' : 32 ≤ c2 := by omega
    by_cases hd2 : 0 < d2
    · rcases sub_char_table_cases row with ⟨df2, ct2, rfl⟩ | hrow
      · rw [fontset_set_walk_sub _ _ _ _ _ hd2]
        rw [fontset_ref_via_base_slot_cell _ _ _ _ _ _ (le_refl 32) hc2' rfl,
          fontset_ref_via_base_slot_cell _ _ _ _ _ _ (le_refl 32) hc2' rfl]
        by_cases he : c2 = d2
        · right
          simp only [he, if_true]
          rw [hstop, fontset_set_store_of_not_sub _ _ (hd df2 ct2 rfl d2)]
        · left
          simp only [he, if_false]
      · rw [fontset_set_walk_leaf _ _ _ _ hd2 hrow]
        rw [fontset_ref_via_base_slot_cell _ _ _ _ _ _ (le_refl 32) hc2' rfl,
          fontset_ref_via_base_slot_cell_leaf _ _ _ _ (le_refl 32) hc2' hrow]
        by_cases he : c2 = d2
        · right
          simp only [he, if_true]
          rw [hstop, fontset_set_store_of_not_sub v .nil rfl]
        · left
          simp only [he, if_false]
    · rw [fontset_set_walk_stop _ _ _ _ (by omega)]
      left
      rcases sub_char_table_cases row with ⟨df2, ct2, rfl⟩ | hrow
      · have hst : fontset_set_store v (.sub_char_table df2 ct2) = .sub_char_table v ct2 := rfl
        rw [hst, fontset_ref_via_base_slot_cell _ v _ ct2 _ _ (le_refl 32) hc2' rfl,
          fontset_ref_via_base_slot_cell _ df2 _ ct2 _ _ (le_refl 32) hc2' rfl]
      · rw [fontset_set_store_of_not_sub _ _ hrow,
          fontset_ref_via_base_slot_cell_leaf _ _ _ _ (le_refl 32) hc2' hs,
          fontset_ref_via_base_slot_cell_leaf _ _ _ _ (le_refl 32) hc2' hrow]

theorem fontset_ref_via_base_slot_empty_row (c2 : Int) :
    fontset_ref_via_base_slot (.sub_char_table .nil (fun _ => .nil)) 32 c2 = .nil := by
  by_cases hc2 : c2 < 32
  · rw [fontset_ref_via_base_slot_row _ _ _ _ (le_refl 32) hc2]; rfl
  · exact fontset_ref_via_base_slot_cell_leaf .nil (fun _ => .nil) 32 c2 (le_refl 32)
      (by omega) rfl

/-- A write into a charset slot leaves the read at a pair of position codes
as it was or makes it the new element. -/
theorem fontset_set_walk_frame (v slot : Lisp_Object) (d1 d2 c1 c2 : Int)
    (hs : SUB_CHAR_TABLE_P v = false) (hd : slot_levels_ok slot) :
    fontset_ref_via_base_slot (fontset_set_walk v [d1, d2, 0] slot) c1 c2
      = fontset_ref_via_base_slot slot c1 c2 ∨
    fontset_ref_via_base_slot (fontset_set_walk v [d1, d2, 0] slot) c1 c2 = v := by
  by_cases hd1 : 0 < d1
  · rcases sub_char_table_cases slot with ⟨df, ct, rfl⟩ | hslot
    · rw [fontset_set_walk_sub _ _ _ _ _ hd1]
      by_cases hc1 : c1 < 32
      · left
        rw [fontset_ref_via_base_slot_generic _ _ _ hc1, fontset_ref_via_base_slot_generic _ _ _ hc1]
        rfl
      · have hc1' : 32 ≤ c1 := by omega
        rw [fontset_ref_via_base_slot_as_row _ _ _ _ hc1',
          fontset_ref_via_base_slot_as_row df ct _ _ hc1']
        by_cases he : c1 = d1
        · subst he
          simp only [if_true]
          exact fontset_set_walk_row_frame v (ct c1) d2 c2 hs (hd df ct rfl c1)
        · left
          simp only [he, if_false]
    · rw [fontset_set_walk_leaf _ _ _ _ hd1 hslot]
      by_cases hc1 : c1 < 32
      · left
        rw [fontset_ref_via_base_slot_generic _ _ _ hc1, fontset_ref_via_base_slot_generic _ _ _ hc1,
          defalt_or_elt_of_not_sub slot hslot]
        rfl
      · have hc1' : 32 ≤ c1 := by omega
        rw [fontset_ref_via_base_slot_as_row _ _ _ _ hc1',
          fontset_ref_via_base_slot_leaf slot _ _ hc1' hslot]
        by_cases he : c1 = d1
        · subst he
          simp only [if_true]
          have hrow := fontset_set_walk_row_frame v .nil d2 c2 hs
            (row_levels_ok_of_not_sub .nil rfl)
          rw [fontset_ref_via_base_slot_empty_row] at hrow
          exact hrow
        · left
          simp only [he, if_false]
          exact fontset_ref_via_base_slot_empty_row c2
  · rw [fontset_set_walk_stop _ _ _ _ (by omega)]
    by_cases hc1 : c1 < 32
    · right
      rw [fontset_ref_via_base_slot_generic _ _ _ hc1]
      rcases sub_char_table_cases slot with ⟨df, ct, rfl⟩ | hslot
      · rfl
      · rw [fontset_set_store_of_not_sub _ _ hslot]
        exact defalt_or_elt_of_not_sub v hs
    · have hc1' : 32 ≤ c1 := by omega
      left
      rcases sub_char_table_cases slot with ⟨df, ct, rfl⟩ | hslot
      · have hst : fontset_set_store v (.sub_char_table df ct) = .sub_char_table v ct := rfl
        rw [hst, fontset_ref_via_base_slot_as_row v ct _ _ hc1',
          fontset_ref_via_base_slot_as_row df ct _ _ hc1']
      · rw [fontset_set_store_of_not_sub _ _ hslot,
          fontset_ref_via_base_slot_leaf v _ _ hc1' hs,
          fontset_ref_via_base_slot_leaf slot _ _ hc1' hslot]

/-- A call of `fontset_set` leaves the read at the exact position of a
character as it was or makes it the new element. -/
theorem fontset_set_frame (split_char : Int → Int × Int × Int) (fontset : Lisp_Char_Table)
    (d c : Int) (v : Lisp_Object) (hs : SUB_CHAR_TABLE_P v = false)
    (hd : store_levels_ok fontset) :
    fontset_ref_via_base_slot
        ((fontset_set split_char fontset d v).contents ((split_char c).1 + 128))
        (split_char c).2.1 (split_char c).2.2
      = fontset_ref_via_base_slot (fontset.contents ((split_char c).1 + 128))
        (split_char c).2.1 (split_char c).2.2 ∨
    fontset_ref_via_base_slot
        ((fontset_set split_char fontset d v).contents ((split_char c).1 + 128))
        (split_char c).2.1 (split_char c).2.2 = v := by
  cases hsb : SINGLE_BYTE_CHAR_P d with
  | true =>
    left
    unfold fontset_set
    simp only [hsb, if_true]
  | false =>
    rw [fontset_set_multibyte_contents split_char fontset d v hsb]
    by_cases he : (split_char c).1 + 128 = (split_char d).1 + 128
    · simp only [he, if_true]
      rw [← he]
      exact fontset_set_walk_frame v _ _ _ _ _ hs (hd _)
    · left
      simp only [he, if_false]

/-- The loop of `Fset_fontset_font` keeps an element that is at the exact
position of a character. -/
theorem Fset_fontset_font_loop_keeps (ext : Externals) (elt : Lisp_Object) (n : Nat)
    (from_ c : Int) (fontset : Lisp_Char_Table) (hs : SUB_CHAR_TABLE_P elt = false)
    (hd : store_levels_ok fontset)
    (h : fontset_ref_via_base_slot (fontset.contents ((ext.SPLIT_NON_ASCII_CHAR c).1 + 128))
      (ext.SPLIT_NON_ASCII_CHAR c).2.1 (ext.SPLIT_NON_ASCII_CHAR c).2.2 = elt) :
    fontset_ref_via_base_slot
      ((Fset_fontset_font_loop ext elt n from_ fontset).contents
        ((ext.SPLIT_NON_ASCII_CHAR c).1 + 128))
      (ext.SPLIT_NON_ASCII_CHAR c).2.1 (ext.SPLIT_NON_ASCII_CHAR c).2.2 = elt := by
  induction n generalizing from_ fontset with
  | zero => exact h
  | succ n ih =>
    unfold Fset_fontset_font_loop
    apply ih
    · exact store_levels_ok_fontset_set _ _ _ _ hs hd
    · rcases fontset_set_frame ext.SPLIT_NON_ASCII_CHAR fontset from_ c elt hs hd with h1 | h1
      · rw [h1]; exact h
      · exact h1

/-- After the loop of `Fset_fontset_font` the element is at the exact position
of every multibyte character of the range whose position codes are well
formed. -/
theorem Fset_fontset_font_loop_exact (ext : Externals) (elt : Lisp_Object) (n : Nat)
    (from_ c : Int) (fontset : Lisp_Char_Table) (hs : SUB_CHAR_TABLE_P elt = false)
    (hd : store_levels_ok fontset) (hfrom : from_ ≤ c) (hto : c < from_ + n)
    (hc : SINGLE_BYTE_CHAR_P c = false) (hcodes : key_codes_ok ext.SPLIT_NON_ASCII_CHAR c) :
    fontset_ref_via_base_slot
      ((Fset_fontset_font_loop ext elt n from_ fontset).contents
        ((ext.SPLIT_NON_ASCII_CHAR c).1 + 128))
      (ext.SPLIT_NON_ASCII_CHAR c).2.1 (ext.SPLIT_NON_ASCII_CHAR c).2.2 = elt := by
  induction n generalizing from_ fontset with
  | zero => simp only [Nat.cast_zero, add_zero] at hto; omega
  | succ n ih =>
    unfold Fset_fontset_font_loop
    have hd1 := store_levels_ok_fontset_set ext.SPLIT_NON_ASCII_CHAR fontset from_ elt hs hd
    by_cases he : c = from_
    · subst he
      apply Fset_fontset_font_loop_keeps ext elt n _ c _ hs hd1
      rw [fontset_set_multibyte_contents _ _ _ _ hc]
      simp only [if_true]
      exact fontset_ref_via_base_slot_written elt _ _ _ hcodes.1 hcodes.2 hs (hd _)
    · apply ih (from_ + 1) _ hd1
      · omega
      · push_cast at hto; omega

/-- After the loop of `Fset_fontset_font` with an element that is not nil,
`fontset_ref` returns the element for every multibyte character of the range
whose position codes are well formed. -/
theorem Fset_fontset_font_loop_ref (ext : Externals) (elt : Lisp_Object) (n : Nat)
    (from_ c : Int) (fontset : Lisp_Char_Table) (hs : SUB_CHAR_TABLE_P elt = false)
    (hv : NILP elt = false)
    (hd : store_levels_ok fontset) (hfrom : from_ ≤ c) (hto : c < from_ + n)
    (hc : SINGLE_BYTE_CHAR_P c = false) (hcodes : key_codes_ok ext.SPLIT_NON_ASCII_CHAR c) :
    fontset_ref ext.SPLIT_NON_ASCII_CHAR (Fset_fontset_font_loop ext elt n from_ fontset) c
      = elt := by
  have hex := Fset_fontset_font_loop_exact ext elt n from_ c fontset hs hd hfrom hto hc hcodes
  rw [fontset_ref_multibyte _ _ _ hc]
  rcases (fontset_ref_via_base_slot_or
    ((Fset_fontset_font_loop ext elt n from_ fontset).contents
      ((ext.SPLIT_NON_ASCII_CHAR c).1 + 128))
    (ext.SPLIT_NON_ASCII_CHAR c).2.1 (ext.SPLIT_NON_ASCII_CHAR c).2.2).2 with h1 | h1
  · rw [hex] at h1
    rw [h1] at hv
    cases hv
  · rw [← h1]; exact hex

/-- A second call of `fontset_pattern_regexp` with the same pattern, in a
state with the cache that the first call left, returns the same result and
leaves the state as it is. -/
theorem fontset_pattern_regexp_again (s s0 s2 : Globals) (pattern : List Char)
    (r : Lisp_Object) (h : fontset_pattern_regexp s pattern = some (r, s0))
    (hcache : s2.Vcached_fontset_data = s0.Vcached_fontset_data) :
    fontset_pattern_regexp s2 pattern = some (r, s2) := by
  have hidem : c_string (c_string pattern) = c_string pattern := by
    unfold c_string
    rw [List.takeWhile_takeWhile]
    simp
  unfold fontset_pattern_regexp at h ⊢
  by_cases hw : (!(c_string pattern).contains '*' && !(c_string pattern).contains '?') = true
  · simp only [hw, if_true, Option.some.injEq, Prod.mk.injEq] at h ⊢
    exact ⟨h.1, trivial⟩
  · simp only [hw, if_false, Bool.false_eq_true] at h ⊢
    cases hc : s.Vcached_fontset_data with
    | none =>
      rw [hc] at h
      simp only [Bool.false_eq_true, if_false] at h
      by_cases hfit : fontset_pattern_regexp_allocated pattern
          < fontset_pattern_regexp_written pattern
      · simp only [hfit, if_true] at h
        cases h
      · simp only [hfit, if_false, Option.some.injEq, Prod.mk.injEq] at h
        obtain ⟨hr, hs0⟩ := h
        have hc2 : s2.Vcached_fontset_data = some (c_string pattern,
            ['^'] ++ (List.map fontset_pattern_regexp_byte (c_string pattern)).flatten
              ++ ['$']) := by
          rw [hcache, ← hs0]
        simp only [hc2, hidem, decide_True, if_true, hr]
    | some cached =>
      obtain ⟨nm, re⟩ := cached
      rw [hc] at h
      simp only at h
      by_cases hhit : c_string nm = c_string pattern
      · simp only [hhit, decide_True, if_true, hc, Option.some.injEq, Prod.mk.injEq] at h
        obtain ⟨hr, hs0⟩ := h
        have hc2 : s2.Vcached_fontset_data = some (nm, re) := by
          rw [hcache, ← hs0, hc]
        simp only [hc2, hhit, decide_True, if_true, hr]
      · simp only [hhit, decide_False, Bool.false_eq_true, if_false] at h
        by_cases hfit : fontset_pattern_regexp_allocated pattern
            < fontset_pattern_regexp_written pattern
        · simp only [hfit, if_true] at h
          cases h
        · simp only [hfit, if_false, Option.some.injEq, Prod.mk.injEq] at h
          obtain ⟨hr, hs0⟩ := h
          have hc2 : s2.Vcached_fontset_data = some (c_string pattern,
              ['^'] ++ (List.map fontset_pattern_regexp_byte (c_string pattern)).flatten
                ++ ['$']) := by
            rw [hcache, ← hs0]
          simp only [hc2, hidem, decide_True, if_true, hr]

/-- The loop of `fs_query_fontset` reads the base and the name of the
fontsets only. -/
theorem fs_query_fontset_loop_congr (ext : Externals) (heap1 heap2 : Nat → Lisp_Char_Table)
    (key : List Char) (regexpp : Bool) (table : List (Option Nat)) (i : Int)
    (hheap : ∀ a, FONTSET_BASE (heap1 a) = FONTSET_BASE (heap2 a) ∧
      FONTSET_NAME (heap1 a) = FONTSET_NAME (heap2 a)) :
    fs_query_fontset_loop ext heap1 key regexpp table i
      = fs_query_fontset_loop ext heap2 key regexpp table i := by
  induction table generalizing i with
  | nil => rfl
  | cons x rest ih =>
    cases x with
    | none => unfold fs_query_fontset_loop; exact ih _
    | some a =>
      unfold fs_query_fontset_loop
      have hb : BASE_FONTSET_P (heap1 a) = BASE_FONTSET_P (heap2 a) := by
        unfold BASE_FONTSET_P; rw [(hheap a).1]
      rw [hb, (hheap a).2, ih]

/-- A second lookup of a name, in a state with the cache that the first
lookup left and with the same table, aliases, bases and names of the
fontsets, returns the same id and leaves the state as it is. -/
theorem fs_query_fontset_again (ext : Externals) (s s0 s2 : Globals) (name : List Char)
    (id : Int) (h : fs_query_fontset ext s name false = some (id, s0))
    (hcache : s2.Vcached_fontset_data = s0.Vcached_fontset_data)
    (halias : s2.Vfontset_alias_alist = s.Vfontset_alias_alist)
    (htable : s2.Vfontset_table = s.Vfontset_table)
    (hheap : ∀ a, FONTSET_BASE (s2.heap a) = FONTSET_BASE (s.heap a) ∧
      FONTSET_NAME (s2.heap a) = FONTSET_NAME (s.heap a)) :
    fs_query_fontset ext s2 name false = some (id, s2) := by
  have hfin : ∀ (key : List Char) (re : Bool) (sx : Globals), same_fontsets s sx →
      (match fs_query_fontset_loop ext sx.heap key re sx.Vfontset_table 0 with
        | none => none
        | some id => some (id, sx)) = some (id, s0) →
      sx = s0 ∧
      (match fs_query_fontset_loop ext s2.heap key re s2.Vfontset_table 0 with
        | none => none
        | some id => some (id, s2)) = some (id, s2) := by
    intro key re sx hsame h0
    rw [htable, fs_query_fontset_loop_congr ext s2.heap s.heap key re _ 0 hheap]
    rw [hsame.1, hsame.2.2.1] at h0
    cases hl : fs_query_fontset_loop ext s.heap key re s.Vfontset_table 0 with
    | none => rw [hl] at h0; cases h0
    | some r =>
      rw [hl] at h0
      simp only [Option.some.injEq, Prod.mk.injEq] at h0
      exact ⟨h0.2, by rw [h0.1]⟩
  have hpat : ∀ (r : Lisp_Object) (sx : Globals),
      (match (some (r, sx) : Option (Lisp_Object × Globals)) with
        | none => (none : Option (List Char × Bool × Globals))
        | some (.str regex, s1) => some (regex, true, s1)
        | some (_, s1) => some (ext.Fdowncase name, false, s1)) =
        some ((match r with | .str regex => regex | _ => ext.Fdowncase name),
          (match r with | .str _ => true | _ => false), sx) := by
    intro r sx
    cases r <;> rfl
  unfold fs_query_fontset at h ⊢
  simp only [Bool.not_false, if_true] at h ⊢
  rw [halias]
  have hrest : (match
      (match fontset_pattern_regexp s (ext.Fdowncase name) with
        | none => (none : Option (List Char × Bool × Globals))
        | some (.str regex, s1) => some (regex, true, s1)
        | some (_, s1) => some (ext.Fdowncase name, false, s1)) with
      | none => none
      | some (name, regexpp, s1) =>
        match fs_query_fontset_loop ext s1.heap name regexpp s1.Vfontset_table 0 with
        | none => none
        | some id => some (id, s1)) = some (id, s0) →
      (match
      (match fontset_pattern_regexp s2 (ext.Fdowncase name) with
        | none => (none : Option (List Char × Bool × Globals))
        | some (.str regex, s1) => some (regex, true, s1)
        | some (_, s1) => some (ext.Fdowncase name, false, s1)) with
      | none => none
      | some (name, regexpp, s1) =>
        match fs_query_fontset_loop ext s1.heap name regexpp s1.Vfontset_table 0 with
        | none => none
        | some id => some (id, s1)) = some (id, s2) := by
    intro h1
    cases hp : fontset_pattern_regexp s (ext.Fdowncase name) with
    | none => rw [hp] at h1; cases h1
    | some rs =>
      obtain ⟨r, sx⟩ := rs
      rw [hp, hpat r sx] at h1
      have hsame := (fontset_pattern_regexp_spec s sx _ r hp).1
      obtain ⟨hsx, hgoal⟩ := hfin _ _ sx hsame h1
      have hp2 := fontset_pattern_regexp_again s sx s2 _ r hp (by rw [hcache, hsx])
      rw [hp2]
      rw [hpat r s2]
      exact hgoal
  cases hr : Frassoc (ext.Fdowncase name) s.Vfontset_alias_alist with
  | cons a b =>
    rw [hr] at h
    cases a with
    | str aliased => exact (hfin aliased false s (same_fontsets_refl s) h).2
    | _ => exact hrest h
  | _ => rw [hr] at h; exact hrest h

/-- A second call of `check_fontset_name`, in a state with the cache that the
first call left and with the same table, aliases, default fontset, bases and
names of the fontsets, returns the same fontset and leaves the state as it
is. -/
theorem check_fontset_name_again (ext : Externals) (s s0 s2 : Globals) (name : Lisp_Object)
    (fontset : Nat) (h : check_fontset_name ext s name = .value fontset s0)
    (hcache : s2.Vcached_fontset_data = s0.Vcached_fontset_data)
    (halias : s2.Vfontset_alias_alist = s.Vfontset_alias_alist)
    (htable : s2.Vfontset_table = s.Vfontset_table)
    (hdefault : s2.Vdefault_fontset = s.Vdefault_fontset)
    (hheap : ∀ a, FONTSET_BASE (s2.heap a) = FONTSET_BASE (s.heap a) ∧
      FONTSET_NAME (s2.heap a) = FONTSET_NAME (s.heap a)) :
    check_fontset_name ext s2 name = .value fontset s2 := by
  unfold check_fontset_name at h ⊢
  cases name with
  | t =>
    simp only [Outcome.value.injEq] at h ⊢
    exact ⟨by rw [hdefault]; exact h.1, trivial⟩
  | str data =>
    simp only at h ⊢
    cases hq : fs_query_fontset ext s data false with
    | none => rw [hq] at h; cases h
    | some r =>
      obtain ⟨id, sx⟩ := r
      rw [hq] at h
      simp only at h
      by_cases hid : id < 0
      · simp only [hid, if_true] at h
        cases h
      · simp only [hid, if_false] at h
        cases hf : FONTSET_FROM_ID sx id with
        | none => rw [hf] at h; cases h
        | some a =>
          rw [hf] at h
          simp only [Outcome.value.injEq] at h
          obtain ⟨ha, hsx⟩ := h
          subst hsx
          have hsame := fs_query_fontset_same ext s sx data false id hq
          rw [fs_query_fontset_again ext s sx s2 data id hq hcache halias htable hheap]
          simp only [hid, if_false]
          have hf2 : FONTSET_FROM_ID s2 id = some a := by
            unfold FONTSET_FROM_ID at hf ⊢
            rw [htable, ← hsame.2.2.1]; exact hf
          rw [hf2, ha]
  | _ => cases h

/-- The checks of `Fset_fontset_font` on a range that passes them: the range
is returned and its first character is not a single byte character. -/
theorem Fset_fontset_font_range_ok (ext : Externals) (name : Lisp_Object) (from_ to_ : Int)
    (r : Int × Int)
    (h : Fset_fontset_font_range ext name (.cons (.int from_) (.int to_)) = .ok r) :
    r = (from_, to_) ∧ SINGLE_BYTE_CHAR_P from_ = false := by
  unfold Fset_fontset_font_range at h
  cases ha : ext.char_valid_p from_ 0 <;> cases hb : ext.char_valid_p to_ 0 <;>
    cases hn : NILP name <;> cases hsf : SINGLE_BYTE_CHAR_P from_ <;>
    cases hst : SINGLE_BYTE_CHAR_P to_ <;> cases hv : ext.char_valid_p from_ 1 <;>
    simp [ha, hb, hn, hsf, hst, hv] at h
  all_goals
    refine ⟨?_, rfl⟩
    split at h
    · cases h
    · first
      | (simp only [Except.ok.injEq] at h
         exact h.symm)
      | (split at h
         · cases h
         · simp only [Except.ok.injEq] at h
           exact h.symm)

/-- The element that `Fset_fontset_font` stores is a cons of the first
character and the font. -/
theorem Fset_fontset_font_elt_some (s : Globals) (fontset : Nat) (from_ : Int)
    (fontname : List Char) (elt : Lisp_Object)
    (h : Fset_fontset_font_elt s fontset from_ fontname = some elt) :
    elt = .cons (.int from_)
      (if fontset = s.Vdefault_fontset then .cons .nil (.str fontname)
        else font_family_registry (.str fontname)) := by
  unfold Fset_fontset_font_elt at h
  by_cases hd : fontset = s.Vdefault_fontset
  · simp only [hd, if_true] at h ⊢
    cases hr : check_registry_encoding fontname with
    | false => simp [hr] at h
    | true =>
      simp only [hr, Bool.not_true, Bool.false_eq_true, if_false, Option.some.injEq] at h
      exact h.symm
  · simp only [hd, if_false, Option.some.injEq] at h ⊢
    exact h.symm

theorem fontset_set_fields (split_char : Int → Int × Int × Int) (fontset : Lisp_Char_Table)
    (c : Int) (v : Lisp_Object) :
    FONTSET_NAME (fontset_set split_char fontset c v) = FONTSET_NAME fontset ∧
    FONTSET_BASE (fontset_set split_char fontset c v) = FONTSET_BASE fontset := by
  unfold fontset_set
  cases SINGLE_BYTE_CHAR_P c <;> exact ⟨rfl, rfl⟩

theorem Fset_fontset_font_loop_fields (ext : Externals) (elt : Lisp_Object) (n : Nat)
    (from_ : Int) (fontset : Lisp_Char_Table) :
    FONTSET_NAME (Fset_fontset_font_loop ext elt n from_ fontset) = FONTSET_NAME fontset ∧
    FONTSET_BASE (Fset_fontset_font_loop ext elt n from_ fontset) = FONTSET_BASE fontset := by
  induction n generalizing from_ fontset with
  | zero => exact ⟨rfl, rfl⟩
  | succ n ih =>
    unfold Fset_fontset_font_loop
    have h1 := ih (from_ + 1) (fontset_set ext.SPLIT_NON_ASCII_CHAR fontset from_ elt)
    have h2 := fontset_set_fields ext.SPLIT_NON_ASCII_CHAR fontset from_ elt
    exact ⟨h1.1.trans h2.1, h1.2.trans h2.2⟩

/-- The last loop of `Fset_fontset_font` leaves a base fontset as it is. -/
theorem Fset_fontset_font_clear_base (fontset : Nat) (table : List (Option Nat))
    (heap : Nat → Lisp_Char_Table) (b : Nat) (hb : BASE_FONTSET_P (heap b) = true) :
    Fset_fontset_font_clear fontset table heap b = heap b := by
  induction table generalizing heap with
  | nil => rfl
  | cons x rest ih =>
    cases x with
    | none => unfold Fset_fontset_font_clear; exact ih heap hb
    | some realized =>
      unfold Fset_fontset_font_clear
      by_cases hcond : (!BASE_FONTSET_P (heap realized) &&
          decide (FONTSET_BASE (heap realized) = some fontset)) = true
      · simp only [hcond, if_true]
        have hne : b ≠ realized := by
          intro he
          subst he
          rw [hb] at hcond
          simp at hcond
        rw [ih _ (by simp only [hne, if_false]; exact hb)]
        simp only [hne, if_false]
      · simp only [hcond, if_false]
        exact ih heap hb

/-- The last loop of `Fset_fontset_font` keeps the base and the name of every
fontset. -/
theorem Fset_fontset_font_clear_fields (fontset : Nat) (table : List (Option Nat))
    (heap : Nat → Lisp_Char_Table) (b : Nat) :
    FONTSET_BASE (Fset_fontset_font_clear fontset table heap b) = FONTSET_BASE (heap b) ∧
    FONTSET_NAME (Fset_fontset_font_clear fontset table heap b) = FONTSET_NAME (heap b) := by
  rcases (Fset_fontset_font_clear_spec fontset table heap b).2 with h | h
  · rw [h]; exact ⟨rfl, rfl⟩
  · rw [h]; exact ⟨rfl, rfl⟩

/-- The font that `Ffontset_font` returns after `Fset_fontset_font` on a
range. -/
theorem Ffontset_font_after_set (ext : Externals) (s s0 s1 : Globals)
    (name frame v : Lisp_Object) (fontset : Nat) (from_ to_ c : Int) (data : List Char)
    (hopt : optimize_keeps ext)
    (hF : check_fontset_name ext s name = .value fontset s0)
    (hset : Fset_fontset_font ext s name (.cons (.int from_) (.int to_)) (.str data) frame
      = .value v s1)
    (hbase : BASE_FONTSET_P (s.heap fontset) = true)
    (hlevels : store_levels_ok (s.heap fontset))
    (hfrom0 : 0 ≤ from_) (hfrom : from_ ≤ c) (hto : c ≤ to_)
    (hvalid : ext.char_valid_p c 1 = true)
    (hcodes : key_codes_ok ext.SPLIT_NON_ASCII_CHAR c) :
    Ffontset_font ext s1 name (.int c) =
      .value (if fontset = s.Vdefault_fontset then .cons .nil (.str (ext.Fdowncase data))
        else font_family_registry (.str (ext.Fdowncase data))) s1 := by
  have hsame := (check_fontset_name_same ext s name).1 fontset s0 hF
  have hstore : ∃ elt, Fset_fontset_font_elt s0 fontset from_ (ext.Fdowncase data) = some elt ∧
      s1 = Fset_fontset_font_store ext s0 fontset from_ to_ elt ∧
      SINGLE_BYTE_CHAR_P from_ = false := by
    unfold Fset_fontset_font at hset
    rw [hF] at hset
    simp only at hset
    cases hrange : Fset_fontset_font_range ext name (.cons (.int from_) (.int to_)) with
    | error e => rw [hrange] at hset; cases hset
    | ok r =>
      obtain ⟨hr, hsb⟩ := Fset_fontset_font_range_ok ext name from_ to_ r hrange
      subst hr
      rw [hrange] at hset
      simp only at hset
      cases helt : Fset_fontset_font_elt s0 fontset from_ (ext.Fdowncase data) with
      | none => rw [helt] at hset; cases hset
      | some elt =>
        rw [helt] at hset
        simp only at hset
        cases hf : Fset_fontset_font_frame ext frame with
        | false =>
          rw [hf] at hset
          simp only [Bool.not_false, if_true] at hset
          cases hset
        | true =>
          rw [hf] at hset
          simp only [Bool.not_true, Bool.false_eq_true, if_false, Outcome.value.injEq] at hset
          exact ⟨elt, rfl, hset.2.symm, hsb⟩
  obtain ⟨elt, helt, hs1, hsb⟩ := hstore
  have helt' := Fset_fontset_font_elt_some s0 fontset from_ _ elt helt
  rw [hsame.2.2.2.2.1] at helt'
  -- the fontset after the call
  have hfields := Fset_fontset_font_loop_fields ext elt (to_ - from_ + 1).toNat from_
    (s0.heap fontset)
  have hoptf := hopt (Fset_fontset_font_loop ext elt (to_ - from_ + 1).toNat from_
    (s0.heap fontset))
  have hbase0 : BASE_FONTSET_P (s0.heap fontset) = true := by rw [hsame.1]; exact hbase
  have hheapF : s1.heap fontset = ext.Foptimize_char_table
      (Fset_fontset_font_loop ext elt (to_ - from_ + 1).toNat from_ (s0.heap fontset)) := by
    rw [hs1]
    unfold Fset_fontset_font_store
    simp only
    rw [Fset_fontset_font_clear_base]
    · exact heap_store_heap_same s0 fontset _
    · rw [heap_store_heap_same]
      unfold BASE_FONTSET_P at hbase0 ⊢
      rw [hoptf.2.1, hfields.2]; exact hbase0
  have hheap : ∀ a, FONTSET_BASE (s1.heap a) = FONTSET_BASE (s.heap a) ∧
      FONTSET_NAME (s1.heap a) = FONTSET_NAME (s.heap a) := by
    intro a
    rw [hs1, ← hsame.1]
    unfold Fset_fontset_font_store
    simp only
    have hc := Fset_fontset_font_clear_fields fontset
      (heap_store s0 fontset (ext.Foptimize_char_table
        (Fset_fontset_font_loop ext elt (to_ - from_ + 1).toNat from_
          (s0.heap fontset)))).Vfontset_table
      (heap_store s0 fontset (ext.Foptimize_char_table
        (Fset_fontset_font_loop ext elt (to_ - from_ + 1).toNat from_
          (s0.heap fontset)))).heap a
    rw [hc.1, hc.2]
    by_cases ha : a = fontset
    · subst ha
      rw [heap_store_heap_same]
      exact ⟨hoptf.2.1.trans hfields.2, hoptf.1.trans hfields.1⟩
    · rw [heap_store_heap_other _ _ _ _ ha]
      exact ⟨rfl, rfl⟩
  have hcheck : check_fontset_name ext s1 name = .value fontset s1 := by
    apply check_fontset_name_again ext s s0 s1 name fontset hF
    · rw [hs1]; rfl
    · rw [hs1, ← hsame.2.2.2.2.2]; rfl
    · rw [hs1, ← hsame.2.2.1]; rfl
    · rw [hs1, ← hsame.2.2.2.2.1]; rfl
    · exact hheap
  -- the element at the character
  have hc : SINGLE_BYTE_CHAR_P c = false := by
    unfold SINGLE_BYTE_CHAR_P at hsb ⊢
    simp only [decide_eq_false_iff_not, not_and, not_lt] at hsb ⊢
    intro _
    have := hsb hfrom0
    omega
  have hsub : SUB_CHAR_TABLE_P elt = false := by rw [helt']; rfl
  have hnil : NILP elt = false := by rw [helt']; rfl
  have href := Fset_fontset_font_loop_ref ext elt (to_ - from_ + 1).toNat from_ c
    (s0.heap fontset) hsub hnil (by rw [hsame.1]; exact hlevels) hfrom
    (by
      have h1 : ((to_ - from_ + 1).toNat : Int) = to_ - from_ + 1 :=
        Int.toNat_of_nonneg (by omega)
      omega) hc hcodes
  unfold Ffontset_font
  rw [hcheck]
  simp only [hvalid, Bool.not_true, Bool.false_eq_true, if_false]
  rw [hheapF, hoptf.2.2 c, href, helt']

/-- Claim C17.  Let `Fset_fontset_font` succeed on the base fontset that the
name resolves to, with a range whose first character is not negative, and
let the optimization of the char table keep the fontset, and the store of
the fontset have no sub char table below the second level.  Then for every
valid character of the range whose position codes are well formed,
`Ffontset_font` returns `font_family_registry` of the downcased font name
when the fontset is not the default fontset, and the pair of nil and the
downcased font name when it is. -/
theorem Fset_fontset_font_Ffontset_font (ext : Externals) (s s0 s1 : Globals)
    (name frame v : Lisp_Object) (fontset : Nat) (from_ to_ c : Int) (data : List Char)
    (hopt : optimize_keeps ext)
    (hF : check_fontset_name ext s name = .value fontset s0)
    (hset : Fset_fontset_font ext s name (.cons (.int from_) (.int to_)) (.str data) frame
      = .value v s1)
    (hbase : BASE_FONTSET_P (s.heap fontset) = true)
    (hlevels : store_levels_ok (s.heap fontset))
    (hfrom0 : 0 ≤ from_) (hfrom : from_ ≤ c) (hto : c ≤ to_)
    (hvalid : ext.char_valid_p c 1 = true)
    (hcodes : key_codes_ok ext.SPLIT_NON_ASCII_CHAR c) :
    (fontset ≠ s.Vdefault_fontset →
      Ffontset_font ext s1 name (.int c)
        = .value (font_family_registry (.str (ext.Fdowncase data))) s1) ∧
    (fontset = s.Vdefault_fontset →
      Ffontset_font ext s1 name (.int c)
        = .value (.cons .nil (.str (ext.Fdowncase data))) s1) := by
  have h := Ffontset_font_after_set ext s s0 s1 name frame v fontset from_ to_ c data hopt hF
    hset hbase hlevels hfrom0 hfrom hto hvalid hcodes
  constructor
  · intro hne
    rw [h, if_neg hne]
  · intro he
    rw [h, if_pos he]

/-- Claim C17 at the fontset "foo-bar": after the font "Fixed" is set for the
characters 55329 to 55331, `Ffontset_font` returns "fixed" for the character
55330. -/
theorem Fset_fontset_font_Ffontset_font_witness :
    Ffontset_font sample_externals
        (outcome_state (Fset_fontset_font sample_externals fontset_foo_bar
          (.str "foo-bar".toList) (.cons (.int 55329) (.int 55331)) (.str "Fixed".toList) .nil)
          fontset_foo_bar)
        (.str "foo-bar".toList) (.int 55330)
      = .value (font_family_registry (.str "fixed".toList))
        (outcome_state (Fset_fontset_font sample_externals fontset_foo_bar
          (.str "foo-bar".toList) (.cons (.int 55329) (.int 55331)) (.str "Fixed".toList) .nil)
          fontset_foo_bar) :=
  (Fset_fontset_font_Ffontset_font sample_externals fontset_foo_bar fontset_foo_bar _
    (.str "foo-bar".toList) .nil .nil 1 55329 55331 55330 "Fixed".toList
    (fun _ => ⟨rfl, rfl, fun _ => rfl⟩) rfl rfl rfl
    (fun _ => slot_levels_ok_of_not_sub _ rfl) (by decide) (by decide) (by decide) rfl
    (by unfold key_codes_ok; decide)).1 (by decide)

/-! ## Theorems: the invariants of the table of fontsets -/

/-- Claim C21.  In every state of the table that is reachable from the
initial table of 32 slots by calls of `make_fontset` and `free_face_fontset`,
the last slot of the table is nil. -/
theorem sentinel_slot_empty (s : Globals) (h : Registry_Reachable s) :
    AREF s.Vfontset_table (ASIZE s.Vfontset_table - 1) = some none :=
  (registry_inv_of_reachable s h).2.2.1

/-- Claim C21 at the state after three fontsets have been made and the second
one released: slot 31 of the table is nil. -/
theorem sentinel_slot_empty_witness :
    ASIZE three_fontsets_released_1.Vfontset_table = 32 ∧
    AREF three_fontsets_released_1.Vfontset_table
      (ASIZE three_fontsets_released_1.Vfontset_table - 1) = some none :=
  ⟨rfl, sentinel_slot_empty three_fontsets_released_1 three_fontsets_released_1_reachable⟩

/-- Claim C22.  In every reachable state of the table the next id is not
negative and at most the size of the table minus 1, and the loop of
`make_fontset` over the occupied slots from the next id on ends at an index
below the size of the table, at a nil slot, after reads inside the table
only. -/
theorem make_fontset_scan_in_bounds (s : Globals) (h : Registry_Reachable s) :
    0 ≤ s.next_fontset_id ∧ s.next_fontset_id ≤ ASIZE s.Vfontset_table - 1 ∧
    ∃ id, make_fontset_scan s.Vfontset_table (s.Vfontset_table.length + 1) s.next_fontset_id
        = some id ∧
      s.next_fontset_id ≤ id ∧ id < ASIZE s.Vfontset_table ∧
      AREF s.Vfontset_table id = some none ∧
      ∀ j, s.next_fontset_id ≤ j → j ≤ id → ∃ x, AREF s.Vfontset_table j = some x := by
  have hinv := registry_inv_of_reachable s h
  obtain ⟨id, hscan, hlo, hhi, hnil, _, _⟩ := make_fontset_of_inv s hinv .nil .nil none
  refine ⟨hinv.1, hinv.2.1, id, hscan, hlo, hhi, hnil, ?_⟩
  intro j hj0 hj1
  exact AREF_isSome _ j (by have := hinv.1; omega) (by omega)

/-- Claim C22 at the state after three fontsets have been made and the second
one released: the loop starts at the id 1 and ends there. -/
theorem make_fontset_scan_in_bounds_witness :
    three_fontsets_released_1.next_fontset_id = 1 ∧
    make_fontset_scan three_fontsets_released_1.Vfontset_table
      (three_fontsets_released_1.Vfontset_table.length + 1) 1 = some 1 ∧
    (0 ≤ three_fontsets_released_1.next_fontset_id ∧
      three_fontsets_released_1.next_fontset_id
        ≤ ASIZE three_fontsets_released_1.Vfontset_table - 1) :=
  ⟨rfl, rfl,
    (make_fontset_scan_in_bounds three_fontsets_released_1
      three_fontsets_released_1_reachable).1,
    (make_fontset_scan_in_bounds three_fontsets_released_1
      three_fontsets_released_1_reachable).2.1⟩

/-- Claim C23.  In every reachable state of the table `make_fontset` returns
a fontset whose id is valid for the table after the call, grown or not, and
the slot of that id holds the fontset, which records the id. -/
theorem make_fontset_id_valid (s : Globals) (frame name : Lisp_Object) (base : Option Nat)
    (h : Registry_Reachable s) :
    ∃ a s1 id, make_fontset s frame name base = some (a, s1) ∧
      FONTSET_ID (s1.heap a) = .int id ∧
      fontset_id_valid_p s1 id = true ∧
      (0 ≤ id ∧ id < ASIZE s1.Vfontset_table - 1) ∧
      FONTSET_FROM_ID s1 id = some a := by
  have hinv := registry_inv_of_reachable s h
  obtain ⟨id, _, hlo, hhi, hnil, _, s1, hm, _, htab, hid, _⟩ :=
    make_fontset_of_inv s hinv frame name base
  have h0 : 0 ≤ id := by have := hinv.1; omega
  have hvalid : 0 ≤ id ∧ id < ASIZE s1.Vfontset_table - 1 := by
    rw [htab, ASIZE_ASET]
    by_cases hg : id + 1 = ASIZE s.Vfontset_table
    · simp only [hg, if_true]
      rw [ASIZE_append_replicate]
      omega
    · simp only [hg, if_false]
      omega
  refine ⟨s.heap_size, s1, id, hm, hid, ?_, hvalid, ?_⟩
  · unfold fontset_id_valid_p
    exact decide_eq_true hvalid
  · unfold FONTSET_FROM_ID
    rw [htab, AREF_ASET]
    have hsz : id < ASIZE (if id + 1 = ASIZE s.Vfontset_table
        then s.Vfontset_table ++ List.replicate 8 none else s.Vfontset_table) := by
      by_cases hg : id + 1 = ASIZE s.Vfontset_table
      · simp only [hg, if_true]; rw [ASIZE_append_replicate]; omega
      · simp only [hg, if_false]; exact hhi
    simp only [h0, hsz, and_self, if_true]
    rfl

/-- Claim C23 at the state after three fontsets have been made and the second
one released: the next fontset has the valid id 1. -/
theorem make_fontset_id_valid_witness :
    ∃ a s1 id, make_fontset three_fontsets_released_1 (.frame 0) .nil (some 0) = some (a, s1) ∧
      FONTSET_ID (s1.heap a) = .int id ∧
      fontset_id_valid_p s1 id = true ∧
      (0 ≤ id ∧ id < ASIZE s1.Vfontset_table - 1) ∧
      FONTSET_FROM_ID s1 id = some a :=
  make_fontset_id_valid three_fontsets_released_1 (.frame 0) .nil (some 0)
    three_fontsets_released_1_reachable

/-- Claim C24.  With a valid id `free_face_fontset` makes the slot of the id
nil, leaves every other slot, the size of the table and the fontsets as they
are, and makes the next id the least of its former value and the id; with
an id that is not valid it leaves the state as it is. -/
theorem free_face_fontset_effect (s : Globals) (id : Int) :
    (fontset_id_valid_p s id = true →
      AREF (free_face_fontset s id).Vfontset_table id = some none ∧
      (∀ j, j ≠ id →
        AREF (free_face_fontset s id).Vfontset_table j = AREF s.Vfontset_table j) ∧
      ASIZE (free_face_fontset s id).Vfontset_table = ASIZE s.Vfontset_table ∧
      (free_face_fontset s id).next_fontset_id = min s.next_fontset_id id ∧
      (free_face_fontset s id).heap = s.heap) ∧
    (fontset_id_valid_p s id = false → free_face_fontset s id = s) := by
  constructor
  · intro hv
    have hb : 0 ≤ id ∧ id < ASIZE s.Vfontset_table - 1 := by
      unfold fontset_id_valid_p at hv
      exact of_decide_eq_true hv
    unfold free_face_fontset
    simp only [hv, if_true]
    refine ⟨?_, ?_, ASIZE_ASET _ _ _, ?_, trivial⟩
    · rw [AREF_ASET]
      have : id < ASIZE s.Vfontset_table := by omega
      simp only [hb.1, this, and_self, if_true]
    · intro j hj
      rw [AREF_ASET]
      have : ¬ (id = j ∧ 0 ≤ id ∧ id < ASIZE s.Vfontset_table) := fun h => hj h.1.symm
      simp only [this, if_false]
    · by_cases hlt : id < s.next_fontset_id
      · simp only [hlt, if_true]
        rw [min_eq_right (le_of_lt hlt)]
      · simp only [hlt, if_false]
        rw [min_eq_left (by omega)]
  · intro hv
    unfold free_face_fontset
    simp only [hv, Bool.false_eq_true, if_false]

/-- Claim C24 at the state with the fontsets of the ids 0, 1 and 2: the
release of the id 1 empties slot 1 and makes the next id 1; the id 31, the
last slot of the table, is not valid and its release changes nothing. -/
theorem free_face_fontset_effect_witness :
    three_fontsets.next_fontset_id = 3 ∧
    (AREF (free_face_fontset three_fontsets 1).Vfontset_table 1 = some none ∧
      (∀ j, j ≠ 1 → AREF (free_face_fontset three_fontsets 1).Vfontset_table j
        = AREF three_fontsets.Vfontset_table j) ∧
      ASIZE (free_face_fontset three_fontsets 1).Vfontset_table
        = ASIZE three_fontsets.Vfontset_table ∧
      (free_face_fontset three_fontsets 1).next_fontset_id
        = min three_fontsets.next_fontset_id 1 ∧
      (free_face_fontset three_fontsets 1).heap = three_fontsets.heap) ∧
    free_face_fontset three_fontsets 31 = three_fontsets :=
  ⟨rfl, (free_face_fontset_effect three_fontsets 1).1 rfl,
    (free_face_fontset_effect three_fontsets 31).2 rfl⟩

/-- The effect of a call of `make_fontset` that returns. -/
theorem make_fontset_some (s s1 : Globals) (frame name : Lisp_Object) (base : Option Nat)
    (a : Nat) (h : make_fontset s frame name base = some (a, s1)) :
    ∃ id, 0 ≤ id ∧ id < ASIZE s.Vfontset_table ∧ AREF s.Vfontset_table id = some none ∧
      a = s.heap_size ∧
      s1.Vfontset_table = ASET (if id + 1 = ASIZE s.Vfontset_table
        then s.Vfontset_table ++ List.replicate 8 none else s.Vfontset_table) id (some a) ∧
      s1.next_fontset_id = id + 1 ∧ s1.heap_size = s.heap_size + 1 ∧
      s1.heap = (fun b => if b = s.heap_size then
        { (if base.isNone then s.heap s.Vdefault_fontset else Fmake_char_table) with
          id := .int id, name := name, frame := frame, parent := base } else s.heap b) ∧
      s1.Vdefault_fontset = s.Vdefault_fontset ∧
      s1.Vcached_fontset_data = s.Vcached_fontset_data ∧
      s1.Vfontset_alias_alist = s.Vfontset_alias_alist := by
  unfold make_fontset at h
  simp only at h
  cases hscan : make_fontset_scan s.Vfontset_table (s.Vfontset_table.length + 1)
      s.next_fontset_id with
  | none => rw [hscan] at h; cases h
  | some id =>
    rw [hscan] at h
    simp only [Option.some.injEq, Prod.mk.injEq] at h
    obtain ⟨ha, hs1⟩ := h
    obtain ⟨_, hnil, _⟩ := make_fontset_scan_spec _ _ _ _ hscan
    have hb := AREF_lt_size _ _ _ hnil
    subst ha
    subst hs1
    exact ⟨id, hb.1, hb.2, hnil, rfl, rfl, rfl, rfl, rfl, rfl, rfl, rfl⟩

/-- Claim C25.  In every reachable state of the table `make_fontset` returns;
a call that returns puts the new fontset into a slot that was nil, makes the
next id the id of that slot plus 1, leaves every other slot of the former
table as it is, and leaves the size of the table as it is unless the slot is
the last one, in which case 8 nil slots are appended; the other fontsets
and variables are as before. -/
theorem make_fontset_effect (s : Globals) (frame name : Lisp_Object) (base : Option Nat) :
    (Registry_Reachable s → ∃ a s1, make_fontset s frame name base = some (a, s1)) ∧
    ∀ a s1, make_fontset s frame name base = some (a, s1) →
      ∃ id, AREF s.Vfontset_table id = some none ∧
        AREF s1.Vfontset_table id = some (some a) ∧
        s1.next_fontset_id = id + 1 ∧
        (∀ j, j ≠ id → j < ASIZE s.Vfontset_table →
          AREF s1.Vfontset_table j = AREF s.Vfontset_table j) ∧
        (id + 1 ≠ ASIZE s.Vfontset_table →
          ASIZE s1.Vfontset_table = ASIZE s.Vfontset_table) ∧
        (id + 1 = ASIZE s.Vfontset_table →
          ASIZE s1.Vfontset_table = ASIZE s.Vfontset_table + 8 ∧
          ∀ j, ASIZE s.Vfontset_table ≤ j → j < ASIZE s.Vfontset_table + 8 →
            AREF s1.Vfontset_table j = some none) ∧
        (∀ b, b ≠ a → s1.heap b = s.heap b) ∧
        s1.Vdefault_fontset = s.Vdefault_fontset := by
  constructor
  · intro h
    obtain ⟨_, _, _, _, _, _, s1, hm, _⟩ :=
      make_fontset_of_inv s (registry_inv_of_reachable s h) frame name base
    exact ⟨_, s1, hm⟩
  · intro a s1 h
    obtain ⟨id, h0, hlt, hnil, ha, htab, hnext, _, hheap, hdef, _, _⟩ :=
      make_fontset_some s s1 frame name base a h
    refine ⟨id, hnil, ?_, hnext, ?_, ?_, ?_, ?_, hdef⟩
    · rw [htab, AREF_ASET]
      have hsz : id < ASIZE (if id + 1 = ASIZE s.Vfontset_table
          then s.Vfontset_table ++ List.replicate 8 none else s.Vfontset_table) := by
        by_cases hg : id + 1 = ASIZE s.Vfontset_table
        · simp only [hg, if_true]; rw [ASIZE_append_replicate]; omega
        · simp only [hg, if_false]; exact hlt
      simp only [h0, hsz, and_self, if_true]
    · intro j hj hjlt
      rw [htab, AREF_ASET]
      have hne : ¬ (id = j ∧ 0 ≤ id ∧ id < ASIZE (if id + 1 = ASIZE s.Vfontset_table
          then s.Vfontset_table ++ List.replicate 8 none else s.Vfontset_table)) :=
        fun hc => hj hc.1.symm
      simp only [hne, if_false]
      by_cases hg : id + 1 = ASIZE s.Vfontset_table
      · simp only [hg, if_true]
        rw [AREF_append_replicate]
        simp only [hjlt, if_true]
      · simp only [hg, if_false]
    · intro hg
      rw [htab, ASIZE_ASET]
      simp only [hg, if_false]
    · intro hg
      rw [htab, ASIZE_ASET]
      simp only [hg, if_true]
      refine ⟨ASIZE_append_replicate _ _ _, ?_⟩
      intro j hj0 hj1
      rw [AREF_ASET]
      have hne : ¬ (id = j ∧ 0 ≤ id ∧ id < ASIZE (s.Vfontset_table ++ List.replicate 8 none)) :=
        fun hc => by omega
      simp only [hne, if_false]
      rw [AREF_append_replicate]
      have h1 : ¬ j < ASIZE s.Vfontset_table := by omega
      have h2 : j < ASIZE s.Vfontset_table + (8 : Nat) := by push_cast; omega
      simp only [h1, if_false, h2, if_true]
    · intro b hb
      rw [hheap]
      have : b ≠ s.heap_size := by rw [← ha]; exact hb
      simp only [this, if_false]

/-- Claim C25 at the state after three fontsets have been made and the second
one released: the next fontset goes into slot 1, the slots 0 and 2 keep their
fontsets, the table keeps its 32 slots and the next id is 2. -/
theorem make_fontset_effect_witness :
    ∃ a s1, make_fontset three_fontsets_released_1 (.frame 0) .nil (some 0) = some (a, s1) ∧
      AREF s1.Vfontset_table 1 = some (some a) ∧
      AREF s1.Vfontset_table 0 = some (some 1) ∧
      AREF s1.Vfontset_table 2 = some (some 3) ∧
      ASIZE s1.Vfontset_table = 32 ∧ s1.next_fontset_id = 2 := by
  obtain ⟨a, s1, h⟩ := (make_fontset_effect three_fontsets_released_1 (.frame 0) .nil
    (some 0)).1 three_fontsets_released_1_reachable
  have hs1 : make_fontset three_fontsets_released_1 (.frame 0) .nil (some 0)
      = some (4, make_fontset_state three_fontsets_released_1 (.frame 0) .nil (some 0)) := rfl
  rw [hs1] at h
  simp only [Option.some.injEq, Prod.mk.injEq] at h
  obtain ⟨ha, hs⟩ := h
  subst ha hs
  exact ⟨_, _, hs1, rfl, rfl, rfl, rfl, rfl⟩

/-! ## Theorems: the store of a new fontset -/

/-- Claim C28.  When the default fontset is an allocated fontset, a call of
`make_fontset` that returns gives, with the base nil, a fontset in which
`fontset_ref` returns for every character what it returns in the default
fontset, before and after the call, and, with another base, a fontset in
which `fontset_ref` returns nil for every character. -/
theorem make_fontset_seeding (split_char : Int → Int × Int × Int) (s s1 : Globals)
    (frame name : Lisp_Object) (base : Option Nat) (a : Nat)
    (h : make_fontset s frame name base = some (a, s1))
    (hd : s.Vdefault_fontset < s.heap_size) :
    (base = none → ∀ c,
      fontset_ref split_char (s1.heap a) c
        = fontset_ref split_char (s.heap s.Vdefault_fontset) c ∧
      fontset_ref split_char (s1.heap a) c
        = fontset_ref split_char (s1.heap s1.Vdefault_fontset) c) ∧
    (base ≠ none → ∀ c, fontset_ref split_char (s1.heap a) c = .nil) := by
  obtain ⟨id, _, _, _, ha, _, _, _, hheap, hdef, _, _⟩ := make_fontset_some s s1 frame name base a h
  have hnew : s1.heap a =
      { (if base.isNone then s.heap s.Vdefault_fontset else Fmake_char_table) with
        id := .int id, name := name, frame := frame, parent := base } := by
    rw [hheap, ha]
    simp only [if_true]
  have hold : s1.heap s1.Vdefault_fontset = s.heap s.Vdefault_fontset := by
    rw [hheap, hdef]
    have : s.Vdefault_fontset ≠ s.heap_size := by omega
    simp only [this, if_false]
  constructor
  · intro hb c
    subst hb
    rw [hold, hnew]
    exact ⟨rfl, rfl⟩
  · intro hb c
    rw [hnew]
    cases base with
    | none => exact absurd rfl hb
    | some b =>
      unfold fontset_ref
      cases SINGLE_BYTE_CHAR_P c <;> rfl

/-- Claim C28 at the state whose default fontset holds a font for the charset
0x92: a new base fontset has that font for the character 55329, as the
default fontset has, and a new realized fontset has nil. -/
theorem make_fontset_seeding_witness :
    fontset_ref SPLIT_NON_ASCII_CHAR
        (default_with_charset.heap default_with_charset.Vdefault_fontset) 55329
      = .cons (.int 49152) (.cons .nil (.str "jisx0208".toList)) ∧
    (∀ c, fontset_ref SPLIT_NON_ASCII_CHAR
        ((make_fontset_state default_with_charset .nil (.str "x".toList) none).heap 1) c
      = fontset_ref SPLIT_NON_ASCII_CHAR
        (default_with_charset.heap default_with_charset.Vdefault_fontset) c) ∧
    (∀ c, fontset_ref SPLIT_NON_ASCII_CHAR
        ((make_fontset_state default_with_charset (.frame 0) .nil (some 0)).heap 1) c = .nil) :=
  ⟨rfl,
    fun c => (((make_fontset_seeding SPLIT_NON_ASCII_CHAR default_with_charset
      (make_fontset_state default_with_charset .nil (.str "x".toList) none)
      .nil (.str "x".toList) none 1 rfl (by decide)).1 rfl) c).1,
    (make_fontset_seeding SPLIT_NON_ASCII_CHAR default_with_charset
      (make_fontset_state default_with_charset (.frame 0) .nil (some 0))
      (.frame 0) .nil (some 0) 1 rfl (by decide)).2 (by simp)⟩

/-! ## Theorems: the scratch buffer of the translation -/

theorem wildcard_translation_length (p : List Char) :
    (wildcard_translation p).length = p.length + p.count '*' := by
  induction p with
  | nil => rfl
  | cons ch rest ih =>
    unfold wildcard_translation
    by_cases h1 : ch = '*'
    · subst h1
      simp only [if_true, List.length_cons, List.count_cons_self, ih]
      omega
    · have hne : ¬ ('*' = ch) := fun e => h1 e.symm
      rw [List.count_cons_of_ne hne]
      by_cases h2 : ch = '?'
      · subst h2
        have hq : ¬ ('?' = '*') := by decide
        simp only [hq, if_false, if_true, List.length_cons, ih]
        omega
      · simp only [h1, h2, if_false, List.length_cons, ih]
        omega

/-- Claim C30, the divergence.  The translation writes the bytes of the C
string of the pattern, one byte more for every `*`, and 3 bytes for `^`, `$`
and the terminating NUL, into a buffer of twice the length of the pattern.
For the pattern `*` these are 5 bytes in a buffer of 2 bytes, for `ab*` 7
bytes in a buffer of 6, and the call is undefined. -/
theorem fontset_pattern_regexp_overflow :
    (∀ p, fontset_pattern_regexp_written p
        = (c_string p).length + (c_string p).count '*' + 3 ∧
      fontset_pattern_regexp_allocated p = 2 * p.length) ∧
    has_wildcard "*".toList ∧
    fontset_pattern_regexp_written "*".toList = 5 ∧
    fontset_pattern_regexp_allocated "*".toList = 2 ∧
    fontset_pattern_regexp syms_of_fontset "*".toList = none ∧
    has_wildcard "ab*".toList ∧
    fontset_pattern_regexp_written "ab*".toList = 7 ∧
    fontset_pattern_regexp_allocated "ab*".toList = 6 ∧
    fontset_pattern_regexp syms_of_fontset "ab*".toList = none ∧
    Fquery_fontset sample_externals syms_of_fontset (.str "*".toList) .nil = .undefined := by
  refine ⟨?_, by decide, by decide, by decide, rfl, by decide, by decide, by decide, rfl, rfl⟩
  intro p
  unfold fontset_pattern_regexp_written fontset_pattern_regexp_allocated
  rw [wildcard_translation_eq, wildcard_translation_length]
  omega

/-! ## Theorems: the kinds of the values in the stores -/

theorem not_sub_of_value (P : Lisp_Object → Bool)
    (hP : ∀ defalt contents, P (.sub_char_table defalt contents) = false) (e : Lisp_Object)
    (h : (NILP e || P e) = true) : SUB_CHAR_TABLE_P e = false := by
  cases e with
  | sub_char_table d ct =>
    rw [hP] at h
    cases h
  | _ => rfl

theorem row_typed_of_not_sub (P : Lisp_Object → Bool) (e : Lisp_Object)
    (hs : SUB_CHAR_TABLE_P e = false) : row_typed P e ↔ (NILP e || P e) = true := by
  cases e with
  | sub_char_table d ct => cases hs
  | _ => exact Iff.rfl

theorem slot_typed_of_not_sub (P : Lisp_Object → Bool) (e : Lisp_Object)
    (hs : SUB_CHAR_TABLE_P e = false) : slot_typed P e ↔ (NILP e || P e) = true := by
  cases e with
  | sub_char_table d ct => cases hs
  | _ => exact Iff.rfl

theorem value_of_kind (P : Lisp_Object → Bool) (v : Lisp_Object) (hv : P v = true) :
    (NILP v || P v) = true := by
  rw [hv]; exact Bool.or_true _

/-- A write into a row whose values are of a kind, of a value of that kind,
gives a row whose values are of that kind. -/
theorem row_typed_fontset_set_walk (P : Lisp_Object → Bool)
    (hP : ∀ defalt contents, P (.sub_char_table defalt contents) = false)
    (v row : Lisp_Object) (d2 : Int) (hv : P v = true) (h : row_typed P row) :
    row_typed P (fontset_set_walk v [d2, 0] row) := by
  have hvs : SUB_CHAR_TABLE_P v = false := not_sub_of_value P hP v (value_of_kind P v hv)
  have hstop : ∀ x, fontset_set_walk v [0] x = fontset_set_store v x :=
    fun x => fontset_set_walk_stop v x 0 [] (le_refl 0)
  by_cases hd2 : 0 < d2
  · rcases sub_char_table_cases row with ⟨df, ct, rfl⟩ | hrow
    · rw [fontset_set_walk_sub _ _ _ _ _ hd2]
      refine ⟨h.1, fun k => ?_⟩
      by_cases hk : k = d2
      · simp only [hk, if_true]
        rw [hstop, fontset_set_store_of_not_sub _ _ (not_sub_of_value P hP _ (h.2 d2))]
        exact value_of_kind P v hv
      · simp only [hk, if_false]
        exact h.2 k
    · rw [fontset_set_walk_leaf _ _ _ _ hd2 hrow]
      refine ⟨(row_typed_of_not_sub P row hrow).1 h, fun k => ?_⟩
      by_cases hk : k = d2
      · simp only [hk, if_true]
        rw [hstop, fontset_set_store_of_not_sub v .nil rfl]
        exact value_of_kind P v hv
      · simp only [hk, if_false]
        rfl
  · rw [fontset_set_walk_stop _ _ _ _ (by omega)]
    rcases sub_char_table_cases row with ⟨df, ct, rfl⟩ | hrow
    · exact ⟨value_of_kind P v hv, h.2⟩
    · rw [fontset_set_store_of_not_sub _ _ hrow]
      exact (row_typed_of_not_sub P v hvs).2 (value_of_kind P v hv)

/-- A write into a charset slot whose values are of a kind, of a value of
that kind, gives a slot whose values are of that kind. -/
theorem slot_typed_fontset_set_walk (P : Lisp_Object → Bool)
    (hP : ∀ defalt contents, P (.sub_char_table defalt contents) = false)
    (v slot : Lisp_Object) (d1 d2 : Int) (hv : P v = true) (h : slot_typed P slot) :
    slot_typed P (fontset_set_walk v [d1, d2, 0] slot) := by
  have hvs : SUB_CHAR_TABLE_P v = false := not_sub_of_value P hP v (value_of_kind P v hv)
  by_cases hd1 : 0 < d1
  · rcases sub_char_table_cases slot with ⟨df, ct, rfl⟩ | hslot
    · rw [fontset_set_walk_sub _ _ _ _ _ hd1]
      refine ⟨h.1, fun j => ?_⟩
      by_cases hj : j = d1
      · simp only [hj, if_true]
        exact row_typed_fontset_set_walk P hP v _ d2 hv (h.2 d1)
      · simp only [hj, if_false]
        exact h.2 j
    · rw [fontset_set_walk_leaf _ _ _ _ hd1 hslot]
      refine ⟨(slot_typed_of_not_sub P slot hslot).1 h, fun j => ?_⟩
      by_cases hj : j = d1
      · simp only [hj, if_true]
        exact row_typed_fontset_set_walk P hP v .nil d2 hv rfl
      · simp only [hj, if_false]
        exact (rfl : (NILP Lisp_Object.nil || P Lisp_Object.nil) = true)
  · rw [fontset_set_walk_stop _ _ _ _ (by omega)]
    rcases sub_char_table_cases slot with ⟨df, ct, rfl⟩ | hslot
    · exact ⟨value_of_kind P v hv, h.2⟩
    · rw [fontset_set_store_of_not_sub _ _ hslot]
      exact (slot_typed_of_not_sub P v hvs).2 (value_of_kind P v hv)

/-- A call of `fontset_set` with a value of a kind keeps a store whose values
are of that kind. -/
theorem store_typed_fontset_set (P : Lisp_Object → Bool)
    (hP : ∀ defalt contents, P (.sub_char_table defalt contents) = false)
    (split_char : Int → Int × Int × Int) (fontset : Lisp_Char_Table) (c : Int)
    (v : Lisp_Object) (hv : P v = true) (h : store_typed P fontset) :
    store_typed P (fontset_set split_char fontset c v) := by
  intro i
  cases hsb : SINGLE_BYTE_CHAR_P c with
  | true =>
    unfold fontset_set
    simp only [hsb, if_true]
    exact h i
  | false =>
    rw [fontset_set_multibyte_contents split_char fontset c v hsb]
    by_cases hi : i = (split_char c).1 + 128
    · simp only [hi, if_true]
      exact slot_typed_fontset_set_walk P hP v _ _ _ hv (h _)
    · simp only [hi, if_false]
      exact h i

theorem store_typed_clear_fontset_elements (P : Lisp_Object → Bool)
    (fontset : Lisp_Char_Table) (h : store_typed P fontset) :
    store_typed P (clear_fontset_elements fontset) := by
  intro i
  unfold clear_fontset_elements
  by_cases hi : CHAR_TABLE_SINGLE_BYTE_SLOTS ≤ i ∧ i < CHAR_TABLE_ORDINARY_SLOTS
  · simp only [hi, and_self, if_true]
    exact (rfl : (NILP Lisp_Object.nil || P Lisp_Object.nil) = true)
  · simp only [hi, if_false]
    exact h i

theorem store_typed_Fmake_char_table (P : Lisp_Object → Bool) :
    store_typed P Fmake_char_table :=
  fun _ => (rfl : (NILP Lisp_Object.nil || P Lisp_Object.nil) = true)

theorem font_entry_p_sub (defalt : Lisp_Object) (contents : Int → Lisp_Object) :
    font_entry_p (.sub_char_table defalt contents) = false := rfl

theorem face_id_p_sub (defalt : Lisp_Object) (contents : Int → Lisp_Object) :
    face_id_p (.sub_char_table defalt contents) = false := rfl

/-- The value of `font_family_registry` for a string is a font. -/
theorem font_spec_p_font_family_registry (data : List Char) :
    font_spec_p (font_family_registry (.str data)) = true := by
  rw [font_family_registry_eq]
  by_cases h : (c_string data).count '-' = 14
  · rw [if_pos h]; rfl
  · rw [if_neg h]; rfl

/-! ## Theorems: the invariant of the fontsets -/

theorem store_typed_congr (P : Lisp_Object → Bool) (f g : Lisp_Char_Table)
    (h : g.contents = f.contents) (hf : store_typed P f) : store_typed P g := by
  intro i
  rw [h]
  exact hf i

theorem fontsets_inv_syms_of_fontset : fontsets_inv syms_of_fontset := by
  refine ⟨by decide, rfl, ?_, ?_, ?_⟩
  · intro i a h
    have hmem := FONTSET_FROM_ID_mem syms_of_fontset i a h
    simp [syms_of_fontset, List.mem_replicate] at hmem
  · intro a b h
    have hp : FONTSET_BASE (syms_of_fontset.heap a) = none := by
      unfold syms_of_fontset FONTSET_BASE
      by_cases ha : a = 0
      · simp only [ha, if_true]; rfl
      · simp only [ha, if_false]; rfl
    rw [hp] at h
    cases h
  · intro a
    have hc : ∀ i, (syms_of_fontset.heap a).contents i = .nil := by
      intro i
      unfold syms_of_fontset
      by_cases ha : a = 0
      · simp only [ha, if_true]; rfl
      · simp only [ha, if_false]; rfl
    exact ⟨fun _ i => by rw [hc i]; rfl, fun _ i => by rw [hc i]; rfl⟩

/-- The invariant of the fontsets holds after a change of the state that
keeps the number of fontsets and the default fontset, adds no fontset to the
table, and keeps the base, the name and the kind of the values of every
fontset. -/
theorem fontsets_inv_update (s s1 : Globals) (hinv : fontsets_inv s)
    (hsize : s1.heap_size = s.heap_size)
    (hdef : s1.Vdefault_fontset = s.Vdefault_fontset)
    (htable : ∀ i a, FONTSET_FROM_ID s1 i = some a → FONTSET_FROM_ID s i = some a)
    (hheap : ∀ b, FONTSET_BASE (s1.heap b) = FONTSET_BASE (s.heap b) ∧
      FONTSET_NAME (s1.heap b) = FONTSET_NAME (s.heap b) ∧
      (BASE_FONTSET_P (s.heap b) = true → store_typed font_entry_p (s.heap b) →
        store_typed font_entry_p (s1.heap b)) ∧
      (BASE_FONTSET_P (s.heap b) = false → store_typed face_id_p (s.heap b) →
        store_typed face_id_p (s1.heap b))) :
    fontsets_inv s1 := by
  obtain ⟨h1, h2, h3, h4, h5⟩ := hinv
  have hbase : ∀ b, BASE_FONTSET_P (s1.heap b) = BASE_FONTSET_P (s.heap b) := by
    intro b
    unfold BASE_FONTSET_P
    rw [(hheap b).1]
  refine ⟨by rw [hsize, hdef]; exact h1, by rw [hdef, hbase]; exact h2, ?_, ?_, ?_⟩
  · intro i a hi
    obtain ⟨ha, hn⟩ := h3 i a (htable i a hi)
    refine ⟨by rw [hsize]; exact ha, fun hb => ?_⟩
    rw [(hheap a).2.1]
    exact hn (by rw [← hbase]; exact hb)
  · intro a b hab
    rw [(hheap a).1] at hab
    obtain ⟨hb1, hb2⟩ := h4 a b hab
    exact ⟨by rw [hsize]; exact hb1, by rw [hbase]; exact hb2⟩
  · intro a
    constructor
    · intro hb
      rw [hbase] at hb
      exact (hheap a).2.2.1 hb ((h5 a).1 hb)
    · intro hb
      rw [hbase] at hb
      exact (hheap a).2.2.2 hb ((h5 a).2 hb)

/-- The invariant of the fontsets holds after `make_fontset` with a name that
is a string when the base is nil, and with a base that is allocated and has
no base. -/
theorem fontsets_inv_make_fontset (s s1 : Globals) (frame name : Lisp_Object)
    (base : Option Nat) (a : Nat) (hinv : fontsets_inv s)
    (h : make_fontset s frame name base = some (a, s1))
    (hname : base = none → ∃ this_name, name = .str this_name)
    (hbase : ∀ b, base = some b → b < s.heap_size ∧ BASE_FONTSET_P (s.heap b) = true) :
    fontsets_inv s1 := by
  obtain ⟨h1, h2, h3, h4, h5⟩ := hinv
  obtain ⟨id, hid0, hidlt, hnil, ha, htab, _, hsize, hheap, hdef, _, _⟩ :=
    make_fontset_some s s1 frame name base a h
  have hold : ∀ b, b < s.heap_size → s1.heap b = s.heap b := by
    intro b hb
    rw [hheap]
    have : b ≠ s.heap_size := by omega
    simp only [this, if_false]
  have hnew : s1.heap s.heap_size =
      { (if base.isNone then s.heap s.Vdefault_fontset else Fmake_char_table) with
        id := .int id, name := name, frame := frame, parent := base } := by
    rw [hheap]
    simp only [if_true]
  refine ⟨by rw [hsize, hdef]; omega, by rw [hdef, hold _ h1]; exact h2, ?_, ?_, ?_⟩
  · intro i x hi
    unfold FONTSET_FROM_ID at hi
    rw [htab, AREF_ASET] at hi
    by_cases hc : id = i ∧ 0 ≤ id ∧ id < ASIZE (if id + 1 = ASIZE s.Vfontset_table
        then s.Vfontset_table ++ List.replicate 8 none else s.Vfontset_table)
    · rw [if_pos hc] at hi
      have hxa : x = a := (Option.some.inj hi).symm
      rw [hxa, ha]
      refine ⟨by rw [hsize]; omega, fun hb => ?_⟩
      rw [hnew] at hb ⊢
      have hbn : base = none := by
        cases base with
        | none => rfl
        | some b => cases hb
      exact hname hbn
    · rw [if_neg hc] at hi
      have hi' : FONTSET_FROM_ID s i = some x := by
        unfold FONTSET_FROM_ID
        by_cases hg : id + 1 = ASIZE s.Vfontset_table
        · rw [if_pos hg, AREF_append_replicate] at hi
          by_cases hlt : i < ASIZE s.Vfontset_table
          · rw [if_pos hlt] at hi; exact hi
          · rw [if_neg hlt] at hi
            split at hi <;> cases hi
        · rw [if_neg hg] at hi; exact hi
      obtain ⟨hx, hn⟩ := h3 i x hi'
      refine ⟨by rw [hsize]; omega, fun hb => ?_⟩
      rw [hold x hx] at hb ⊢
      exact hn hb
  · intro x b hxb
    by_cases hx : x = s.heap_size
    · rw [hx, hnew] at hxb
      have hb : base = some b := hxb
      obtain ⟨hb1, hb2⟩ := hbase b hb
      exact ⟨by rw [hsize]; omega, by rw [hold b hb1]; exact hb2⟩
    · have hxe : s1.heap x = s.heap x := by
        rw [hheap]; simp only [hx, if_false]
      rw [hxe] at hxb
      obtain ⟨hb1, hb2⟩ := h4 x b hxb
      exact ⟨by rw [hsize]; omega, by rw [hold b hb1]; exact hb2⟩
  · intro x
    by_cases hx : x = s.heap_size
    · rw [hx, hnew]
      cases base with
      | none =>
        exact ⟨fun _ => store_typed_congr _ (s.heap s.Vdefault_fontset) _ rfl
          ((h5 s.Vdefault_fontset).1 h2), fun hb => by cases hb⟩
      | some b =>
        exact ⟨fun hb => (by cases hb),
          fun _ => store_typed_congr _ Fmake_char_table _ rfl (store_typed_Fmake_char_table _)⟩
    · have hxe : s1.heap x = s.heap x := by
        rw [hheap]; simp only [hx, if_false]
      rw [hxe]
      exact h5 x

theorem fontsets_inv_of_same (s s1 : Globals) (hinv : fontsets_inv s)
    (h : same_fontsets s s1) : fontsets_inv s1 := by
  obtain ⟨e1, e2, e3, _, e5, _⟩ := h
  apply fontsets_inv_update s s1 hinv e2 e5
  · intro i a hi
    unfold FONTSET_FROM_ID at hi ⊢
    rw [← e3]; exact hi
  · intro b
    rw [e1]
    exact ⟨rfl, rfl, fun _ x => x, fun _ x => x⟩

theorem fontsets_inv_free_face_fontset (s : Globals) (id : Int) (hinv : fontsets_inv s) :
    fontsets_inv (free_face_fontset s id) := by
  unfold free_face_fontset
  by_cases hv : fontset_id_valid_p s id = true
  · rw [if_pos hv]
    apply fontsets_inv_update s _ hinv
    · rfl
    · rfl
    · intro i a hi
      unfold FONTSET_FROM_ID at hi ⊢
      simp only at hi
      rw [AREF_ASET] at hi
      by_cases hc : id = i ∧ 0 ≤ id ∧ id < ASIZE s.Vfontset_table
      · rw [if_pos hc] at hi; cases hi
      · rw [if_neg hc] at hi; exact hi
    · intro b
      exact ⟨rfl, rfl, fun _ x => x, fun _ x => x⟩
  · rw [if_neg hv]; exact hinv

/-- A lookup through the base in a fontset that has no base returns for a
single byte character only. -/
theorem fontset_ref_via_base_of_base (split_char : Int → Int × Int × Int)
    (heap : Nat → Lisp_Char_Table) (fontset : Lisp_Char_Table) (c c1 : Int) (x : Lisp_Object)
    (hb : FONTSET_BASE fontset = none)
    (h : fontset_ref_via_base split_char heap fontset c = some (x, c1)) :
    SINGLE_BYTE_CHAR_P c1 = true := by
  unfold fontset_ref_via_base at h
  cases hsb : SINGLE_BYTE_CHAR_P c with
  | true =>
    rw [hsb] at h
    simp only [if_true, Option.some.injEq, Prod.mk.injEq] at h
    rw [← h.2]; exact hsb
  | false =>
    rw [hsb, hb] at h
    simp at h

theorem face_for_char_state_cases (split_char : Int → Int × Int × Int)
    (lookup_face : Int → Int) (s : Globals) (id c : Int) (r : Face_For_Char)
    (h : face_for_char split_char lookup_face s id c = some r) :
    r.state = s ∨ ∃ a c1 n, FONTSET_FROM_ID s id = some a ∧
      fontset_ref_via_base split_char s.heap (s.heap a) c = some (.nil, c1) ∧
      r.state = heap_store s a (fontset_set split_char (s.heap a) c1 (.int n)) := by
  unfold face_for_char at h
  cases ha : FONTSET_FROM_ID s id with
  | none => rw [ha] at h; cases h
  | some a =>
    rw [ha] at h
    simp only at h
    cases hr : fontset_ref_via_base split_char s.heap (s.heap a) c with
    | none => rw [hr] at h; cases h
    | some xc =>
      obtain ⟨x, c1⟩ := xc
      rw [hr] at h
      cases x with
      | nil =>
        simp only [Option.some.injEq] at h
        right
        exact ⟨a, c1, lookup_face c1, rfl, hr, by rw [← h]⟩
      | int n =>
        simp only [Option.some.injEq] at h
        left
        rw [← h]
      | _ => cases h

theorem fontsets_inv_face_for_char (split_char : Int → Int × Int × Int)
    (lookup_face : Int → Int) (s : Globals) (id c : Int) (r : Face_For_Char)
    (hinv : fontsets_inv s)
    (h : face_for_char split_char lookup_face s id c = some r) : fontsets_inv r.state := by
  rcases face_for_char_state_cases split_char lookup_face s id c r h with hs | ⟨a, c1, n, _, hr, hs⟩
  · rw [hs]; exact hinv
  · rw [hs]
    apply fontsets_inv_update s _ hinv
    · rfl
    · rfl
    · intro i x hi; exact hi
    · intro b
      by_cases hb : b = a
      · subst hb
        rw [heap_store_heap_same]
        have hf := fontset_set_fields split_char (s.heap b) c1 (.int n)
        refine ⟨hf.2, hf.1, ?_, ?_⟩
        · intro hbase ht
          have hnone : FONTSET_BASE (s.heap b) = none := by
            unfold BASE_FONTSET_P at hbase
            cases hp : FONTSET_BASE (s.heap b) with
            | none => rfl
            | some p => rw [hp] at hbase; cases hbase
          have hsb := fontset_ref_via_base_of_base split_char s.heap (s.heap b) c c1 .nil hnone hr
          apply store_typed_congr _ (s.heap b) _ _ ht
          unfold fontset_set
          rw [hsb]
          rfl
        · intro _ ht
          exact store_typed_fontset_set face_id_p face_id_p_sub split_char _ c1 _ rfl ht
      · rw [heap_store_heap_other _ _ _ _ hb]
        exact ⟨rfl, rfl, fun _ x => x, fun _ x => x⟩

theorem fontsets_inv_make_fontset_for_ascii_face (s s1 : Globals) (f : Nat)
    (base_fontset_id id : Int) (hinv : fontsets_inv s)
    (h : make_fontset_for_ascii_face s f base_fontset_id = some (id, s1)) :
    fontsets_inv s1 := by
  have hshape : ∃ base a, make_fontset s (.frame f) .nil (some base) = some (a, s1) ∧
      base < s.heap_size ∧ BASE_FONTSET_P (s.heap base) = true := by
    unfold make_fontset_for_ascii_face at h
    simp only at h
    have hfin : ∀ base, (match (some base : Option Nat) with
        | none => none
        | some base =>
          match make_fontset s (.frame f) .nil (some base) with
          | none => none
          | some (a, s1) =>
            match FONTSET_ID (s1.heap a) with
            | .int id => some (id, s1)
            | _ => none) = some (id, s1) →
        ∃ a, make_fontset s (.frame f) .nil (some base) = some (a, s1) := by
      intro base h0
      simp only at h0
      cases hm : make_fontset s (.frame f) .nil (some base) with
      | none => rw [hm] at h0; cases h0
      | some r =>
        obtain ⟨a, s2⟩ := r
        rw [hm] at h0
        simp only at h0
        cases hid : FONTSET_ID (s2.heap a) with
        | int n =>
          rw [hid] at h0
          simp only [Option.some.injEq, Prod.mk.injEq] at h0
          exact ⟨a, by rw [h0.2]⟩
        | _ => rw [hid] at h0; cases h0
    by_cases hid : 0 ≤ base_fontset_id
    · rw [if_pos hid] at h
      cases ha : FONTSET_FROM_ID s base_fontset_id with
      | none => rw [ha] at h; cases h
      | some a1 =>
        rw [ha] at h
        simp only at h
        cases hb : BASE_FONTSET_P (s.heap a1) with
        | true =>
          rw [hb] at h
          simp only [Bool.not_true, Bool.false_eq_true, if_false] at h
          obtain ⟨a, hm⟩ := hfin a1 h
          exact ⟨a1, a, hm, (hinv.2.2.1 _ a1 ha).1, hb⟩
        | false =>
          rw [hb] at h
          simp only [Bool.not_false, if_true] at h
          cases hp : FONTSET_BASE (s.heap a1) with
          | none => rw [hp] at h; cases h
          | some base =>
            rw [hp] at h
            obtain ⟨a, hm⟩ := hfin base h
            obtain ⟨h1, h2⟩ := hinv.2.2.2.1 a1 base hp
            exact ⟨base, a, hm, h1, h2⟩
    · rw [if_neg hid] at h
      obtain ⟨a, hm⟩ := hfin _ h
      exact ⟨_, a, hm, hinv.1, hinv.2.1⟩
  obtain ⟨base, a, hm, h1, h2⟩ := hshape
  apply fontsets_inv_make_fontset s s1 (.frame f) .nil (some base) a hinv hm
  · intro hc; cases hc
  · intro b hb
    cases hb
    exact ⟨h1, h2⟩

/-- The state after a call of `Fnew_fontset` that returns: the lookup of the
downcased name found no fontset, `make_fontset` made a base fontset with
that name, and the elements of the fontlist were stored in it. -/
theorem Fnew_fontset_value (ext : Externals) (s s1 : Globals) (name fontlist v : Lisp_Object)
    (h : Fnew_fontset ext s name fontlist = .value v s1) :
    ∃ data tem s0 a s2 elements ascii_font, name = .str data ∧
      Fquery_fontset ext s (.str (ext.Fdowncase data)) .nil = .value tem s0 ∧
      NILP tem = true ∧
      make_fontset s0 .nil (.str (ext.Fdowncase data)) none = some (a, s2) ∧
      s1 = heap_store s2 a (Fnew_fontset_store ext
        { s2.heap a with defalt := .cons (.int 0) (.str ascii_font) } elements) := by
  unfold Fnew_fontset at h
  cases name with
  | str data =>
    simp only at h
    cases hl : (NILP fontlist || CONSP fontlist) with
    | false =>
      rw [hl] at h
      simp only [Bool.not_false, if_true] at h
      cases h
    | true =>
      rw [hl] at h
      simp only [Bool.not_true, Bool.false_eq_true, if_false] at h
      cases hq : Fquery_fontset ext s (.str (ext.Fdowncase data)) .nil with
      | undefined => rw [hq] at h; cases h
      | signal e s0 => rw [hq] at h; cases h
      | value tem s0 =>
        rw [hq] at h
        simp only at h
        cases ht : NILP tem with
        | false =>
          rw [ht] at h
          simp only [Bool.not_false, if_true] at h
          cases h
        | true =>
          rw [ht] at h
          simp only [Bool.not_true, Bool.false_eq_true, if_false] at h
          cases he : Fnew_fontset_elements ext fontlist [] none with
          | none => rw [he] at h; cases h
          | some r =>
            obtain ⟨elements, ascii⟩ := r
            rw [he] at h
            cases ascii with
            | none => cases h
            | some ascii_font =>
              simp only at h
              cases hm : make_fontset s0 .nil (.str (ext.Fdowncase data)) none with
              | none => rw [hm] at h; cases h
              | some r2 =>
                obtain ⟨a, s2⟩ := r2
                rw [hm] at h
                simp only [Outcome.value.injEq] at h
                exact ⟨data, tem, s0, a, s2, elements, ascii_font, rfl, hq, ht, hm, h.2.symm⟩
  | _ => cases h

/-- The second loop of `Fnew_fontset` keeps the name and the base of the
fontset and a store of elements of base fontsets. -/
theorem Fnew_fontset_store_spec (ext : Externals) (elements : List (Int × List Char))
    (fontset : Lisp_Char_Table) :
    FONTSET_NAME (Fnew_fontset_store ext fontset elements) = FONTSET_NAME fontset ∧
    FONTSET_BASE (Fnew_fontset_store ext fontset elements) = FONTSET_BASE fontset ∧
    (store_typed font_entry_p fontset →
      store_typed font_entry_p (Fnew_fontset_store ext fontset elements)) := by
  induction elements generalizing fontset with
  | nil => exact ⟨rfl, rfl, fun x => x⟩
  | cons e rest ih =>
    obtain ⟨c, fontname⟩ := e
    unfold Fnew_fontset_store
    have h1 := ih (fontset_set ext.SPLIT_NON_ASCII_CHAR fontset c
      (.cons (.int c) (font_family_registry (.str fontname))))
    have h2 := fontset_set_fields ext.SPLIT_NON_ASCII_CHAR fontset c
      (.cons (.int c) (font_family_registry (.str fontname)))
    refine ⟨h1.1.trans h2.1, h1.2.1.trans h2.2, fun ht => h1.2.2 ?_⟩
    exact store_typed_fontset_set font_entry_p font_entry_p_sub _ _ _ _
      (font_spec_p_font_family_registry fontname) ht

theorem Fquery_fontset_value_same (ext : Externals) (s s1 : Globals)
    (pattern regexpp v : Lisp_Object)
    (h : Fquery_fontset ext s pattern regexpp = .value v s1) : same_fontsets s s1 :=
  (Fquery_fontset_same ext s pattern regexpp).1 v s1 h

theorem fontsets_inv_Fnew_fontset (ext : Externals) (s s1 : Globals)
    (name fontlist v : Lisp_Object) (hinv : fontsets_inv s)
    (h : Fnew_fontset ext s name fontlist = .value v s1) : fontsets_inv s1 := by
  obtain ⟨data, tem, s0, a, s2, elements, ascii_font, _, hq, _, hm, hs1⟩ :=
    Fnew_fontset_value ext s s1 name fontlist v h
  have h0 := fontsets_inv_of_same s s0 hinv (Fquery_fontset_value_same ext s s0 _ _ _ hq)
  have h2 := fontsets_inv_make_fontset s0 s2 .nil _ none a h0 hm (fun _ => ⟨_, rfl⟩)
    (fun b hb => by cases hb)
  obtain ⟨id, _, _, _, ha, _, _, _, hheap, _⟩ := make_fontset_some s0 s2 _ _ _ a hm
  have hbase : BASE_FONTSET_P (s2.heap a) = true := by
    rw [hheap, ha]
    simp only [if_true]
    rfl
  rw [hs1]
  apply fontsets_inv_update s2 _ h2
  · rfl
  · rfl
  · intro i x hi; exact hi
  · intro b
    by_cases hb : b = a
    · subst hb
      rw [heap_store_heap_same]
      have hsp := Fnew_fontset_store_spec ext elements
        { s2.heap b with defalt := .cons (.int 0) (.str ascii_font) }
      refine ⟨hsp.2.1, hsp.1, fun _ ht => hsp.2.2 (store_typed_congr _ _ _ rfl ht), ?_⟩
      intro hf
      rw [hbase] at hf
      cases hf
    · rw [heap_store_heap_other _ _ _ _ hb]
      exact ⟨rfl, rfl, fun _ x => x, fun _ x => x⟩

/-- The loop of `fs_query_fontset` returns -1 or the index of a slot that
holds a base fontset. -/
theorem fs_query_fontset_loop_base (ext : Externals) (heap : Nat → Lisp_Char_Table)
    (key : List Char) (regexpp : Bool) (table : List (Option Nat)) (i0 r : Int)
    (h : fs_query_fontset_loop ext heap key regexpp table i0 = some r) :
    r = -1 ∨ (i0 ≤ r ∧ ∃ a, table[(r - i0).toNat]? = some (some a) ∧
      BASE_FONTSET_P (heap a) = true) := by
  induction table generalizing i0 with
  | nil =>
    unfold fs_query_fontset_loop at h
    left
    exact (Option.some.inj h).symm
  | cons x rest ih =>
    have hnext : ∀ r, (r = -1 ∨ (i0 + 1 ≤ r ∧ ∃ a, rest[(r - (i0 + 1)).toNat]? = some (some a) ∧
        BASE_FONTSET_P (heap a) = true)) →
        (r = -1 ∨ (i0 ≤ r ∧ ∃ a, (x :: rest)[(r - i0).toNat]? = some (some a) ∧
        BASE_FONTSET_P (heap a) = true)) := by
      intro r hr
      rcases hr with hr | ⟨h1, a, h2, h3⟩
      · exact Or.inl hr
      · right
        refine ⟨by omega, a, ?_, h3⟩
        have : (r - i0).toNat = (r - (i0 + 1)).toNat + 1 := by omega
        rw [this, List.getElem?_cons_succ]
        exact h2
    cases x with
    | none =>
      unfold fs_query_fontset_loop at h
      exact hnext r (ih _ h)
    | some a =>
      unfold fs_query_fontset_loop at h
      cases hb : BASE_FONTSET_P (heap a) with
      | false =>
        rw [hb] at h
        simp only [Bool.not_false, if_true] at h
        exact hnext r (ih _ h)
      | true =>
        rw [hb] at h
        simp only [Bool.not_true, Bool.false_eq_true, if_false] at h
        cases hn : FONTSET_NAME (heap a) with
        | str this_name =>
          rw [hn] at h
          simp only at h
          by_cases hcnd : (if regexpp = true then
                decide (0 ≤ ext.fast_c_string_match_ignore_case key (c_string this_name))
              else decide (c_string key = c_string this_name)) = true
          · rw [if_pos hcnd] at h
            right
            have hr : r = i0 := (Option.some.inj h).symm
            rw [hr]
            refine ⟨le_refl _, a, ?_, hb⟩
            simp
          · rw [if_neg hcnd] at h
            exact hnext r (ih _ h)
        | _ => rw [hn] at h; cases h

/-- The parts of a lookup by name that returns: the key of the lookup, from
the alias list or the translation of the pattern, and the loop over the
table with that key. -/
theorem fs_query_fontset_shape (ext : Externals) (s s1 : Globals) (name : List Char)
    (regexpp : Bool) (id : Int) (h : fs_query_fontset ext s name regexpp = some (id, s1)) :
    ∃ key re, fs_query_fontset_loop ext s.heap key re s.Vfontset_table 0 = some id ∧
      (regexpp = true → key = ext.Fdowncase name ∧ re = true ∧ s1 = s) ∧
      (regexpp = false →
        (∃ rest, Frassoc (ext.Fdowncase name) s.Vfontset_alias_alist
            = .cons (.str key) rest ∧ re = false ∧ s1 = s) ∨
        ((∀ aliased rest, Frassoc (ext.Fdowncase name) s.Vfontset_alias_alist
            ≠ .cons (.str aliased) rest) ∧
          ∃ r, fontset_pattern_regexp s (ext.Fdowncase name) = some (r, s1) ∧
            ((r = .str key ∧ re = true) ∨
              ((∀ regex, r ≠ .str regex) ∧ key = ext.Fdowncase name ∧ re = false)))) := by
  unfold fs_query_fontset at h
  have hloop : ∀ (key : List Char) (re : Bool) (s0 : Globals), same_fontsets s s0 →
      (match fs_query_fontset_loop ext s0.heap key re s0.Vfontset_table 0 with
        | none => none
        | some id => some (id, s0)) = some (id, s1) →
      s0 = s1 ∧ fs_query_fontset_loop ext s.heap key re s.Vfontset_table 0 = some id := by
    intro key re s0 hs h0
    rw [hs.1, hs.2.2.1] at h0
    cases hl : fs_query_fontset_loop ext s.heap key re s.Vfontset_table 0 with
    | none => rw [hl] at h0; cases h0
    | some r =>
      rw [hl] at h0
      simp only [Option.some.injEq, Prod.mk.injEq] at h0
      exact ⟨h0.2, by rw [h0.1]⟩
  cases regexpp with
  | true =>
    simp only [Bool.not_true, Bool.false_eq_true, if_false] at h
    obtain ⟨h1, h2⟩ := hloop _ _ s (same_fontsets_refl s) h
    exact ⟨_, _, h2, fun _ => ⟨rfl, rfl, h1.symm⟩, fun hc => (by cases hc)⟩
  | false =>
    simp only [Bool.not_false, if_true] at h
    have hpat : ∀ (r : Lisp_Object) (sx : Globals),
        (match (some (r, sx) : Option (Lisp_Object × Globals)) with
          | none => (none : Option (List Char × Bool × Globals))
          | some (.str regex, s1) => some (regex, true, s1)
          | some (_, s1) => some (ext.Fdowncase name, false, s1)) =
          some ((match r with | .str regex => regex | _ => ext.Fdowncase name),
            (match r with | .str _ => true | _ => false), sx) := by
      intro r sx
      cases r <;> rfl
    have hrest : (∀ aliased rest, Frassoc (ext.Fdowncase name) s.Vfontset_alias_alist
            ≠ .cons (.str aliased) rest) →
        (match
          (match fontset_pattern_regexp s (ext.Fdowncase name) with
            | none => (none : Option (List Char × Bool × Globals))
            | some (.str regex, s1) => some (regex, true, s1)
            | some (_, s1) => some (ext.Fdowncase name, false, s1)) with
          | none => none
          | some (name, regexpp, s1) =>
            match fs_query_fontset_loop ext s1.heap name regexpp s1.Vfontset_table 0 with
            | none => none
            | some id => some (id, s1)) = some (id, s1) →
        ∃ key re, fs_query_fontset_loop ext s.heap key re s.Vfontset_table 0 = some id ∧
          (false = true → key = ext.Fdowncase name ∧ re = true ∧ s1 = s) ∧
          (false = false →
            (∃ rest, Frassoc (ext.Fdowncase name) s.Vfontset_alias_alist
                = .cons (.str key) rest ∧ re = false ∧ s1 = s) ∨
            ((∀ aliased rest, Frassoc (ext.Fdowncase name) s.Vfontset_alias_alist
                ≠ .cons (.str aliased) rest) ∧
              ∃ r, fontset_pattern_regexp s (ext.Fdowncase name) = some (r, s1) ∧
                ((r = .str key ∧ re = true) ∨
                  ((∀ regex, r ≠ .str regex) ∧ key = ext.Fdowncase name ∧ re = false)))) := by
      intro hal h1
      cases hp : fontset_pattern_regexp s (ext.Fdowncase name) with
      | none => rw [hp] at h1; cases h1
      | some rs =>
        obtain ⟨r, sx⟩ := rs
        rw [hp, hpat r sx] at h1
        have hsame := (fontset_pattern_regexp_spec s sx _ r hp).1
        obtain ⟨hsx, hl⟩ := hloop _ _ sx hsame h1
        subst hsx
        refine ⟨_, _, hl, fun hc => (by cases hc), fun _ => Or.inr ⟨hal, r, rfl, ?_⟩⟩
        cases r with
        | str regex => exact Or.inl ⟨rfl, rfl⟩
        | _ => exact Or.inr ⟨fun regex hc => (by cases hc), rfl, rfl⟩
    cases hr : Frassoc (ext.Fdowncase name) s.Vfontset_alias_alist with
    | cons a b =>
      rw [hr] at h
      cases a with
      | str aliased =>
        obtain ⟨h1, h2⟩ := hloop aliased false s (same_fontsets_refl s) h
        exact ⟨aliased, false, h2, fun hc => (by cases hc),
          fun _ => Or.inl ⟨b, rfl, rfl, h1.symm⟩⟩
      | _ =>
        have hal : ∀ aliased rest, Frassoc (ext.Fdowncase name) s.Vfontset_alias_alist
            ≠ .cons (.str aliased) rest := by
          intro aliased rest hc
          rw [hr] at hc
          cases hc
        rw [← hr]
        exact hrest hal h
    | _ =>
      have hal : ∀ aliased rest, Frassoc (ext.Fdowncase name) s.Vfontset_alias_alist
          ≠ .cons (.str aliased) rest := by
        intro aliased rest hc
        rw [hr] at hc
        cases hc
      rw [hr] at h
      rw [← hr]
      exact hrest hal h

/-- A lookup by name that finds a fontset finds a base fontset. -/
theorem fs_query_fontset_base (ext : Externals) (s s1 : Globals) (name : List Char)
    (regexpp : Bool) (id : Int) (h : fs_query_fontset ext s name regexpp = some (id, s1))
    (hid : ¬ id < 0) :
    ∃ a, FONTSET_FROM_ID s id = some a ∧ BASE_FONTSET_P (s.heap a) = true := by
  obtain ⟨key, re, hl, _⟩ := fs_query_fontset_shape ext s s1 name regexpp id h
  rcases fs_query_fontset_loop_base ext s.heap key re s.Vfontset_table 0 id hl with h1 | ⟨h0, a, h2, h3⟩
  · omega
  · refine ⟨a, ?_, h3⟩
    rw [FONTSET_FROM_ID_iff]
    refine ⟨h0, ?_⟩
    simpa using h2

/-- The fontset that `check_fontset_name` returns has no base, when the
default fontset has none. -/
theorem check_fontset_name_base (ext : Externals) (s s0 : Globals) (name : Lisp_Object)
    (fontset : Nat) (hd : BASE_FONTSET_P (s.heap s.Vdefault_fontset) = true)
    (h : check_fontset_name ext s name = .value fontset s0) :
    BASE_FONTSET_P (s.heap fontset) = true := by
  unfold check_fontset_name at h
  cases name with
  | t =>
    simp only [Outcome.value.injEq] at h
    rw [← h.1]; exact hd
  | str data =>
    simp only at h
    cases hq : fs_query_fontset ext s data false with
    | none => rw [hq] at h; cases h
    | some r =>
      obtain ⟨id, sx⟩ := r
      rw [hq] at h
      simp only at h
      by_cases hid : id < 0
      · rw [if_pos hid] at h; cases h
      · rw [if_neg hid] at h
        obtain ⟨a, ha, hb⟩ := fs_query_fontset_base ext s sx data false id hq hid
        have hsame := fs_query_fontset_same ext s sx data false id hq
        have ha' : FONTSET_FROM_ID sx id = some a := by
          unfold FONTSET_FROM_ID at ha ⊢
          rw [hsame.2.2.1]; exact ha
        rw [ha'] at h
        simp only [Outcome.value.injEq] at h
        rw [← h.1]; exact hb
  | _ => cases h

/-- The state after a call of `Fset_fontset_font` that returns, with the
element that was stored. -/
theorem Fset_fontset_font_value_elt (ext : Externals) (s s1 : Globals)
    (name ch fontname frame v : Lisp_Object)
    (h : Fset_fontset_font ext s name ch fontname frame = .value v s1) :
    ∃ fontset s0 from_ to_ elt data, check_fontset_name ext s name = .value fontset s0 ∧
      Fset_fontset_font_elt s0 fontset from_ (ext.Fdowncase data) = some elt ∧
      s1 = Fset_fontset_font_store ext s0 fontset from_ to_ elt := by
  unfold Fset_fontset_font at h
  cases hcheck : check_fontset_name ext s name with
  | undefined => rw [hcheck] at h; cases h
  | signal err s0 => rw [hcheck] at h; cases h
  | value fontset s0 =>
    rw [hcheck] at h
    simp only at h
    cases hrange : Fset_fontset_font_range ext name ch with
    | error err => rw [hrange] at h; cases h
    | ok r =>
      obtain ⟨from_, to_⟩ := r
      rw [hrange] at h
      simp only at h
      cases fontname with
      | str data =>
        simp only at h
        cases helt : Fset_fontset_font_elt s0 fontset from_ (ext.Fdowncase data) with
        | none => rw [helt] at h; cases h
        | some elt =>
          rw [helt] at h
          simp only at h
          by_cases hf : (!Fset_fontset_font_frame ext frame) = true
          · rw [if_pos hf] at h; cases h
          · rw [if_neg hf] at h
            simp only [Outcome.value.injEq] at h
            exact ⟨fontset, s0, from_, to_, elt, data, rfl, helt, h.2.symm⟩
      | _ => cases h

theorem font_entry_p_Fset_fontset_font_elt (s : Globals) (fontset : Nat) (from_ : Int)
    (fontname : List Char) (elt : Lisp_Object)
    (h : Fset_fontset_font_elt s fontset from_ fontname = some elt) :
    font_entry_p elt = true := by
  rw [Fset_fontset_font_elt_some s fontset from_ fontname elt h]
  by_cases hd : fontset = s.Vdefault_fontset
  · rw [if_pos hd]; rfl
  · rw [if_neg hd]
    exact font_spec_p_font_family_registry fontname

theorem Fset_fontset_font_loop_typed (ext : Externals) (elt : Lisp_Object) (n : Nat)
    (from_ : Int) (fontset : Lisp_Char_Table) (P : Lisp_Object → Bool)
    (hP : ∀ defalt contents, P (.sub_char_table defalt contents) = false) (hv : P elt = true)
    (h : store_typed P fontset) :
    store_typed P (Fset_fontset_font_loop ext elt n from_ fontset) := by
  induction n generalizing from_ fontset with
  | zero => exact h
  | succ n ih =>
    unfold Fset_fontset_font_loop
    exact ih _ _ (store_typed_fontset_set P hP _ _ _ _ hv h)

theorem fontsets_inv_Fset_fontset_font (ext : Externals) (s s1 : Globals)
    (name ch fontname frame v : Lisp_Object) (hopt : optimize_keeps_typed ext)
    (hinv : fontsets_inv s)
    (h : Fset_fontset_font ext s name ch fontname frame = .value v s1) : fontsets_inv s1 := by
  obtain ⟨fontset, s0, from_, to_, elt, data, hcheck, helt, hs1⟩ :=
    Fset_fontset_font_value_elt ext s s1 name ch fontname frame v h
  have hsame := (check_fontset_name_same ext s name).1 fontset s0 hcheck
  have h0 := fontsets_inv_of_same s s0 hinv hsame
  have hbase : BASE_FONTSET_P (s0.heap fontset) = true := by
    rw [hsame.1]
    exact check_fontset_name_base ext s s0 name fontset hinv.2.1 hcheck
  have hentry := font_entry_p_Fset_fontset_font_elt s0 fontset from_ _ elt helt
  have hfields := Fset_fontset_font_loop_fields ext elt (to_ - from_ + 1).toNat from_
    (s0.heap fontset)
  have hoptf := hopt (Fset_fontset_font_loop ext elt (to_ - from_ + 1).toNat from_
    (s0.heap fontset))
  rw [hs1]
  apply fontsets_inv_update s0 _ h0
  · rfl
  · rfl
  · intro i x hi; exact hi
  · intro b
    unfold Fset_fontset_font_store
    simp only
    have hstored : ∀ x,
        FONTSET_BASE ((heap_store s0 fontset (ext.Foptimize_char_table
          (Fset_fontset_font_loop ext elt (to_ - from_ + 1).toNat from_
            (s0.heap fontset)))).heap x) = FONTSET_BASE (s0.heap x) ∧
        FONTSET_NAME ((heap_store s0 fontset (ext.Foptimize_char_table
          (Fset_fontset_font_loop ext elt (to_ - from_ + 1).toNat from_
            (s0.heap fontset)))).heap x) = FONTSET_NAME (s0.heap x) ∧
        (BASE_FONTSET_P (s0.heap x) = true → store_typed font_entry_p (s0.heap x) →
          store_typed font_entry_p ((heap_store s0 fontset (ext.Foptimize_char_table
            (Fset_fontset_font_loop ext elt (to_ - from_ + 1).toNat from_
              (s0.heap fontset)))).heap x)) ∧
        (BASE_FONTSET_P (s0.heap x) = false → store_typed face_id_p (s0.heap x) →
          store_typed face_id_p ((heap_store s0 fontset (ext.Foptimize_char_table
            (Fset_fontset_font_loop ext elt (to_ - from_ + 1).toNat from_
              (s0.heap fontset)))).heap x)) := by
      intro x
      by_cases hx : x = fontset
      · subst hx
        rw [heap_store_heap_same]
        refine ⟨hoptf.2.1.trans hfields.2, hoptf.1.trans hfields.1, ?_, ?_⟩
        · intro _ ht
          exact hoptf.2.2 font_entry_p font_entry_p_sub
            (Fset_fontset_font_loop_typed ext elt _ _ _ font_entry_p font_entry_p_sub hentry ht)
        · intro hf
          rw [hbase] at hf
          cases hf
      · rw [heap_store_heap_other _ _ _ _ hx]
        exact ⟨rfl, rfl, fun _ t => t, fun _ t => t⟩
    rcases (Fset_fontset_font_clear_spec fontset
      (heap_store s0 fontset (ext.Foptimize_char_table
        (Fset_fontset_font_loop ext elt (to_ - from_ + 1).toNat from_
          (s0.heap fontset)))).Vfontset_table
      (heap_store s0 fontset (ext.Foptimize_char_table
        (Fset_fontset_font_loop ext elt (to_ - from_ + 1).toNat from_
          (s0.heap fontset)))).heap b).2 with hc | hc
    · rw [hc]
      exact hstored b
    · rw [hc]
      obtain ⟨e1, e2, e3, e4⟩ := hstored b
      exact ⟨e1, e2, fun hb ht => store_typed_clear_fontset_elements _ _ (e3 hb ht),
        fun hb ht => store_typed_clear_fontset_elements _ _ (e4 hb ht)⟩

/-- The invariant of the fontsets holds in every reachable state, when the
optimization of a char table keeps the kinds of its values. -/
theorem fontsets_inv_of_reachable (ext : Externals) (s : Globals)
    (hopt : optimize_keeps_typed ext) (h : Fontset_Reachable ext s) : fontsets_inv s := by
  induction h with
  | init => exact fontsets_inv_syms_of_fontset
  | new_fontset s s1 name fontlist v _ hstep ih =>
    exact fontsets_inv_Fnew_fontset ext s s1 name fontlist v ih hstep
  | new_fontset_error s s1 name fontlist err _ hstep ih =>
    exact fontsets_inv_of_same s s1 ih (Fnew_fontset_signal_same ext s s1 name fontlist err hstep)
  | set_fontset_font s s1 name ch fontname frame v _ hstep ih =>
    exact fontsets_inv_Fset_fontset_font ext s s1 name ch fontname frame v hopt ih hstep
  | set_fontset_font_error s s1 name ch fontname frame err _ hstep ih =>
    exact fontsets_inv_of_same s s1 ih
      (Fset_fontset_font_signal_same ext s s1 name ch fontname frame err hstep)
  | ascii_face s s1 f base_fontset_id id _ hstep ih =>
    exact fontsets_inv_make_fontset_for_ascii_face s s1 f base_fontset_id id ih hstep
  | face_for_char s lookup_face id c r _ hstep ih =>
    exact fontsets_inv_face_for_char _ lookup_face s id c r ih hstep
  | free s id _ ih => exact fontsets_inv_free_face_fontset s id ih
  | set_alias s v _ ih =>
    apply fontsets_inv_update s _ ih
    · rfl
    · rfl
    · intro i a hi; exact hi
    · intro b
      exact ⟨rfl, rfl, fun _ t => t, fun _ t => t⟩

/-- A realized fontset made from the id of a realized fontset has the base of
that fontset. -/
theorem make_fontset_for_ascii_face_of_realized (s s1 : Globals) (f : Nat) (id id1 : Int)
    (a b : Nat) (ha : FONTSET_FROM_ID s id = some a) (hb : FONTSET_BASE (s.heap a) = some b)
    (h : make_fontset_for_ascii_face s f id = some (id1, s1)) :
    ∃ a1, FONTSET_FROM_ID s1 id1 = some a1 ∧ FONTSET_BASE (s1.heap a1) = some b := by
  have hid : 0 ≤ id := ((FONTSET_FROM_ID_iff s id a).1 ha).1
  have hnb : BASE_FONTSET_P (s.heap a) = false := by
    unfold BASE_FONTSET_P
    rw [hb]; rfl
  unfold make_fontset_for_ascii_face at h
  simp only at h
  rw [if_pos hid, ha] at h
  simp only [hnb, Bool.not_false, if_true, hb] at h
  cases hm : make_fontset s (.frame f) .nil (some b) with
  | none => rw [hm] at h; cases h
  | some r =>
    obtain ⟨a1, s2⟩ := r
    rw [hm] at h
    simp only at h
    obtain ⟨id2, h0, hlt, _, ha1, htab, _, _, hheap, _⟩ := make_fontset_some s s2 _ _ _ a1 hm
    have hnew : s2.heap a1 = { Fmake_char_table with
        id := .int id2, name := .nil, frame := .frame f, parent := some b } := by
      rw [hheap, ha1]
      simp only [if_true]
      rfl
    rw [hnew] at h
    simp only [FONTSET_ID, Option.some.injEq, Prod.mk.injEq] at h
    obtain ⟨hid2, hs⟩ := h
    subst hs
    subst hid2
    refine ⟨a1, ?_, by rw [hnew]; rfl⟩
    unfold FONTSET_FROM_ID
    rw [htab, AREF_ASET]
    have hsz : id2 < ASIZE (if id2 + 1 = ASIZE s.Vfontset_table
        then s.Vfontset_table ++ List.replicate 8 none else s.Vfontset_table) := by
      by_cases hg : id2 + 1 = ASIZE s.Vfontset_table
      · rw [if_pos hg, ASIZE_append_replicate]; omega
      · rw [if_neg hg]; exact hlt
    rw [if_pos ⟨rfl, h0, hsz⟩]
    rfl

theorem optimize_keeps_typed_sample : optimize_keeps_typed sample_externals :=
  fun _ => ⟨rfl, rfl, fun _ _ h => h⟩

/-- The state with a font in the default fontset, a realized fontset of the
default fontset and a face cached in it is reachable. -/
theorem realized_of_default_cached_reachable :
    Fontset_Reachable sample_externals realized_of_default_cached := by
  have h1 : Fontset_Reachable sample_externals default_with_charset :=
    Fontset_Reachable.set_fontset_font syms_of_fontset default_with_charset .t (.int 49152)
      (.str "jisx0208".toList) .nil .nil Fontset_Reachable.init rfl
  have e2 : make_fontset_for_ascii_face default_with_charset 0 (-1)
      = some ((0 : Int), realized_of_default) := rfl
  have h2 : Fontset_Reachable sample_externals realized_of_default :=
    Fontset_Reachable.ascii_face default_with_charset realized_of_default 0 (-1) 0 h1 e2
  have e3 : face_for_char sample_externals.SPLIT_NON_ASCII_CHAR (fun _ => 5)
      realized_of_default 0 55329 = some ⟨5, [49152], realized_of_default_cached⟩ := rfl
  exact Fontset_Reachable.face_for_char realized_of_default (fun _ => 5) 0 55329
    ⟨5, [49152], realized_of_default_cached⟩ h2 e3

/-- Claim C26.  When the optimization of a char table keeps the fontset, in
every state reachable by the entry points every fontset in the table either
has no base and has a string as its name, or has a base that has no base
itself, as the default fontset has none; and `make_fontset_for_ascii_face`
with the id of a realized fontset makes a fontset whose base is the base of
that fontset. -/
theorem two_tier_hierarchy (ext : Externals) (s : Globals) (hopt : optimize_keeps_typed ext)
    (h : Fontset_Reachable ext s) :
    (∀ i a, FONTSET_FROM_ID s i = some a →
      (BASE_FONTSET_P (s.heap a) = true ∧ ∃ this_name, FONTSET_NAME (s.heap a) = .str this_name) ∨
      (∃ b, FONTSET_BASE (s.heap a) = some b ∧ BASE_FONTSET_P (s.heap b) = true)) ∧
    BASE_FONTSET_P (s.heap s.Vdefault_fontset) = true ∧
    (∀ f id id1 s1 a b, FONTSET_FROM_ID s id = some a → FONTSET_BASE (s.heap a) = some b →
      make_fontset_for_ascii_face s f id = some (id1, s1) →
      ∃ a1, FONTSET_FROM_ID s1 id1 = some a1 ∧ FONTSET_BASE (s1.heap a1) = some b ∧
        BASE_FONTSET_P (s1.heap b) = true) := by
  have hinv := fontsets_inv_of_reachable ext s hopt h
  refine ⟨?_, hinv.2.1, ?_⟩
  · intro i a ha
    cases hp : FONTSET_BASE (s.heap a) with
    | none =>
      have hb : BASE_FONTSET_P (s.heap a) = true := by
        unfold BASE_FONTSET_P
        rw [hp]; rfl
      exact Or.inl ⟨hb, (hinv.2.2.1 i a ha).2 hb⟩
    | some b => exact Or.inr ⟨b, rfl, (hinv.2.2.2.1 a b hp).2⟩
  · intro f id id1 s1 a b ha hb hm
    obtain ⟨a1, h1, h2⟩ := make_fontset_for_ascii_face_of_realized s s1 f id id1 a b ha hb hm
    have hinv1 := fontsets_inv_of_reachable ext s1 hopt
      (Fontset_Reachable.ascii_face s s1 f id id1 h hm)
    exact ⟨a1, h1, h2, (hinv1.2.2.2.1 a1 b h2).2⟩

/-- Claim C26 at the state with a realized fontset of the default fontset:
the fontset of the id 0 has the default fontset as its base, which has no
base, and a realized fontset made from the id 0 has the default fontset as
its base too. -/
theorem two_tier_hierarchy_witness :
    FONTSET_FROM_ID realized_of_default_cached 0 = some 1 ∧
    FONTSET_BASE (realized_of_default_cached.heap 1) = some 0 ∧
    BASE_FONTSET_P (realized_of_default_cached.heap 0) = true ∧
    ∃ a1, FONTSET_FROM_ID (ascii_face_state realized_of_default_cached 0 0) 1 = some a1 ∧
      FONTSET_BASE ((ascii_face_state realized_of_default_cached 0 0).heap a1) = some 0 ∧
      BASE_FONTSET_P ((ascii_face_state realized_of_default_cached 0 0).heap 0) = true :=
  ⟨rfl, rfl,
    (two_tier_hierarchy sample_externals realized_of_default_cached optimize_keeps_typed_sample
      realized_of_default_cached_reachable).2.1,
    (two_tier_hierarchy sample_externals realized_of_default_cached optimize_keeps_typed_sample
      realized_of_default_cached_reachable).2.2 0 0 1
      (ascii_face_state realized_of_default_cached 0 0) 1 0 rfl rfl rfl⟩

/-- Claim C27.  When the optimization of a char table keeps the kinds of its
values, in every state reachable by the entry points the store of every
realized fontset in the table holds nil or a face id at each of its
positions, and the store of every base fontset in the table and of the
default fontset holds nil or a cons of a key and a font, which is a font
name or a cons of a family and a registry. -/
theorem store_typing (ext : Externals) (s : Globals) (hopt : optimize_keeps_typed ext)
    (h : Fontset_Reachable ext s) :
    (∀ i a, FONTSET_FROM_ID s i = some a →
      (BASE_FONTSET_P (s.heap a) = false → store_typed face_id_p (s.heap a)) ∧
      (BASE_FONTSET_P (s.heap a) = true → store_typed font_entry_p (s.heap a))) ∧
    store_typed font_entry_p (s.heap s.Vdefault_fontset) := by
  have hinv := fontsets_inv_of_reachable ext s hopt h
  exact ⟨fun _ a _ => ⟨(hinv.2.2.2.2 a).2, (hinv.2.2.2.2 a).1⟩,
    (hinv.2.2.2.2 s.Vdefault_fontset).1 hinv.2.1⟩

/-- Claim C27 at the state with a font in the default fontset and a face
cached in a realized fontset: the realized fontset holds the face id 5 for
the charset 0x92 and its store holds face ids; the default fontset holds a
cons of a key and a font there and its store holds such elements. -/
theorem store_typing_witness :
    fontset_ref SPLIT_NON_ASCII_CHAR (realized_of_default_cached.heap 1) 49152 = .int 5 ∧
    fontset_ref SPLIT_NON_ASCII_CHAR (realized_of_default_cached.heap 0) 49152
      = .cons (.int 49152) (.cons .nil (.str "jisx0208".toList)) ∧
    store_typed face_id_p (realized_of_default_cached.heap 1) ∧
    store_typed font_entry_p
      (realized_of_default_cached.heap realized_of_default_cached.Vdefault_fontset) :=
  ⟨rfl, rfl,
    ((store_typing sample_externals realized_of_default_cached optimize_keeps_typed_sample
      realized_of_default_cached_reachable).1 0 1 rfl).1 rfl,
    (store_typing sample_externals realized_of_default_cached optimize_keeps_typed_sample
      realized_of_default_cached_reachable).2⟩

/-! ## Theorems: the names of the base fontsets -/

theorem names_ok_of_fontsets_inv (s : Globals) (h : fontsets_inv s) : names_ok s :=
  fun i a hi hb => (h.2.2.1 i a hi).2 hb

/-- A lookup by name that returns, in a state whose cache is as
`fontset_pattern_regexp` leaves it: the cache is so afterwards, and the id is
the result of the loop over the table with the key of the lookup. -/
theorem fs_query_fontset_of_some (ext : Externals) (s s1 : Globals) (name : List Char)
    (regexpp : Bool) (id : Int) (hok : cache_ok s)
    (h : fs_query_fontset ext s name regexpp = some (id, s1)) :
    cache_ok s1 ∧
    fs_query_fontset_loop ext s.heap (lookup_key ext s name regexpp).1
      (lookup_key ext s name regexpp).2 s.Vfontset_table 0 = some id := by
  obtain ⟨key, re, hl, h1, h2⟩ := fs_query_fontset_shape ext s s1 name regexpp id h
  unfold lookup_key
  cases regexpp with
  | true =>
    obtain ⟨e1, e2, e3⟩ := h1 rfl
    simp only [if_true]
    rw [e3]
    exact ⟨hok, by rw [← e1, ← e2]; exact hl⟩
  | false =>
    simp only [Bool.false_eq_true, if_false]
    rcases h2 rfl with ⟨rest, hr, e2, e3⟩ | ⟨hal, r, hp, hcases⟩
    · rw [hr, e3]
      exact ⟨hok, by rw [← e2]; exact hl⟩
    · obtain ⟨_, hok1, hnw, hw⟩ := fontset_pattern_regexp_spec s s1 _ r hp
      refine ⟨hok1 hok, ?_⟩
      have hna : (match Frassoc (ext.Fdowncase name) s.Vfontset_alias_alist with
          | .cons (.str aliased) _ => (aliased, false)
          | _ =>
            if has_wildcard (c_string (ext.Fdowncase name)) then
              (pattern_regex (c_string (ext.Fdowncase name)), true)
            else (ext.Fdowncase name, false)) =
          if has_wildcard (c_string (ext.Fdowncase name)) then
            (pattern_regex (c_string (ext.Fdowncase name)), true)
          else (ext.Fdowncase name, false) := by
        cases hr : Frassoc (ext.Fdowncase name) s.Vfontset_alias_alist with
        | cons x y =>
          cases x with
          | str aliased => exact absurd hr (hal aliased y)
          | _ => rfl
        | _ => rfl
      rw [hna]
      by_cases hwild : has_wildcard (c_string (ext.Fdowncase name))
      · rw [if_pos hwild]
        have hr := hw hwild hok
        rcases hcases with ⟨e1, e2⟩ | ⟨e1, _, _⟩
        · rw [hr] at e1
          have hk : key = pattern_regex (c_string (ext.Fdowncase name)) := by
            cases e1; rfl
          rw [← hk, ← e2]; exact hl
        · exact absurd hr (e1 _)
      · rw [if_neg hwild]
        have hr := (hnw hwild).1
        rcases hcases with ⟨e1, _⟩ | ⟨_, e2, e3⟩
        · rw [hr] at e1; cases e1
        · rw [← e2, ← e3]; exact hl

/-- When `Fquery_fontset` returns nil for a pattern that is not empty, no base
fontset of the table matches the key of the lookup. -/
theorem Fquery_fontset_nil (ext : Externals) (s s0 : Globals) (pattern : List Char)
    (tem : Lisp_Object) (hok : cache_ok s) (hnames : names_ok s)
    (hlen : pattern.length ≠ 0)
    (h : Fquery_fontset ext s (.str pattern) .nil = .value tem s0) (ht : NILP tem = true) :
    cache_ok s0 ∧ same_fontsets s s0 ∧
    ¬ ∃ i, base_entry_matches ext s (lookup_key ext s pattern false).1
      (lookup_key ext s pattern false).2 i := by
  have hsame := Fquery_fontset_value_same ext s s0 _ _ _ h
  unfold Fquery_fontset at h
  simp only [hlen, if_false] at h
  have hnil : (!NILP Lisp_Object.nil) = false := rfl
  rw [hnil] at h
  cases hq : fs_query_fontset ext s pattern false with
  | none => rw [hq] at h; cases h
  | some r =>
    obtain ⟨id, sx⟩ := r
    rw [hq] at h
    simp only at h
    obtain ⟨hok1, hl⟩ := fs_query_fontset_of_some ext s sx pattern false id hok hq
    obtain ⟨r, hr, hiff, hmin⟩ := fs_query_fontset_loop_table ext s
      (lookup_key ext s pattern false).1 (lookup_key ext s pattern false).2 hnames
    rw [hl] at hr
    have hrid : r = id := (Option.some.inj hr).symm
    subst hrid
    by_cases hid : r < 0
    · rw [if_pos hid] at h
      simp only [Outcome.value.injEq] at h
      rw [← h.2]
      refine ⟨hok1, fs_query_fontset_same ext s sx pattern false r hq, ?_⟩
      by_cases hr1 : r = -1
      · exact hiff.1 hr1
      · obtain ⟨⟨a, nm, ha, _⟩, _⟩ := hmin hr1
        have := ((FONTSET_FROM_ID_iff s r a).1 ha).1
        omega
    · rw [if_neg hid] at h
      obtain ⟨a, ha, hb⟩ := fs_query_fontset_base ext s sx pattern false r hq hid
      have hsx := fs_query_fontset_same ext s sx pattern false r hq
      have ha' : FONTSET_FROM_ID sx r = some a := by
        unfold FONTSET_FROM_ID at ha ⊢
        rw [hsx.2.2.1]; exact ha
      rw [ha'] at h
      simp only [Outcome.value.injEq] at h
      obtain ⟨nm, hnm⟩ := hnames r a ha hb
      rw [hsx.1, hnm] at h
      rw [← h.1] at ht
      cases ht

theorem cache_ok_congr (s s1 : Globals)
    (h : s1.Vcached_fontset_data = s.Vcached_fontset_data) (hok : cache_ok s) : cache_ok s1 := by
  unfold cache_ok at hok ⊢
  rw [h]; exact hok

/-- The slots of the table after `make_fontset`: the slot of the new fontset,
and the slots that held a fontset before. -/
theorem make_fontset_table_cases (s s1 : Globals) (frame name : Lisp_Object)
    (base : Option Nat) (a : Nat) (h : make_fontset s frame name base = some (a, s1))
    (i : Int) (x : Nat) (hi : FONTSET_FROM_ID s1 i = some x) :
    (x = a ∧ FONTSET_FROM_ID s i = none) ∨ FONTSET_FROM_ID s i = some x := by
  obtain ⟨id, hid0, hidlt, hnil, _, htab, _⟩ := make_fontset_some s s1 frame name base a h
  unfold FONTSET_FROM_ID at hi
  rw [htab, AREF_ASET] at hi
  by_cases hc : id = i ∧ 0 ≤ id ∧ id < ASIZE (if id + 1 = ASIZE s.Vfontset_table
      then s.Vfontset_table ++ List.replicate 8 none else s.Vfontset_table)
  · rw [if_pos hc] at hi
    left
    refine ⟨(Option.some.inj hi).symm, ?_⟩
    unfold FONTSET_FROM_ID
    rw [← hc.1, hnil]
    rfl
  · rw [if_neg hc] at hi
    right
    unfold FONTSET_FROM_ID
    by_cases hg : id + 1 = ASIZE s.Vfontset_table
    · rw [if_pos hg, AREF_append_replicate] at hi
      by_cases hlt : i < ASIZE s.Vfontset_table
      · rw [if_pos hlt] at hi; exact hi
      · rw [if_neg hlt] at hi
        split at hi <;> cases hi
    · rw [if_neg hg] at hi; exact hi

/-- A call of `Fnew_fontset` that returns, with a name that is not empty and
is matched by its own pattern, keeps the invariant of the fontsets, the
cache, the empty alias list and the distinct names of the base fontsets. -/
theorem names_distinct_Fnew_fontset (ext : Externals) (s s1 : Globals) (data : List Char)
    (fontlist v : Lisp_Object)
    (hidem : ext.Fdowncase (ext.Fdowncase data) = ext.Fdowncase data)
    (hinv : fontsets_inv s) (hok : cache_ok s) (hal : s.Vfontset_alias_alist = .nil)
    (hd : names_distinct s) (hlen : (ext.Fdowncase data).length ≠ 0)
    (hself : matches_itself ext (ext.Fdowncase data))
    (h : Fnew_fontset ext s (.str data) fontlist = .value v s1) :
    fontsets_inv s1 ∧ cache_ok s1 ∧ s1.Vfontset_alias_alist = .nil ∧ names_distinct s1 := by
  have hinv1 := fontsets_inv_Fnew_fontset ext s s1 _ fontlist v hinv h
  obtain ⟨data1, tem, s0, a, s2, elements, ascii_font, hname, hq, ht, hm, hs1⟩ :=
    Fnew_fontset_value ext s s1 _ fontlist v h
  have hdata : data1 = data := by cases hname; rfl
  subst hdata
  obtain ⟨hok0, hsame, hnone⟩ := Fquery_fontset_nil ext s s0 (ext.Fdowncase data1) tem hok
    (names_ok_of_fontsets_inv s hinv) hlen hq ht
  have halias : ∀ aliased rest, Frassoc (ext.Fdowncase (ext.Fdowncase data1))
      s.Vfontset_alias_alist ≠ .cons (.str aliased) rest := by
    intro aliased rest hc
    rw [hal] at hc
    cases hc
  rw [lookup_key_no_alias ext s _ halias, hidem] at hnone
  -- no base fontset has the new name
  have hfresh : ∀ i x m, FONTSET_FROM_ID s i = some x → BASE_FONTSET_P (s.heap x) = true →
      FONTSET_NAME (s.heap x) = .str m → c_string (ext.Fdowncase data1) ≠ c_string m := by
    intro i x m hi hb hn heq
    apply hnone
    refine ⟨i, x, m, hi, hb, hn, ?_⟩
    unfold name_matches
    by_cases hw : has_wildcard (c_string (ext.Fdowncase data1))
    · rw [if_pos hw]
      simp only [if_true, decide_eq_true_eq]
      rw [← heq]
      exact hself hw
    · rw [if_neg hw]
      simp only [Bool.false_eq_true, if_false, decide_eq_true_eq]
      exact heq
  obtain ⟨id, _, _, _, ha, _, _, _, hheap, _, hcache, halias2⟩ :=
    make_fontset_some s0 s2 _ _ _ a hm
  have hold : ∀ x, x < s.heap_size → s1.heap x = s.heap x := by
    intro x hx
    have hxa : x ≠ a := by rw [ha, hsame.2.1]; omega
    rw [hs1, heap_store_heap_other _ _ _ _ hxa, hheap]
    have : x ≠ s0.heap_size := by rw [hsame.2.1]; omega
    simp only [this, if_false]
    rw [hsame.1]
  have hnewname : FONTSET_NAME (s1.heap a) = .str (ext.Fdowncase data1) := by
    rw [hs1, heap_store_heap_same]
    rw [(Fnew_fontset_store_spec ext elements _).1]
    rw [hheap, ha]
    simp only [if_true]
    rfl
  have hslots : ∀ i x, FONTSET_FROM_ID s1 i = some x →
      (x = a ∧ FONTSET_FROM_ID s i = none) ∨ (FONTSET_FROM_ID s i = some x ∧ x < s.heap_size) := by
    intro i x hi
    have hi2 : FONTSET_FROM_ID s2 i = some x := by rw [hs1] at hi; exact hi
    rcases make_fontset_table_cases s0 s2 _ _ _ a hm i x hi2 with ⟨h1, h2⟩ | h1
    · left
      refine ⟨h1, ?_⟩
      unfold FONTSET_FROM_ID at h2 ⊢
      rw [← hsame.2.2.1]; exact h2
    · right
      have h1' : FONTSET_FROM_ID s i = some x := by
        unfold FONTSET_FROM_ID at h1 ⊢
        rw [← hsame.2.2.1]; exact h1
      exact ⟨h1', (hinv.2.2.1 i x h1').1⟩
  refine ⟨hinv1, ?_, ?_, ?_⟩
  · apply cache_ok_congr s0 s1 _ hok0
    rw [hs1]
    exact hcache
  · rw [hs1]
    have : (heap_store s2 a (Fnew_fontset_store ext
        { s2.heap a with defalt := .cons (.int 0) (.str ascii_font) }
        elements)).Vfontset_alias_alist = s2.Vfontset_alias_alist := rfl
    rw [this, halias2, hsame.2.2.2.2.2, hal]
  · intro i j x y n m hij hi hj hbx hby hnx hny
    rcases hslots i x hi with ⟨hx, hin⟩ | ⟨hi', hxlt⟩
    · rcases hslots j y hj with ⟨hy, hjn⟩ | ⟨hj', hylt⟩
      · -- both are the new slot: the slot is the same
        exfalso
        obtain ⟨id1, _, _, _, _, htab, _⟩ := make_fontset_some s0 s2 _ _ _ a hm
        have hi2 : FONTSET_FROM_ID s2 i = some x := by rw [hs1] at hi; exact hi
        have hj2 : FONTSET_FROM_ID s2 j = some y := by rw [hs1] at hj; exact hj
        have key : ∀ k z, FONTSET_FROM_ID s2 k = some z → FONTSET_FROM_ID s k = none →
            k = id1 := by
          intro k z hk hkn
          unfold FONTSET_FROM_ID at hk hkn
          rw [htab, AREF_ASET] at hk
          by_cases hc : id1 = k ∧ 0 ≤ id1 ∧ id1 < ASIZE (if id1 + 1 = ASIZE s0.Vfontset_table
              then s0.Vfontset_table ++ List.replicate 8 none else s0.Vfontset_table)
          · exact hc.1.symm
          · rw [if_neg hc] at hk
            exfalso
            rw [← hsame.2.2.1] at hkn
            by_cases hg : id1 + 1 = ASIZE s0.Vfontset_table
            · rw [if_pos hg, AREF_append_replicate] at hk
              by_cases hlt : k < ASIZE s0.Vfontset_table
              · rw [if_pos hlt, hkn] at hk; cases hk
              · rw [if_neg hlt] at hk
                split at hk <;> cases hk
            · rw [if_neg hg, hkn] at hk; cases hk
        exact hij ((key i x hi2 hin).trans (key j y hj2 hjn).symm)
      · rw [hx, hnewname] at hnx
        rw [hold y hylt] at hny hby
        cases hnx
        exact hfresh j y m hj' hby hny
    · rcases hslots j y hj with ⟨hy, hjn⟩ | ⟨hj', hylt⟩
      · rw [hy, hnewname] at hny
        rw [hold x hxlt] at hnx hbx
        cases hny
        exact fun heq => hfresh i x n hi' hbx hnx heq.symm
      · rw [hold x hxlt] at hnx hbx
        rw [hold y hylt] at hny hby
        exact hd i j x y n m hij hi' hj' hbx hby hnx hny

theorem Fquery_fontset_cache_ok (ext : Externals) (s : Globals) (pattern regexpp : Lisp_Object)
    (hok : cache_ok s) :
    (∀ v s1, Fquery_fontset ext s pattern regexpp = .value v s1 → cache_ok s1) ∧
    (∀ err s1, Fquery_fontset ext s pattern regexpp = .signal err s1 → cache_ok s1) := by
  unfold Fquery_fontset
  cases pattern with
  | str data =>
    simp only
    by_cases hlen : data.length = 0
    · simp only [hlen, if_true]
      exact ⟨fun _ _ h => (by cases h; exact hok), fun _ _ h => (by cases h)⟩
    · simp only [hlen, if_false]
      cases hq : fs_query_fontset ext s data (!NILP regexpp) with
      | none => exact ⟨fun _ _ h => (by cases h), fun _ _ h => (by cases h)⟩
      | some r =>
        obtain ⟨id, s0⟩ := r
        have hs := (fs_query_fontset_of_some ext s s0 data _ id hok hq).1
        simp only
        by_cases hid : id < 0
        · simp only [hid, if_true]
          exact ⟨fun _ _ h => (by cases h; exact hs), fun _ _ h => (by cases h)⟩
        · simp only [hid, if_false]
          cases FONTSET_FROM_ID s0 id with
          | none => exact ⟨fun _ _ h => (by cases h), fun _ _ h => (by cases h)⟩
          | some a => exact ⟨fun _ _ h => (by cases h; exact hs), fun _ _ h => (by cases h)⟩
  | _ => exact ⟨fun _ _ h => (by cases h), fun _ _ h => (by cases h; exact hok)⟩

theorem Fnew_fontset_signal_cache_ok (ext : Externals) (s s1 : Globals)
    (name fontlist : Lisp_Object) (err : Lisp_Error) (hok : cache_ok s)
    (h : Fnew_fontset ext s name fontlist = .signal err s1) : cache_ok s1 := by
  unfold Fnew_fontset at h
  cases name with
  | str data =>
    simp only at h
    by_cases hl : (NILP fontlist || CONSP fontlist) = true
    · simp only [hl, Bool.not_true, Bool.false_eq_true, if_false] at h
      have hq := Fquery_fontset_cache_ok ext s (.str (ext.Fdowncase data)) .nil hok
      cases hqv : Fquery_fontset ext s (.str (ext.Fdowncase data)) .nil with
      | undefined => rw [hqv] at h; cases h
      | signal e s0 => rw [hqv] at h; cases h; exact hq.2 _ _ hqv
      | value tem s0 =>
        rw [hqv] at h
        have hs := hq.1 _ _ hqv
        simp only at h
        by_cases ht : (!NILP tem) = true
        · simp only [ht, if_true] at h
          cases h; exact hs
        · simp only [ht, if_false] at h
          cases he : Fnew_fontset_elements ext fontlist [] none with
          | none => rw [he] at h; cases h; exact hs
          | some r =>
            obtain ⟨elements, ascii⟩ := r
            rw [he] at h
            cases ascii with
            | none => cases h; exact hs
            | some ascii_font =>
              simp only at h
              cases hm : make_fontset s0 .nil (.str (ext.Fdowncase data)) none with
              | none => rw [hm] at h; cases h
              | some r2 => rw [hm] at h; cases h
    · simp only [hl, Bool.not_false, if_true] at h
      cases h; exact hok
  | _ => cases h; exact hok

theorem names_distinct_of_same (s s1 : Globals) (h : same_fontsets s s1)
    (hd : names_distinct s) : names_distinct s1 := by
  obtain ⟨e1, _, e3, _⟩ := h
  intro i j a b n m hij hi hj hba hbb hna hnb
  unfold FONTSET_FROM_ID at hi hj
  rw [e3] at hi hj
  rw [e1] at hba hbb hna hnb
  exact hd i j a b n m hij hi hj hba hbb hna hnb

/-- The invariant of the states reachable by calls of `Fnew_fontset`. -/
theorem names_distinct_of_reachable (ext : Externals) (s : Globals)
    (hidem : ∀ data, ext.Fdowncase (ext.Fdowncase data) = ext.Fdowncase data)
    (h : New_Fontset_Reachable ext s) :
    fontsets_inv s ∧ cache_ok s ∧ s.Vfontset_alias_alist = .nil ∧ names_distinct s := by
  induction h with
  | init =>
    refine ⟨fontsets_inv_syms_of_fontset, trivial, rfl, ?_⟩
    intro i j a b n m _ hi
    have hmem := FONTSET_FROM_ID_mem syms_of_fontset i a hi
    simp [syms_of_fontset, List.mem_replicate] at hmem
  | new_fontset s s1 data fontlist v _ hlen hself hstep ih =>
    exact names_distinct_Fnew_fontset ext s s1 data fontlist v (hidem data) ih.1 ih.2.1
      ih.2.2.1 ih.2.2.2 hlen hself hstep
  | new_fontset_error s s1 name fontlist err _ hstep ih =>
    have hsame := Fnew_fontset_signal_same ext s s1 name fontlist err hstep
    refine ⟨fontsets_inv_of_same s s1 ih.1 hsame,
      Fnew_fontset_signal_cache_ok ext s s1 name fontlist err ih.2.1 hstep, ?_,
      names_distinct_of_same s s1 hsame ih.2.2.2⟩
    rw [hsame.2.2.2.2.2]
    exact ih.2.2.1

/-- Claim C29, amended.  In every state reachable by calls of `Fnew_fontset`
whose names are not empty after downcasing and are matched by their own
patterns, with a downcasing that changes no downcased name, no two slots of
the table hold base fontsets with the same name; the names differ as C
strings. -/
theorem new_fontset_names_unique (ext : Externals) (s : Globals)
    (hidem : ∀ data, ext.Fdowncase (ext.Fdowncase data) = ext.Fdowncase data)
    (h : New_Fontset_Reachable ext s) :
    ∀ i j a b, i ≠ j → FONTSET_FROM_ID s i = some a → FONTSET_FROM_ID s j = some b →
      BASE_FONTSET_P (s.heap a) = true → BASE_FONTSET_P (s.heap b) = true →
      (∃ n m, FONTSET_NAME (s.heap a) = .str n ∧ FONTSET_NAME (s.heap b) = .str m ∧
        c_string n ≠ c_string m) ∧
      FONTSET_NAME (s.heap a) ≠ FONTSET_NAME (s.heap b) := by
  obtain ⟨hinv, _, _, hd⟩ := names_distinct_of_reachable ext s hidem h
  intro i j a b hij hi hj hba hbb
  obtain ⟨n, hn⟩ := (hinv.2.2.1 i a hi).2 hba
  obtain ⟨m, hm⟩ := (hinv.2.2.1 j b hj).2 hbb
  have hne := hd i j a b n m hij hi hj hba hbb hn hm
  refine ⟨⟨n, m, hn, hm, hne⟩, ?_⟩
  rw [hn, hm]
  intro heq
  cases heq
  exact hne rfl

theorem downcase_byte_idem (ch : Char) : downcase_byte (downcase_byte ch) = downcase_byte ch := by
  have key : ∀ n, 65 ≤ n → n ≤ 90 →
      ¬ ('A' ≤ Char.ofNat (n + 32) ∧ Char.ofNat (n + 32) ≤ 'Z') := by
    intro n h1 h2
    interval_cases n <;> decide
  unfold downcase_byte
  by_cases h : 'A' ≤ ch ∧ ch ≤ 'Z'
  · rw [if_pos h]
    have h1 : 65 ≤ ch.toNat := h.1
    have h2 : ch.toNat ≤ 90 := h.2
    rw [if_neg (key ch.toNat h1 h2)]
  · rw [if_neg h, if_neg h]

theorem Fdowncase_idem_sample (data : List Char) :
    sample_externals.Fdowncase (sample_externals.Fdowncase data)
      = sample_externals.Fdowncase data := by
  show (data.map downcase_byte).map downcase_byte = data.map downcase_byte
  rw [List.map_map]
  apply List.map_congr_left
  intro ch _
  exact downcase_byte_idem ch

/-- The state with the base fontsets "foo-bar" and "abc*" is reachable by
calls of `Fnew_fontset`. -/
theorem fontset_foo_bar_abc_reachable :
    New_Fontset_Reachable sample_externals fontset_foo_bar_abc := by
  have e1 : Fnew_fontset sample_externals syms_of_fontset (.str "foo-bar".toList) ascii_fontlist
      = .value .nil fontset_foo_bar := rfl
  have h1 : New_Fontset_Reachable sample_externals fontset_foo_bar :=
    New_Fontset_Reachable.new_fontset syms_of_fontset fontset_foo_bar "foo-bar".toList
      ascii_fontlist .nil New_Fontset_Reachable.init (by decide)
      (fun hw => absurd hw (by decide)) e1
  have e2 : Fnew_fontset sample_externals fontset_foo_bar (.str "abc*".toList) ascii_fontlist
      = .value .nil fontset_foo_bar_abc := rfl
  exact New_Fontset_Reachable.new_fontset fontset_foo_bar fontset_foo_bar_abc "abc*".toList
    ascii_fontlist .nil h1 (by decide) (fun _ => by decide) e2

/-- The amended claim C29 at the state after the calls of `Fnew_fontset` with
the names "foo-bar" and "abc*": the fontsets of the ids 0 and 1 have
different names. -/
theorem new_fontset_names_unique_witness :
    FONTSET_FROM_ID fontset_foo_bar_abc 0 = some 1 ∧
    FONTSET_FROM_ID fontset_foo_bar_abc 1 = some 2 ∧
    FONTSET_NAME (fontset_foo_bar_abc.heap 1) = .str "foo-bar".toList ∧
    FONTSET_NAME (fontset_foo_bar_abc.heap 2) = .str "abc*".toList ∧
    FONTSET_NAME (fontset_foo_bar_abc.heap 1) ≠ FONTSET_NAME (fontset_foo_bar_abc.heap 2) :=
  ⟨rfl, rfl, rfl, rfl,
    (new_fontset_names_unique sample_externals fontset_foo_bar_abc Fdowncase_idem_sample
      fontset_foo_bar_abc_reachable 0 1 1 2 (by decide) rfl rfl rfl rfl).2⟩

/-- Claim C29, counterexample.  The state after two calls of `Fnew_fontset`
with the empty name in the initial state: both calls return, and the slots 0
and 1 of the table hold base fontsets with the same name, the empty string. -/
theorem new_fontset_empty_names_counterexample :
    Fnew_fontset sample_externals syms_of_fontset (.str []) ascii_fontlist
      = .value .nil fontset_empty_name ∧
    Fnew_fontset sample_externals fontset_empty_name (.str []) ascii_fontlist
      = .value .nil fontset_empty_name_twice ∧
    FONTSET_FROM_ID fontset_empty_name_twice 0 = some 1 ∧
    FONTSET_FROM_ID fontset_empty_name_twice 1 = some 2 ∧
    BASE_FONTSET_P (fontset_empty_name_twice.heap 1) = true ∧
    BASE_FONTSET_P (fontset_empty_name_twice.heap 2) = true ∧
    FONTSET_NAME (fontset_empty_name_twice.heap 1) = .str [] ∧
    FONTSET_NAME (fontset_empty_name_twice.heap 2) = .str [] :=
  ⟨rfl, rfl, rfl, rfl, rfl, rfl, rfl, rfl⟩

/-! ## Theorems: independent keys -/

/-- A write into a row at another second position code than the one read
leaves the read as it was. -/
theorem fontset_set_walk_row_apart (v row : Lisp_Object) (d2 c2 : Int)
    (hs : SUB_CHAR_TABLE_P v = false) (hd2 : d2 ≤ 0 ∨ 32 ≤ d2)
    (hne : (if c2 < 32 then none else some c2) ≠ (if d2 < 32 then none else some d2)) :
    fontset_ref_via_base_slot (.sub_char_table .nil (fun _ => fontset_set_walk v [d2, 0] row))
        32 c2
      = fontset_ref_via_base_slot (.sub_char_table .nil (fun _ => row)) 32 c2 := by
  by_cases hc2 : c2 < 32
  · rw [fontset_ref_via_base_slot_row _ _ _ _ (le_refl 32) hc2,
      fontset_ref_via_base_slot_row _ _ _ _ (le_refl 32) hc2]
    have hd2p : 0 < d2 := by
      by_contra hcon
      have hlt : d2 < 32 := by omega
      rw [if_pos hc2, if_pos hlt] at hne
      exact hne rfl
    rcases sub_char_table_cases row with ⟨df2, ct2, rfl⟩ | hrow
    · rw [fontset_set_walk_sub _ _ _ _ _ hd2p]
      rfl
    · rw [fontset_set_walk_leaf _ _ _ _ hd2p hrow]
      simp only [defalt_or_elt]
      exact (defalt_or_elt_of_not_sub row hrow).symm
  · have hc2' : 32 ≤ c2 := by omega
    by_cases hd2p : 0 < d2
    · have hd32 : ¬ d2 < 32 := by omega
      have he : ¬ c2 = d2 := by
        intro hcon
        rw [if_neg hc2, if_neg hd32, hcon] at hne
        exact hne rfl
      rcases sub_char_table_cases row with ⟨df2, ct2, rfl⟩ | hrow
      · rw [fontset_set_walk_sub _ _ _ _ _ hd2p,
          fontset_ref_via_base_slot_cell _ _ _ _ _ _ (le_refl 32) hc2' rfl,
          fontset_ref_via_base_slot_cell _ _ _ _ _ _ (le_refl 32) hc2' rfl]
        simp only [he, if_false]
      · rw [fontset_set_walk_leaf _ _ _ _ hd2p hrow,
          fontset_ref_via_base_slot_cell _ _ _ _ _ _ (le_refl 32) hc2' rfl,
          fontset_ref_via_base_slot_cell_leaf _ _ _ _ (le_refl 32) hc2' hrow]
        simp only [he, if_false]
    · rw [fontset_set_walk_stop _ _ _ _ (by omega)]
      rcases sub_char_table_cases row with ⟨df2, ct2, rfl⟩ | hrow
      · have hst : fontset_set_store v (.sub_char_table df2 ct2) = .sub_char_table v ct2 := rfl
        rw [hst, fontset_ref_via_base_slot_cell _ v _ ct2 _ _ (le_refl 32) hc2' rfl,
          fontset_ref_via_base_slot_cell _ df2 _ ct2 _ _ (le_refl 32) hc2' rfl]
      · rw [fontset_set_store_of_not_sub _ _ hrow,
          fontset_ref_via_base_slot_cell_leaf _ _ _ _ (le_refl 32) hc2' hs,
          fontset_ref_via_base_slot_cell_leaf _ _ _ _ (le_refl 32) hc2' hrow]

/-- A write into a charset slot at another pair of position codes than the
one read leaves the read as it was. -/
theorem fontset_set_walk_apart (v slot : Lisp_Object) (d1 d2 c1 c2 : Int)
    (hs : SUB_CHAR_TABLE_P v = false) (hd1 : d1 ≤ 0 ∨ 32 ≤ d1) (hd2 : d2 ≤ 0 ∨ 32 ≤ d2)
    (hne : (if c1 < 32 then none else some (c1, if c2 < 32 then none else some c2))
      ≠ (if d1 < 32 then none else some (d1, if d2 < 32 then none else some d2))) :
    fontset_ref_via_base_slot (fontset_set_walk v [d1, d2, 0] slot) c1 c2
      = fontset_ref_via_base_slot slot c1 c2 := by
  by_cases hd1p : 0 < d1
  · have hd32 : ¬ d1 < 32 := by omega
    rcases sub_char_table_cases slot with ⟨df, ct, rfl⟩ | hslot
    · rw [fontset_set_walk_sub _ _ _ _ _ hd1p]
      by_cases hc1 : c1 < 32
      · rw [fontset_ref_via_base_slot_generic _ _ _ hc1,
          fontset_ref_via_base_slot_generic _ _ _ hc1]
        rfl
      · have hc1' : 32 ≤ c1 := by omega
        rw [fontset_ref_via_base_slot_as_row _ _ _ _ hc1',
          fontset_ref_via_base_slot_as_row df ct _ _ hc1']
        by_cases he : c1 = d1
        · subst he
          simp only [if_true]
          apply fontset_set_walk_row_apart v (ct c1) d2 c2 hs hd2
          intro hcon
          apply hne
          rw [if_neg hc1, if_neg hc1, hcon]
        · simp only [he, if_false]
    · rw [fontset_set_walk_leaf _ _ _ _ hd1p hslot]
      by_cases hc1 : c1 < 32
      · rw [fontset_ref_via_base_slot_generic _ _ _ hc1,
          fontset_ref_via_base_slot_generic _ _ _ hc1, defalt_or_elt_of_not_sub slot hslot]
        rfl
      · have hc1' : 32 ≤ c1 := by omega
        rw [fontset_ref_via_base_slot_as_row _ _ _ _ hc1',
          fontset_ref_via_base_slot_leaf slot _ _ hc1' hslot]
        by_cases he : c1 = d1
        · subst he
          simp only [if_true]
          have hrow := fontset_set_walk_row_apart v .nil d2 c2 hs hd2
            (by
              intro hcon
              apply hne
              rw [if_neg hc1, if_neg hc1, hcon])
          rw [fontset_ref_via_base_slot_empty_row] at hrow
          exact hrow
        · simp only [he, if_false]
          exact fontset_ref_via_base_slot_empty_row c2
  · rw [fontset_set_walk_stop _ _ _ _ (by omega)]
    have hd32 : d1 < 32 := by omega
    have hc1' : 32 ≤ c1 := by
      by_contra hcon
      have hc1 : c1 < 32 := by omega
      rw [if_pos hc1, if_pos hd32] at hne
      exact hne rfl
    rcases sub_char_table_cases slot with ⟨df, ct, rfl⟩ | hslot
    · have hst : fontset_set_store v (.sub_char_table df ct) = .sub_char_table v ct := rfl
      rw [hst, fontset_ref_via_base_slot_as_row v ct _ _ hc1',
        fontset_ref_via_base_slot_as_row df ct _ _ hc1']
    · rw [fontset_set_store_of_not_sub _ _ hslot,
        fontset_ref_via_base_slot_leaf v _ _ hc1' hs,
        fontset_ref_via_base_slot_leaf slot _ _ hc1' hslot]

/-- A call of `fontset_set` keeps the base of the fontset. -/
theorem FONTSET_BASE_fontset_set (split_char : Int → Int × Int × Int)
    (fontset : Lisp_Char_Table) (c : Int) (v : Lisp_Object) :
    FONTSET_BASE (fontset_set split_char fontset c v) = FONTSET_BASE fontset := by
  unfold fontset_set FONTSET_BASE
  split <;> rfl

/-- A call of `fontset_set` at a key leaves the read at the exact position of
a key of another position as it was. -/
theorem fontset_set_apart (split_char : Int → Int × Int × Int) (fontset : Lisp_Char_Table)
    (k1 k2 : Int) (v : Lisp_Object) (hs : SUB_CHAR_TABLE_P v = false)
    (h2 : key_codes_ok split_char k2)
    (hne : key_position split_char k1 ≠ key_position split_char k2) :
    fontset_ref_via_base_slot
        ((fontset_set split_char fontset k2 v).contents ((split_char k1).1 + 128))
        (split_char k1).2.1 (split_char k1).2.2
      = fontset_ref_via_base_slot (fontset.contents ((split_char k1).1 + 128))
        (split_char k1).2.1 (split_char k1).2.2 := by
  cases hsb : SINGLE_BYTE_CHAR_P k2 with
  | true =>
    unfold fontset_set
    simp only [hsb, if_true]
  | false =>
    rw [fontset_set_multibyte_contents split_char fontset k2 v hsb]
    by_cases he : (split_char k1).1 + 128 = (split_char k2).1 + 128
    · simp only [he, if_true]
      rw [← he]
      apply fontset_set_walk_apart v _ _ _ _ _ hs h2.1 h2.2
      intro hcon
      apply hne
      have hcs : (split_char k1).1 = (split_char k2).1 := by omega
      show ((split_char k1).1, _) = ((split_char k2).1, _)
      rw [hcs, hcon]
    · simp only [he, if_false]

/-- Claim C31 (amended): cached keys at different positions are independent.
For every fontset store, every new element `v` that is not a sub char table
(a face id is none), every key `k1` and every key `k2` whose position codes
are each unspecified (0 or negative) or 32 or more: when `k1` and `k2` name
different positions (another charset, or position codes that differ once a
code below 32 and what follows it are read as unspecified), `fontset_set` of
`v` at `k2` does not change the value read at the exact position of `k1`, and
for every character `c` whose base entry carries the key `k1`,
`fontset_ref_via_base` returns after the write what it returned before. -/
theorem fontset_set_keys_independent (split_char : Int → Int × Int × Int)
    (fontset : Lisp_Char_Table) (k1 k2 : Int) (v : Lisp_Object)
    (hv : SUB_CHAR_TABLE_P v = false) (h2 : key_codes_ok split_char k2)
    (hne : key_position split_char k1 ≠ key_position split_char k2) :
    fontset_ref_via_base_slot
        ((fontset_set split_char fontset k2 v).contents ((split_char k1).1 + 128))
        (split_char k1).2.1 (split_char k1).2.2
      = fontset_ref_via_base_slot (fontset.contents ((split_char k1).1 + 128))
        (split_char k1).2.1 (split_char k1).2.2 ∧
    ∀ (heap : Nat → Lisp_Char_Table) (base : Nat) (c : Int) (x : Lisp_Object),
      SINGLE_BYTE_CHAR_P c = false → FONTSET_BASE fontset = some base →
      fontset_ref split_char (heap base) c = .cons (.int k1) x →
      fontset_ref_via_base split_char heap (fontset_set split_char fontset k2 v) c
        = fontset_ref_via_base split_char heap fontset c := by
  have hslot := fontset_set_apart split_char fontset k1 k2 v hv h2 hne
  refine ⟨hslot, ?_⟩
  intro heap base c x hc hb he
  have hb2 : FONTSET_BASE (fontset_set split_char fontset k2 v) = some base := by
    rw [FONTSET_BASE_fontset_set]; exact hb
  rw [fontset_ref_via_base_key split_char heap _ c base k1 x hc hb2 he,
    fontset_ref_via_base_key split_char heap fontset c base k1 x hc hb he, hslot]

/-- Witness of C31 (amended): the realized fontset at address 2 of
`realized_with_charset_face` holds the face 5 for the key 49152, the generic
character of charset 0x92.  After `fontset_set` of the face 9 at the key
55329, of the same charset, the read at the position of 49152 and the lookup
for the character 55457, whose base entry carries the key 49152, give what
they gave before, the face 5. -/
theorem fontset_set_keys_independent_witness :
    key_codes_ok SPLIT_NON_ASCII_CHAR 55329 ∧
    key_position SPLIT_NON_ASCII_CHAR 49152 ≠ key_position SPLIT_NON_ASCII_CHAR 55329 ∧
    fontset_ref_via_base SPLIT_NON_ASCII_CHAR realized_with_charset_face.heap
        (realized_with_charset_face.heap 2) 55457 = some (.int 5, 49152) ∧
    fontset_ref_via_base SPLIT_NON_ASCII_CHAR realized_with_charset_face.heap
        (fontset_set SPLIT_NON_ASCII_CHAR (realized_with_charset_face.heap 2) 55329 (.int 9))
        55457
      = fontset_ref_via_base SPLIT_NON_ASCII_CHAR realized_with_charset_face.heap
        (realized_with_charset_face.heap 2) 55457 :=
  ⟨by unfold key_codes_ok; decide, by decide, rfl,
    (fontset_set_keys_independent SPLIT_NON_ASCII_CHAR (realized_with_charset_face.heap 2)
      49152 55329 (.int 9) rfl (by unfold key_codes_ok; decide) (by decide)).2
      realized_with_charset_face.heap 1 55457 (.str ['a']) (by decide) rfl rfl⟩

/-- Counterexample of C31 as stated: the characters 4096 and 16384 are
distinct and both well formed, with the position codes (0, -1) and (0, 0) in
charset 0x90: both name the position of the whole charset.  In an empty
realized fontset the lookup for the character 22561, whose base entry carries
the key 4096, returns nil; after `fontset_set` of the face 7 at the key 16384
it returns 7. -/
theorem fontset_set_same_position_counterexample :
    (4096 : Int) ≠ 16384 ∧
    SPLIT_NON_ASCII_CHAR 4096 = (0x90, 0, -1) ∧
    SPLIT_NON_ASCII_CHAR 16384 = (0x90, 0, 0) ∧
    key_well_formed SPLIT_NON_ASCII_CHAR 4096 ∧
    key_well_formed SPLIT_NON_ASCII_CHAR 16384 ∧
    fontset_ref SPLIT_NON_ASCII_CHAR (heap_of_key_4096 0) 22561
      = .cons (.int 4096) (.str ['a']) ∧
    fontset_ref_via_base SPLIT_NON_ASCII_CHAR heap_of_key_4096 (heap_of_key_4096 1) 22561
      = some (.nil, 4096) ∧
    fontset_ref_via_base SPLIT_NON_ASCII_CHAR heap_of_key_4096
        (fontset_set SPLIT_NON_ASCII_CHAR (heap_of_key_4096 1) 16384 (.int 7)) 22561
      = some (.int 7, 4096) ∧
    ¬ fontset_ref_via_base SPLIT_NON_ASCII_CHAR heap_of_key_4096
        (fontset_set SPLIT_NON_ASCII_CHAR (heap_of_key_4096 1) 16384 (.int 7)) 22561
      = fontset_ref_via_base SPLIT_NON_ASCII_CHAR heap_of_key_4096 (heap_of_key_4096 1)
        22561 := by
  refine ⟨by decide, by decide, by decide, by unfold key_well_formed; decide,
    by unfold key_well_formed; decide, rfl, rfl, rfl, ?_⟩
  intro h
  have h1 : fontset_ref_via_base SPLIT_NON_ASCII_CHAR heap_of_key_4096 (heap_of_key_4096 1)
      22561 = some (.nil, 4096) := rfl
  have h2 : fontset_ref_via_base SPLIT_NON_ASCII_CHAR heap_of_key_4096
      (fontset_set SPLIT_NON_ASCII_CHAR (heap_of_key_4096 1) 16384 (.int 7)) 22561
      = some (.int 7, 4096) := rfl
  rw [h1, h2] at h
  injection h with h
  injection h with h _
  exact Lisp_Object.noConfusion h

end Fontset
